import Mathlib

/-!
# Loopy: script-driven piecewise affine schedule transformation

Shallow embedding of `lib/Transform/PiecewiseAffineTransform.cpp`.

* isl objects are embedded by their denotation at one fixed valuation of the
  symbolic parameters: a set is a dimension together with a membership
  predicate on integer tuples, a map is two dimensions together with a binary
  predicate.  `isl_map_align_params` and the coalescing functions keep the
  denotation and are identities here.
* An isl handle is an `Option`: `none` is the NULL handle that isl returns on
  an error (spaces that do not match, a position out of bounds) and that every
  isl function propagates.
* isl decides the queries `is_injective`, `is_disjoint` and `is_empty`; the
  embedding takes the decision procedure from the isl context.
* Values of the C type `unsigned` are naturals, arithmetic on them is reduced
  modulo `2 ^ 32`.
-/

namespace Loopy

/-! ## Integer tuples -/

/-- Integer tuple, a point of an isl set. -/
abbrev Point := List Int

/-- Reduction of a natural number to the C type unsigned (32 bits). -/
def u32 (n : Nat) : Nat := n % 4294967296

/-- Coordinate number i of a point. -/
def coord (p : Point) (i : Nat) : Int := p.getD i 0

/-- Coordinatewise sum of two points. -/
def Point.add (a b : Point) : Point := List.zipWith (fun u v => u + v) a b

/-- Coordinatewise negation of a point. -/
def Point.neg (a : Point) : Point := a.map (fun u => -u)

/-- Strict lexicographic order over all coordinates: a comes before b. -/
def lexLt : Point → Point → Prop
  | a :: as, b :: bs => a < b ∨ (a = b ∧ lexLt as bs)
  | _, _ => False

/-- Lexicographic order over all coordinates: a is equal to b or comes after it. -/
def lexGe (a b : Point) : Prop := a = b ∨ lexLt b a

/-- Lexicographic order over all coordinates: a is equal to b or comes before it. -/
def lexLe (a b : Point) : Prop := a = b ∨ lexLt a b

/-! ## isl values -/

/-- Denotation of a non-NULL isl_set: its dimension and its membership predicate. -/
structure SetVal where
  dim : Nat
  pred : Point → Prop

/-- Membership of a point in a set value. -/
def SetVal.Mem (s : SetVal) (p : Point) : Prop := p.length = s.dim ∧ s.pred p

/-- Denotation of a non-NULL isl_map: input and output dimension and the relation. -/
structure MapVal where
  nIn : Nat
  nOut : Nat
  pred : Point → Point → Prop

/-- The pair (x, y) belongs to the map value. -/
def MapVal.Rel (m : MapVal) (x y : Point) : Prop :=
  x.length = m.nIn ∧ y.length = m.nOut ∧ m.pred x y

/-- Shape of a non-NULL isl_space (or isl_local_space): a set space or a map space. -/
inductive SpaceVal where
  | set (n : Nat)
  | map (nIn nOut : Nat)
deriving DecidableEq

/-- Handle of an isl set, none is NULL. -/
abbrev isl_set := Option SetVal

/-- Handle of an isl map, none is NULL. -/
abbrev isl_map := Option MapVal

/-- Handle of an isl space, none is NULL. -/
abbrev isl_space := Option SpaceVal

/-- Membership of a point in the set behind a handle; NULL has no members. -/
def isl_set.Mem : isl_set → Point → Prop
  | some v, p => v.Mem p
  | none, _ => False

/-- The pair (x, y) belongs to the map behind a handle; NULL relates nothing. -/
def isl_map.Rel : isl_map → Point → Point → Prop
  | some v, x, y => v.Rel x y
  | none, _, _ => False

/-- Kinds of dimensions of isl; isl_dim_set is the same value as isl_dim_out. -/
inductive isl_dim_type where
  | isl_dim_in
  | isl_dim_out
deriving DecidableEq

export isl_dim_type (isl_dim_in isl_dim_out)

/-- The set dimensions of a set are its output dimensions. -/
abbrev isl_dim_set : isl_dim_type := isl_dim_out

/-- Three-valued result of an isl query. -/
inductive isl_bool where
  | isl_bool_error
  | isl_bool_false
  | isl_bool_true
deriving DecidableEq

export isl_bool (isl_bool_error isl_bool_false isl_bool_true)

/-- C truth value of an isl_bool: error (-1) and true (1) are not zero. -/
def isl_bool.toBool : isl_bool → Bool
  | isl_bool_false => false
  | _ => true

/-- The isl context; isl decides the queries asked about its sets and maps. -/
structure isl_ctx where
  dec : (p : Prop) → Decidable p

/-- Result of a decided query as an isl_bool. -/
def isl_ctx.query (ctx : isl_ctx) (p : Prop) : isl_bool :=
  match ctx.dec p with
  | isTrue _ => isl_bool_true
  | isFalse _ => isl_bool_false

/-! ## isl spaces -/

/-- A set space with the given number of parameters (kept out of the model) and dimensions. -/
def isl_space_set_alloc (_nparam : Nat) (dim : Nat) : isl_space := some (SpaceVal.set dim)

/-- The map space from a set space to itself. -/
def isl_space_map_from_set : isl_space → isl_space
  | some (SpaceVal.set n) => some (SpaceVal.map n n)
  | _ => none

/-- Number of dimensions of the given kind of a space; 0 for NULL. -/
def isl_space_dim : isl_space → isl_dim_type → Nat
  | some (SpaceVal.set n), isl_dim_out => n
  | some (SpaceVal.set _), isl_dim_in => 0
  | some (SpaceVal.map a _), isl_dim_in => a
  | some (SpaceVal.map _ b), isl_dim_out => b
  | none, _ => 0

/-- Local spaces carry no more than their space here. -/
def isl_local_space_from_space (s : isl_space) : isl_space := s

/-- The space of a set. -/
def isl_set_get_space : isl_set → isl_space
  | some v => some (SpaceVal.set v.dim)
  | none => none

/-- The space of a map. -/
def isl_map_get_space : isl_map → isl_space
  | some v => some (SpaceVal.map v.nIn v.nOut)
  | none => none

/-- Number of dimensions of a set; 0 for NULL. -/
def isl_set_dim : isl_set → isl_dim_type → Nat
  | some v, isl_dim_out => v.dim
  | _, _ => 0

/-- Number of dimensions of the given kind of a map; 0 for NULL. -/
def isl_map_dim : isl_map → isl_dim_type → Nat
  | some v, isl_dim_in => v.nIn
  | some v, isl_dim_out => v.nOut
  | none, _ => 0

/-! ## isl sets -/

/-- The set of all points of a set space. -/
def isl_set_universe : isl_space → isl_set
  | some (SpaceVal.set n) => some ⟨n, fun _ => True⟩
  | _ => none

/-- The empty set of a set space. -/
def isl_set_empty : isl_space → isl_set
  | some (SpaceVal.set n) => some ⟨n, fun _ => False⟩
  | _ => none

/-- Coalescing keeps the set. -/
def isl_set_coalesce (s : isl_set) : isl_set := s

/-- Intersection of two sets of one space. -/
def isl_set_intersect : isl_set → isl_set → isl_set
  | some a, some b =>
    if a.dim = b.dim then some ⟨a.dim, fun p => a.pred p ∧ b.pred p⟩ else none
  | _, _ => none

/-- Union of two sets of one space. -/
def isl_set_union : isl_set → isl_set → isl_set
  | some a, some b =>
    if a.dim = b.dim then some ⟨a.dim, fun p => a.pred p ∨ b.pred p⟩ else none
  | _, _ => none

/-- Complement of a set in its space. -/
def isl_set_complement : isl_set → isl_set
  | some a => some ⟨a.dim, fun p => ¬ a.pred p⟩
  | none => none

/-- Image of a set under a map. -/
def isl_set_apply : isl_set → isl_map → isl_set
  | some s, some m =>
    if s.dim = m.nIn then some ⟨m.nOut, fun y => ∃ x, s.Mem x ∧ m.Rel x y⟩ else none
  | _, _ => none

/-- Fix coordinate pos of a set to the value v. -/
def isl_set_fix_si : isl_set → isl_dim_type → Nat → Int → isl_set
  | some s, isl_dim_out, pos, v =>
    if pos < s.dim then some ⟨s.dim, fun p => s.pred p ∧ coord p pos = v⟩ else none
  | _, _, _, _ => none

/-- Coordinatewise negation of the points of a set. -/
def isl_set_neg : isl_set → isl_set
  | some s => some ⟨s.dim, fun p => ∃ q, s.Mem q ∧ p = Point.neg q⟩
  | none => none

/-- Set of the sums of a point of the first and a point of the second set. -/
def isl_set_sum : isl_set → isl_set → isl_set
  | some a, some b =>
    if a.dim = b.dim then
      some ⟨a.dim, fun p => ∃ x y, a.Mem x ∧ b.Mem y ∧ p = Point.add x y⟩
    else none
  | _, _ => none

/-- Lexicographically greatest point of a set, as a set with at most one point
(isl reports an error on a set without upper bound; that error is outside the model). -/
def isl_set_lexmax : isl_set → isl_set
  | some s => some ⟨s.dim, fun p => s.Mem p ∧ ∀ q, s.Mem q → lexGe p q⟩
  | none => none

/-- Lexicographically least point of a set, as a set with at most one point
(isl reports an error on a set without lower bound; that error is outside the model). -/
def isl_set_lexmin : isl_set → isl_set
  | some s => some ⟨s.dim, fun p => s.Mem p ∧ ∀ q, s.Mem q → lexLe p q⟩
  | none => none

/-- The identity relation on a set. -/
def isl_set_identity : isl_set → isl_map
  | some s => some ⟨s.dim, s.dim, fun x y => s.Mem x ∧ y = x⟩
  | none => none

/-! ## isl maps -/

/-- The map relating every point of a map space to every point. -/
def isl_map_universe : isl_space → isl_map
  | some (SpaceVal.map a b) => some ⟨a, b, fun _ _ => True⟩
  | _ => none

/-- The product of a domain set and a range set. -/
def isl_map_from_domain_and_range : isl_set → isl_set → isl_map
  | some d, some r => some ⟨d.dim, r.dim, fun x y => d.Mem x ∧ r.Mem y⟩
  | _, _ => none

/-- The map from a set to the space without coordinates. -/
def isl_map_from_domain : isl_set → isl_map
  | some d => some ⟨d.dim, 0, fun x _ => d.Mem x⟩
  | none => none

/-- Coalescing keeps the map. -/
def isl_map_coalesce (m : isl_map) : isl_map := m

/-- Parameters are fixed in the model, aligning them keeps the map. -/
def isl_map_align_params (m : isl_map) (_params : isl_space) : isl_map := m

/-- Number of dimensions of the given kind of a map value. -/
def MapVal.dimOf (m : MapVal) : isl_dim_type → Nat
  | isl_dim_in => m.nIn
  | isl_dim_out => m.nOut

/-- Coordinate of the given kind and position of a pair of points. -/
def pairCoord (t : isl_dim_type) (pos : Nat) (x y : Point) : Int :=
  match t with
  | isl_dim_in => coord x pos
  | isl_dim_out => coord y pos

/-- Equate two coordinates of a map; NULL when a position is out of bounds. -/
def isl_map_equate : isl_map → isl_dim_type → Nat → isl_dim_type → Nat → isl_map
  | some m, t1, pos1, t2, pos2 =>
    if pos1 < m.dimOf t1 ∧ pos2 < m.dimOf t2 then
      some ⟨m.nIn, m.nOut, fun x y => m.pred x y ∧ pairCoord t1 pos1 x y = pairCoord t2 pos2 x y⟩
    else none
  | none, _, _, _, _ => none

/-- Fix one coordinate of a map to a value; NULL when the position is out of bounds. -/
def isl_map_fix_si : isl_map → isl_dim_type → Nat → Int → isl_map
  | some m, t, pos, v =>
    if pos < m.dimOf t then
      some ⟨m.nIn, m.nOut, fun x y => m.pred x y ∧ pairCoord t pos x y = v⟩
    else none
  | none, _, _, _ => none

/-- An affine constraint over a map space: coefficients of the input and of the
output coordinates and a constant; an equality or an inequality (at least 0). -/
structure ConstraintVal where
  isEq : Bool
  nIn : Nat
  nOut : Nat
  coefIn : Nat → Int
  coefOut : Nat → Int
  const : Int

/-- Handle of an isl constraint, none is NULL. -/
abbrev isl_constraint := Option ConstraintVal

/-- The equality constraint 0 = 0 over a map space. -/
def isl_constraint_alloc_equality : isl_space → isl_constraint
  | some (SpaceVal.map a b) => some ⟨true, a, b, fun _ => 0, fun _ => 0, 0⟩
  | _ => none

/-- The inequality constraint 0 >= 0 over a map space. -/
def isl_constraint_alloc_inequality : isl_space → isl_constraint
  | some (SpaceVal.map a b) => some ⟨false, a, b, fun _ => 0, fun _ => 0, 0⟩
  | _ => none

/-- Set the coefficient of one coordinate; NULL when the position is out of bounds. -/
def isl_constraint_set_coefficient_si : isl_constraint → isl_dim_type → Nat → Int → isl_constraint
  | some c, isl_dim_in, pos, v =>
    if pos < c.nIn then some { c with coefIn := Function.update c.coefIn pos v } else none
  | some c, isl_dim_out, pos, v =>
    if pos < c.nOut then some { c with coefOut := Function.update c.coefOut pos v } else none
  | none, _, _, _ => none

/-- Set the constant term of a constraint. -/
def isl_constraint_set_constant_si : isl_constraint → Int → isl_constraint
  | some c, v => some { c with const := v }
  | none, _ => none

/-- Value of the affine expression of a constraint at a pair of points. -/
def ConstraintVal.eval (c : ConstraintVal) (x y : Point) : Int :=
  ((List.range c.nIn).map (fun i => c.coefIn i * coord x i)).sum
    + ((List.range c.nOut).map (fun i => c.coefOut i * coord y i)).sum + c.const

/-- The constraint holds at a pair of points. -/
def ConstraintVal.Holds (c : ConstraintVal) (x y : Point) : Prop :=
  if c.isEq then c.eval x y = 0 else 0 ≤ c.eval x y

/-- Add a constraint of the same space to a map. -/
def isl_map_add_constraint : isl_map → isl_constraint → isl_map
  | some m, some c =>
    if m.nIn = c.nIn ∧ m.nOut = c.nOut then
      some ⟨m.nIn, m.nOut, fun x y => m.pred x y ∧ c.Holds x y⟩
    else none
  | _, _ => none

/-- Union of two maps of one space. -/
def isl_map_union : isl_map → isl_map → isl_map
  | some a, some b =>
    if a.nIn = b.nIn ∧ a.nOut = b.nOut then
      some ⟨a.nIn, a.nOut, fun x y => a.pred x y ∨ b.pred x y⟩
    else none
  | _, _ => none

/-- Intersection of two maps of one space. -/
def isl_map_intersect : isl_map → isl_map → isl_map
  | some a, some b =>
    if a.nIn = b.nIn ∧ a.nOut = b.nOut then
      some ⟨a.nIn, a.nOut, fun x y => a.pred x y ∧ b.pred x y⟩
    else none
  | _, _ => none

/-- Restrict the domain of a map to a set. -/
def isl_map_intersect_domain : isl_map → isl_set → isl_map
  | some m, some s =>
    if m.nIn = s.dim then some ⟨m.nIn, m.nOut, fun x y => m.pred x y ∧ s.pred x⟩ else none
  | _, _ => none

/-- The reversed map. -/
def isl_map_reverse : isl_map → isl_map
  | some m => some ⟨m.nOut, m.nIn, fun x y => m.pred y x⟩
  | none => none

/-- The domain of a map. -/
def isl_map_domain : isl_map → isl_set
  | some m => some ⟨m.nIn, fun x => ∃ y, m.Rel x y⟩
  | none => none

/-- Compose a second map onto the range of a map. -/
def isl_map_apply_range : isl_map → isl_map → isl_map
  | some m, some t =>
    if m.nOut = t.nIn then
      some ⟨m.nIn, t.nOut, fun x z => ∃ y, m.Rel x y ∧ t.Rel y z⟩
    else none
  | _, _ => none

/-- Replace every domain point of a map by its images under a second map. -/
def isl_map_apply_domain : isl_map → isl_map → isl_map
  | some m, some t =>
    if m.nIn = t.nIn then
      some ⟨t.nOut, m.nOut, fun a y => ∃ x, m.Rel x y ∧ t.Rel x a⟩
    else none
  | _, _ => none

/-- Pairs with the sum of an image under the first and an image under the second map. -/
def isl_map_sum : isl_map → isl_map → isl_map
  | some a, some b =>
    if a.nIn = b.nIn ∧ a.nOut = b.nOut then
      some ⟨a.nIn, a.nOut, fun x y => ∃ u v, a.Rel x u ∧ b.Rel x v ∧ y = Point.add u v⟩
    else none
  | _, _ => none

/-- The relation first point lexicographically greater than or equal to the second,
over all coordinates of a set space. -/
def isl_map_lex_ge : isl_space → isl_map
  | some (SpaceVal.set n) => some ⟨n, n, fun x y => lexGe x y⟩
  | _ => none

/-- No two distinct points have a common image. -/
def MapVal.Injective (m : MapVal) : Prop :=
  ∀ x1 x2 y, m.Rel x1 y → m.Rel x2 y → x1 = x2

/-- The map behind a handle sends no two distinct points to a common image. -/
def isl_map.Injective (T : isl_map) : Prop :=
  ∀ x1 x2 y, T.Rel x1 y → T.Rel x2 y → x1 = x2

/-- Injectivity query. -/
def isl_map_is_injective (ctx : isl_ctx) : isl_map → isl_bool
  | some m => ctx.query m.Injective
  | none => isl_bool_error

/-- Two map values have no pair in common. -/
def MapVal.Disjoint (a b : MapVal) : Prop := ∀ x y, ¬ (a.Rel x y ∧ b.Rel x y)

/-- Disjointness query; maps of different spaces have no pair in common. -/
def isl_map_is_disjoint (ctx : isl_ctx) : isl_map → isl_map → isl_bool
  | some a, some b =>
    if a.nIn = b.nIn ∧ a.nOut = b.nOut then ctx.query (a.Disjoint b) else isl_bool_true
  | _, _ => isl_bool_error

/-! ## isl union sets and union maps -/

/-- One set of a union set, in the space with the given tuple name. -/
structure USetPiece where
  name : String
  set : SetVal

/-- One map of a union map, between the spaces with the given tuple names. -/
structure UMapPiece where
  inName : String
  outName : String
  map : MapVal

/-- Handle of a union set: the list of its sets, none is NULL.  Sets of one space
may stand in several entries, and an entry may be empty. -/
abbrev isl_union_set := Option (List USetPiece)

/-- Handle of a union map: the list of its maps, none is NULL. -/
abbrev isl_union_map := Option (List UMapPiece)

/-- The point x of the space named n belongs to the union set. -/
def isl_union_set.Mem : isl_union_set → String → Point → Prop
  | some ps, n, x => ∃ p ∈ ps, p.name = n ∧ p.set.Mem x
  | none, _, _ => False

/-- The pair of x in the space named n1 and y in the space named n2 belongs to the union map. -/
def isl_union_map.Rel : isl_union_map → String → Point → String → Point → Prop
  | some ps, n1, x, n2, y => ∃ p ∈ ps, p.inName = n1 ∧ p.outName = n2 ∧ p.map.Rel x y
  | none, _, _, _, _ => False

/-- The union set holding one set of the space with the given tuple name. -/
def isl_union_set_from_set (name : String) : isl_set → isl_union_set
  | some s => some [⟨name, s⟩]
  | none => none

/-- The union map holding one map between spaces without tuple name. -/
def isl_union_map_from_map : isl_map → isl_union_map
  | some m => some [⟨"", "", m⟩]
  | none => none

/-- Coalescing keeps the union map. -/
def isl_union_map_coalesce (u : isl_union_map) : isl_union_map := u

/-- Restrict the domain of one map to the sets of its domain space; none when
there is no set of that space. -/
def restrictPiece (ss : List USetPiece) (p : UMapPiece) : Option UMapPiece :=
  if ss.any (fun q => decide (q.name = p.inName ∧ q.set.dim = p.map.nIn)) then
    some ⟨p.inName, p.outName, ⟨p.map.nIn, p.map.nOut,
      fun x y => p.map.pred x y ∧ ∃ q ∈ ss, q.name = p.inName ∧ q.set.Mem x⟩⟩
  else none

/-- Restrict the domain of every map to the sets of the same space; maps without
a set of their domain space are dropped. -/
def isl_union_map_intersect_domain : isl_union_map → isl_union_set → isl_union_map
  | some ms, some ss => some (ms.filterMap (restrictPiece ss))
  | _, _ => none

/-- The ranges of the maps of a union map. -/
def isl_union_map_range : isl_union_map → isl_union_set
  | some ms => some (ms.map fun p => ⟨p.outName, ⟨p.map.nOut, fun y => ∃ x, p.map.Rel x y⟩⟩)
  | none => none

/-- The single set of a union set; NULL unless all entries lie in one space. -/
def isl_set_from_union_set : isl_union_set → isl_set
  | some (p :: ps) =>
    if ps.all (fun q => decide (q.name = p.name ∧ q.set.dim = p.set.dim)) then
      some ⟨p.set.dim, fun x => ∃ q ∈ p :: ps, q.set.pred x⟩
    else none
  | _ => none

/-- The single map of a union map; NULL unless all entries lie in one space. -/
def isl_map_from_union_map : isl_union_map → isl_map
  | some (p :: ps) =>
    if ps.all (fun q => decide (q.inName = p.inName ∧ q.outName = p.outName
        ∧ q.map.nIn = p.map.nIn ∧ q.map.nOut = p.map.nOut)) then
      some ⟨p.map.nIn, p.map.nOut, fun x y => ∃ q ∈ p :: ps, q.map.pred x y⟩
    else none
  | _ => none

/-- Compose the maps of the second union map onto the ranges of the maps of the
first, wherever the spaces fit. -/
def isl_union_map_apply_range : isl_union_map → isl_union_map → isl_union_map
  | some ms, some ts =>
    some ((ms.map fun p => ts.filterMap fun t =>
      if p.outName = t.inName ∧ p.map.nOut = t.map.nIn then
        some ⟨p.inName, t.outName, ⟨p.map.nIn, t.map.nOut,
          fun x z => ∃ y, p.map.Rel x y ∧ t.map.Rel y z⟩⟩
      else none).flatten)
  | _, _ => none

/-- Replace the domain points of the maps of the first union map by their images
under the maps of the second, wherever the spaces fit. -/
def isl_union_map_apply_domain : isl_union_map → isl_union_map → isl_union_map
  | some ms, some ts =>
    some ((ms.map fun p => ts.filterMap fun t =>
      if p.inName = t.inName ∧ p.map.nIn = t.map.nIn then
        some ⟨t.outName, p.outName, ⟨t.map.nOut, p.map.nOut,
          fun a y => ∃ x, p.map.Rel x y ∧ t.map.Rel x a⟩⟩
      else none).flatten)
  | _, _ => none

/-- Emptiness query on a union map. -/
def isl_union_map_is_empty (ctx : isl_ctx) : isl_union_map → isl_bool
  | some ms => ctx.query (∀ p ∈ ms, ∀ x y, ¬ p.map.Rel x y)
  | none => isl_bool_error

/-! ## The region (Scop), its statements and the dependence analysis -/

/-- Modelled from the spec: a statement of the region (class ScopStmt, declared
outside this file): the tuple name of its iteration space, its iteration domain
and its schedule, the relation from iteration vectors to schedule vectors that
setSchedule replaces. -/
structure ScopStmt where
  name : String
  domain : SetVal
  schedule : isl_map

/-- Modelled from the spec: the region (class Scop, declared outside this file):
its statements, the flag set by markAsOptimized, the label metadata
(LoopDomainMap holds NULL and LoopDimMap holds 0 for a label never assigned; the
domain of a label is a set of points of the original schedule space, the space
of the domain of the cumulative transform) and the isl context. -/
structure Scop where
  stmts : List ScopStmt
  optimized : Bool
  LoopDomainMap : String → isl_set
  LoopDimMap : String → Nat
  ctx : isl_ctx

/-- Modelled from the spec: number of statements of the region. -/
def Scop.getSize (S : Scop) : Nat := S.stmts.length

/-- Modelled from the spec: the iteration domains of all statements, one set per statement. -/
def Scop.getDomains (S : Scop) : isl_union_set :=
  some (S.stmts.map fun st => ⟨st.name, st.domain⟩)

/-- Modelled from the spec: the union of the schedules of a list of statements,
one relation per statement; NULL when the schedule of a statement is NULL. -/
def unionOfSchedules : List ScopStmt → isl_union_map
  | [] => some []
  | st :: rest =>
    match st.schedule, unionOfSchedules rest with
    | some m, some ps => some (⟨st.name, "", m⟩ :: ps)
    | _, _ => none

/-- Modelled from the spec: the schedules of all statements of the region. -/
def Scop.getSchedule (S : Scop) : isl_union_map := unionOfSchedules S.stmts

/-- Modelled from the spec: the parameter space of the region; parameters are
fixed in the model. -/
def Scop.getParamSpace (_S : Scop) : isl_space := some (SpaceVal.set 0)

/-- Modelled from the spec: the region is marked as optimized. -/
def Scop.markAsOptimized (S : Scop) : Scop := { S with optimized := true }

/-- Modelled from the spec: the domain of a statement. -/
def ScopStmt.getDomain (st : ScopStmt) : isl_set := some st.domain

/-- Modelled from the spec: the space of the domain of a statement. -/
def ScopStmt.getDomainSpace (st : ScopStmt) : isl_space := some (SpaceVal.set st.domain.dim)

/-- Modelled from the spec: install a schedule in a statement. -/
def ScopStmt.setSchedule (st : ScopStmt) (m : isl_map) : ScopStmt := { st with schedule := m }

/-- Modelled from the spec: the result of the dependence analysis (class
Dependences, declared outside this file): whether it is valid, and the
dependences of the requested kinds between statement instances. -/
structure Dependences where
  hasValidDependences : Bool
  getDependences : Nat → isl_union_map

/-- Modelled from the spec: kind read-after-write. -/
def TYPE_RAW : Nat := 1

/-- Modelled from the spec: kind write-after-read. -/
def TYPE_WAR : Nat := 2

/-- Modelled from the spec: kind write-after-write. -/
def TYPE_WAW : Nat := 4

/-! ## Directives (OptParser.h) -/

/-- Variable: a label. -/
structure varNodeType where
  name : String

/-- Realign node. -/
structure realignNodeType where
  l1 : varNodeType
  l2 : varNodeType
  n : Nat

/-- Index split node; pred holds the set that isl_set_read_from_str reads from
the text of the predicate. -/
structure isplitNodeType where
  l : varNodeType
  r1 : varNodeType
  r2 : varNodeType
  pred : isl_set
  n : Nat

/-- Affine transform node; trans holds the map that isl_map_read_from_str reads
from the text of the relation. -/
structure affineNodeType where
  l : varNodeType
  trans : isl_map

/-- Lift node. -/
structure liftNodeType where
  l : varNodeType
  r : varNodeType
  n : Nat

/-- A parsed directive: the tag and the node of that kind. -/
inductive nodeType where
  | typeRealign (m : realignNodeType)
  | typeISplit (is : isplitNodeType)
  | typeAffine (a : affineNodeType)
  | typeLift (l : liftNodeType)

/-! ## Coordinate-space mapper and ordering relations -/

/-- Map from an iteration vector [i, j, k] to the schedule vectors
[o1, i, o2, j, o3, k, o4, ...]. -/
def iterToScheduleMap (S : Scop) (iterSize scheduleSize : Nat) : isl_map :=
  let iterSpace := isl_space_set_alloc 0 iterSize
  let scheduleSpace := isl_space_set_alloc 0 scheduleSize
  let trans := isl_map_from_domain_and_range (isl_set_universe iterSpace)
    (isl_set_universe scheduleSpace)
  let trans := (List.range iterSize).foldl
    (fun trans i => isl_map_equate trans isl_dim_out (u32 (2 * i + 1)) isl_dim_in i) trans
  isl_map_align_params trans S.getParamSpace

/-- Lexicographic greater-than order on the first n constant schedule dimensions. -/
def scheduleLexGt (S : Scop) (scheduleSize n : Nat) : isl_map :=
  let scheduleSpace := isl_space_set_alloc 0 scheduleSize
  let lex := isl_map_from_domain_and_range (isl_set_empty scheduleSpace)
    (isl_set_empty scheduleSpace)
  let lex := (List.range n).foldl
    (fun lex i =>
      let t := isl_map_from_domain_and_range (isl_set_universe scheduleSpace)
        (isl_set_universe scheduleSpace)
      let t := (List.range i).foldl
        (fun t j => isl_map_equate t isl_dim_out (u32 (2 * j)) isl_dim_in (u32 (2 * j))) t
      let c := isl_constraint_alloc_inequality (isl_local_space_from_space (isl_map_get_space t))
      let c := isl_constraint_set_coefficient_si c isl_dim_in (u32 (2 * i)) 1
      let c := isl_constraint_set_coefficient_si c isl_dim_out (u32 (2 * i)) (-1)
      let c := isl_constraint_set_constant_si c (-1)
      let t := isl_map_add_constraint t c
      isl_map_union lex t) lex
  isl_map_align_params lex S.getParamSpace

/-- Lexicographic equality on the first n constant schedule dimensions. -/
def scheduleLexEq (S : Scop) (scheduleSize n : Nat) : isl_map :=
  let scheduleSpace := isl_space_set_alloc 0 scheduleSize
  let lex := isl_map_from_domain_and_range (isl_set_universe scheduleSpace)
    (isl_set_universe scheduleSpace)
  let lex := (List.range n).foldl
    (fun lex i => isl_map_equate lex isl_dim_out (u32 (2 * i)) isl_dim_in (u32 (2 * i))) lex
  isl_map_align_params lex S.getParamSpace

/-- The indices 0, 2, 4, ... below n, as the loop with step 2 visits them. -/
def evenBelow (n : Nat) : List Nat := (List.range n).filter fun i => i % 2 = 0

/-- Self-map of a space that keeps the coordinates at even positions and sets
the coordinates at odd positions to 0. -/
def zeroIterDims (S : Scop) (space : isl_space) : isl_map :=
  let map := isl_map_universe (isl_space_map_from_set space)
  let n := isl_space_dim space isl_dim_set
  let map := (evenBelow n).foldl
    (fun map i =>
      let map := isl_map_equate map isl_dim_out i isl_dim_in i
      if u32 (i + 1) < n then isl_map_fix_si map isl_dim_out (u32 (i + 1)) 0 else map) map
  isl_map_align_params map S.getParamSpace

/-! ## Directive interpreter -/

/-- Subtraction on the C type unsigned. -/
def u32sub (a b : Nat) : Nat := u32 (u32 a + (4294967296 - u32 b))

/-- The indices from, from + 1, ... below to, as a loop with step 1 visits them. -/
def fromTo (start stop : Nat) : List Nat := List.range' start (stop - start)

/-- Original schedule range of the region:
the range of the schedule restricted to the iteration domains. -/
def scheduleRange (S : Scop) : isl_set :=
  let schedule := isl_union_map_intersect_domain S.getSchedule S.getDomains
  isl_set_coalesce (isl_set_from_union_set (isl_union_map_range schedule))

/-- Case typeRealign of applyUnitTransform: none is the early return of the
ambient transform, otherwise the unit map and the region. -/
def caseRealign (S : Scop) (m : realignNodeType) (transform : isl_map) (postDomain : isl_set) :
    Option (isl_map × Scop) :=
  let sl1 := m.l1.name
  let sl2 := m.l2.name
  let n := m.n
  if (S.LoopDomainMap sl1).isNone || (S.LoopDomainMap sl1).isNone then none else
  let preLoopDomain1 := S.LoopDomainMap sl1
  let postLoopDomain1 := isl_set_apply preLoopDomain1 transform
  let preLoopDomain2 := S.LoopDomainMap sl2
  let _postLoopDomain2 := isl_set_apply preLoopDomain2 transform
  -- Left domain: statements before loop l1 and l1
  let lexOrder := scheduleLexGt S (isl_set_dim postDomain isl_dim_set)
    (u32 (isl_set_dim postDomain isl_dim_set + 1) / 2)
  let leftDomain := isl_set_apply postLoopDomain1 lexOrder
  let leftDomain := isl_set_union leftDomain postLoopDomain1
  let leftDomain := isl_set_intersect leftDomain postDomain
  -- Right domain
  let rightDomain := isl_set_complement leftDomain
  let rightDomain := isl_set_intersect rightDomain postDomain
  let leftMap := isl_set_identity leftDomain
  let rightMap := isl_set_identity rightDomain
  let zeroIters := zeroIterDims S (isl_set_get_space leftDomain)
  let leftMax := isl_set_apply leftDomain zeroIters
  let rightMin := isl_set_apply rightDomain zeroIters
  let leftMax := isl_set_lexmax leftMax
  let rightMin := isl_set_lexmin rightMin
  -- Difference
  let gap := isl_set_sum (isl_set_neg rightMin) leftMax
  -- Increment gap by 1
  let inc := isl_set_universe (isl_set_get_space gap)
  let inc := (List.range (isl_set_dim gap isl_dim_set)).foldl
    (fun inc i =>
      if i ≠ u32 (n * 2) then isl_set_fix_si inc isl_dim_set i 0
      else isl_set_fix_si inc isl_dim_set i 1) inc
  let gap := isl_set_sum gap inc
  -- update right map
  let gapMap := isl_map_from_domain_and_range rightDomain gap
  let rightMap := isl_map_sum rightMap gapMap
  some (isl_map_union leftMap rightMap, S)

/-- Case typeISplit of applyUnitTransform. -/
def caseISplit (S : Scop) (is : isplitNodeType) (transform : isl_map) (postDomain : isl_set) :
    Option (isl_map × Scop) :=
  let sl := is.l.name
  let sr1 := is.r1.name
  let sr2 := is.r2.name
  let n := is.n
  if (S.LoopDomainMap sl).isNone then none else
  let preLoopDomain := S.LoopDomainMap sl
  let postLoopDomain := isl_set_apply preLoopDomain transform
  -- Read predicate
  let pred := is.pred
  -- Extend predicate set to match schedule dimension
  let pred := isl_set_apply pred
    (iterToScheduleMap S (isl_set_dim pred isl_dim_set) (isl_set_dim postDomain isl_dim_set))
  let pred := isl_set_intersect pred postLoopDomain
  -- Left domain: statements before l, and l with the iterations given by pred
  let lexOrder := scheduleLexGt S (isl_set_dim postDomain isl_dim_set)
    (u32 (isl_set_dim postDomain isl_dim_set + 1) / 2)
  let leftDomain := isl_set_apply postLoopDomain lexOrder
  let leftDomain := isl_set_union leftDomain pred
  let leftDomain := isl_set_intersect leftDomain postDomain
  let leftMap := isl_set_identity leftDomain
  -- Right domain: extend the schedule order by 1 for the nth index
  let rightDomain := isl_set_complement leftDomain
  let rightDomain := isl_set_intersect rightDomain postDomain
  let rightMap := isl_map_from_domain_and_range rightDomain
    (isl_set_universe (isl_set_get_space rightDomain))
  let c := isl_constraint_alloc_equality (isl_local_space_from_space (isl_map_get_space rightMap))
  let c := isl_constraint_set_coefficient_si c isl_dim_in (u32 (n * 2)) (-1)
  let c := isl_constraint_set_coefficient_si c isl_dim_out (u32 (n * 2)) 1
  let c := isl_constraint_set_constant_si c (-1)
  let rightMap := isl_map_add_constraint rightMap c
  -- Equate input and output constant dimensions
  let rightMap := (List.range (u32 (n * 2))).foldl
    (fun rightMap i => isl_map_equate rightMap isl_dim_out i isl_dim_in i) rightMap
  let rightMap := (fromTo (u32 (u32 (n * 2) + 1)) (isl_set_dim postDomain isl_dim_set)).foldl
    (fun rightMap i => isl_map_equate rightMap isl_dim_out i isl_dim_in i) rightMap
  let map := isl_map_union leftMap rightMap
  -- Assign new loop domains to labels
  let invTrans := isl_map_reverse transform
  let invPred := isl_set_apply pred invTrans
  let dom1 := isl_set_coalesce (isl_set_intersect preLoopDomain invPred)
  let S := { S with LoopDomainMap := Function.update S.LoopDomainMap sr1 dom1 }
  let dom2 := isl_set_coalesce (isl_set_intersect postDomain
    (isl_set_intersect preLoopDomain (isl_set_complement invPred)))
  let S := { S with LoopDomainMap := Function.update S.LoopDomainMap sr2 dom2 }
  let S := { S with LoopDimMap := Function.update S.LoopDimMap sr1 (S.LoopDimMap sl) }
  let S := { S with LoopDimMap := Function.update S.LoopDimMap sr2 (S.LoopDimMap sl) }
  some (map, S)

/-- Case typeAffine of applyUnitTransform. -/
def caseAffine (S : Scop) (a : affineNodeType) (transform : isl_map) (postDomain : isl_set) :
    Option (isl_map × Scop) :=
  let sl := a.l.name
  if (S.LoopDomainMap sl).isNone then none else
  let preLoopDomain := S.LoopDomainMap sl
  let loopDim := S.LoopDimMap sl
  -- Get transformed domain
  let postLoopDomain := isl_set_apply preLoopDomain transform
  -- 1. Affine transform
  let amap := a.trans
  let amapInDim := isl_map_dim amap isl_dim_in
  let amapOutDim := isl_map_dim amap isl_dim_out
  let schInDim := isl_set_dim postDomain isl_dim_set
  let schOutDim := schInDim
  let offset := u32 (u32sub amapOutDim amapInDim * 2)
  let schOutDim :=
    if u32 (loopDim * 2 + 1 + offset) > schInDim then u32 (loopDim * 2 + 1 + offset)
    else schOutDim
  -- New loop dimension
  let loopDim := u32 (loopDim + offset / 2)
  -- Extend map to match input and output schedule dimensions
  let amap := isl_map_apply_domain amap (iterToScheduleMap S amapInDim schInDim)
  let amap := isl_map_apply_range amap (iterToScheduleMap S amapOutDim schOutDim)
  -- Equate input and output dimensions
  let amap := (evenBelow (min (u32 (amapInDim * 2)) (u32 (amapOutDim * 2)))).foldl
    (fun amap i => isl_map_equate amap isl_dim_out i isl_dim_in i) amap
  let amap := ((fromTo (u32 (amapInDim * 2)) schInDim).takeWhile
      (fun i => decide (u32 (i + offset) < schOutDim))).foldl
    (fun amap i => isl_map_equate amap isl_dim_out (u32 (i + offset)) isl_dim_in i) amap
  -- Set remaining dimensions to 0
  let amap := (evenBelow offset).foldl
    (fun amap i => isl_map_fix_si amap isl_dim_out (u32 (u32 (amapInDim * 2) + i)) 0) amap
  let amap := (fromTo (u32 (schInDim + offset)) schOutDim).foldl
    (fun amap i => isl_map_fix_si amap isl_dim_out i 0) amap
  let amap := isl_map_intersect_domain amap postLoopDomain
  let amap := isl_map_intersect_domain amap postDomain
  -- 2. Identity transform for remaining indices
  let newSpace := isl_space_set_alloc 0 schOutDim
  let cmap := isl_map_from_domain_and_range (isl_set_complement postLoopDomain)
    (isl_set_universe newSpace)
  let cmap := (List.range schInDim).foldl
    (fun cmap i => isl_map_equate cmap isl_dim_out i isl_dim_in i) cmap
  let cmap := (fromTo schInDim schOutDim).foldl
    (fun cmap i => isl_map_fix_si cmap isl_dim_out i 0) cmap
  let cmap := isl_map_intersect_domain cmap postDomain
  let map := isl_map_union amap cmap
  let S := { S with LoopDimMap := Function.update S.LoopDimMap sl loopDim }
  some (map, S)

/-- Case typeLift of applyUnitTransform. -/
def caseLift (S : Scop) (l : liftNodeType) (transform : isl_map) (postDomain : isl_set) :
    Option (isl_map × Scop) :=
  let sl := l.l.name
  let sr := l.r.name
  let n := l.n
  if (S.LoopDomainMap sl).isNone then none else
  let preLoopDomain := S.LoopDomainMap sl
  let postLoopDomain := isl_set_apply preLoopDomain transform
  -- Lift loop to nth loop
  let lexOrder := scheduleLexEq S (isl_set_dim postDomain isl_dim_set) n
  let postLoopDomain := isl_set_apply postLoopDomain lexOrder
  let invTrans := isl_map_reverse transform
  let dom := isl_set_apply postLoopDomain invTrans
  let S := { S with LoopDomainMap := Function.update S.LoopDomainMap sr dom }
  let S := { S with LoopDimMap := Function.update S.LoopDimMap sr (S.LoopDimMap sl) }
  some (isl_set_identity postDomain, S)

/-- The switch of applyUnitTransform over the kind of the directive: the unit
map of the directive and the region with the updated label metadata, or none
where the case returns the ambient transform at once. -/
def unitMap (S : Scop) (stmt : nodeType) (transform : isl_map) (postDomain : isl_set) :
    Option (isl_map × Scop) :=
  match stmt with
  | nodeType.typeRealign m => caseRealign S m transform postDomain
  | nodeType.typeISplit is => caseISplit S is transform postDomain
  | nodeType.typeAffine a => caseAffine S a transform postDomain
  | nodeType.typeLift l => caseLift S l transform postDomain

/-- Applies the unit transform given by the line str to transform; yyparse is
the parser of directives, which leaves stmtPtr NULL (none) when the line holds
no directive.  Returns the new transform and the region. -/
def applyUnitTransform (yyparse : String → Option nodeType) (S : Scop) (str : String)
    (transform : isl_map) : isl_map × Scop :=
  match yyparse str with
  | none => (transform, S)
  | some stmt =>
    -- New schedule domain of the program (after application of transform)
    let postDomain := isl_set_apply (scheduleRange S) transform
    match unitMap S stmt transform postDomain with
    | none => (transform, S)
    | some (map, S) =>
      let map := isl_map_align_params map S.getParamSpace
      let map := isl_map_coalesce map
      (isl_map_coalesce (isl_map_apply_range transform map), S)

/-! ## Transform pipeline -/

/-- The test line.find("//") == 0 of getTransform: the line starts with two slashes. -/
def isComment (line : String) : Bool :=
  match line.data with
  | '/' :: '/' :: _ => true
  | _ => false

/-- The cumulative transform of the script; src is the list of the lines of the
script file, none when the file cannot be opened. -/
def getTransform (yyparse : String → Option nodeType) (src : Option (List String)) (S : Scop) :
    isl_map × Scop :=
  -- Define identity transform
  let domain := scheduleRange S
  let Transform := isl_set_identity domain
  let Transform := isl_map_align_params Transform S.getParamSpace
  match src with
  | some lines =>
    lines.foldl
      (fun (acc : isl_map × Scop) line =>
        if !(isComment line) then applyUnitTransform yyparse acc.2 line acc.1 else acc)
      (Transform, S)
  | none => (Transform, S)

/-! ## Legality checker and commit stage -/

/-- What a run of the pass leaves behind: the region, whether the statement
schedules were replaced (otherwise the error message is printed), and the
relation printed as counter examples, when one is printed. -/
structure PassResult where
  scop : Scop
  applyTransform : Bool
  counterExamples : Option isl_map

/-- Dependences over schedule space, as runOnScop builds them from the validity
dependences of the analysis and the schedule. -/
def scheduleDeps (D : Dependences) (Schedule : isl_union_map) : isl_map :=
  let ValidityKinds := TYPE_RAW ||| TYPE_WAR ||| TYPE_WAW
  let Validity := D.getDependences ValidityKinds
  let Validity := isl_union_map_apply_domain Validity Schedule
  let Validity := isl_union_map_apply_range Validity Schedule
  let Validity := isl_union_map_coalesce Validity
  isl_map_from_union_map Validity

/-- The dependences transformed on both sides, as the dependence check builds them. -/
def newDeps (Deps Transform : isl_map) : isl_map :=
  let NewDeps := isl_map_apply_range Deps Transform
  let NewDeps := isl_map_apply_domain NewDeps Transform
  isl_map_coalesce NewDeps

/-- The checks of runOnScop on the cumulative transform: the value of
applyTransform and the counter examples printed. -/
def transformChecks (ctx : isl_ctx) (depsCheck : Bool) (Deps Transform : isl_map) :
    Bool × Option isl_map :=
  -- whether it is safe to apply the transformation
  let applyTransform := true
  -- Check that the transformation is injective
  let flag := isl_map_is_injective ctx Transform
  let applyTransform := if flag = isl_bool_false then false else applyTransform
  if depsCheck then
    -- Check if dependences are preserved
    let NewDeps := newDeps Deps Transform
    let LexOrder := isl_map_lex_ge (isl_set_get_space (isl_map_domain NewDeps))
    let flag := isl_map_is_disjoint ctx NewDeps LexOrder
    if flag = isl_bool_false then
      (false, some (isl_map_coalesce (isl_map_intersect NewDeps LexOrder)))
    else (applyTransform, none)
  else (applyTransform, none)

/-- The body of the commit loop of runOnScop for one statement. -/
def commitStmt (ctx : isl_ctx) (NewSchedule : isl_union_map) (Stmt : ScopStmt) : ScopStmt :=
  let Domain := Stmt.getDomain
  let StmtBand := isl_union_map_intersect_domain NewSchedule
    (isl_union_set_from_set Stmt.name Domain)
  let StmtSchedule :=
    if (isl_union_map_is_empty ctx StmtBand).toBool then
      isl_map_from_domain (isl_set_empty Stmt.getDomainSpace)
    else isl_map_from_union_map StmtBand
  Stmt.setSchedule StmtSchedule

/-- The pass on one region. -/
def runOnScop (yyparse : String → Option nodeType) (src : Option (List String))
    (D : Dependences) (S : Scop) : PassResult :=
  -- Skip empty SCoPs
  if S.getSize = 0 then ⟨S.markAsOptimized, false, none⟩ else
  let depsCheck := if !D.hasValidDependences then false else true
  -- Get iteration domain
  match S.getDomains with
  | none => ⟨S, false, none⟩
  | some _ =>
    -- Get schedule
    let Schedule := S.getSchedule
    -- Get dependences
    let Deps := if depsCheck then scheduleDeps D Schedule else none
    -- Get transformation (the label metadata of the region changes with it)
    let Transform := (getTransform yyparse src S).1
    let S := (getTransform yyparse src S).2
    -- Update the schedule
    let NewSchedule := isl_union_map_coalesce
      (isl_union_map_apply_range Schedule (isl_union_map_from_map Transform))
    let checks := transformChecks S.ctx depsCheck Deps Transform
    -- Update the Scop using new schedule
    let S := S.markAsOptimized
    if checks.1 then
      ⟨{ S with stmts := S.stmts.map (commitStmt S.ctx NewSchedule) }, true, checks.2⟩
    else ⟨S, false, checks.2⟩

/-! ## Named parts of the directive cases

The same expressions as in the cases of applyUnitTransform, under names, for
the statements about them. -/

/-- The set leftDomain of the cases typeRealign and typeISplit: the points of
the domain that lie in the set first or come before a point of the loop. -/
def leftDomainOf (S : Scop) (postLoopDomain first postDomain : isl_set) : isl_set :=
  isl_set_intersect
    (isl_set_union
      (isl_set_apply postLoopDomain
        (scheduleLexGt S (isl_set_dim postDomain isl_dim_set)
          (u32 (isl_set_dim postDomain isl_dim_set + 1) / 2)))
      first)
    postDomain

/-- The set rightDomain of the cases typeRealign and typeISplit. -/
def rightDomainOf (leftDomain postDomain : isl_set) : isl_set :=
  isl_set_intersect (isl_set_complement leftDomain) postDomain

/-- The set gap of the case typeRealign: greatest left point minus least right
point, after zeroIterDims, plus one at position n * 2. -/
def realignGap (S : Scop) (leftDomain rightDomain : isl_set) (n : Nat) : isl_set :=
  let zeroIters := zeroIterDims S (isl_set_get_space leftDomain)
  let leftMax := isl_set_lexmax (isl_set_apply leftDomain zeroIters)
  let rightMin := isl_set_lexmin (isl_set_apply rightDomain zeroIters)
  let gap := isl_set_sum (isl_set_neg rightMin) leftMax
  let inc := isl_set_universe (isl_set_get_space gap)
  let inc := (List.range (isl_set_dim gap isl_dim_set)).foldl
    (fun inc i =>
      if i ≠ u32 (n * 2) then isl_set_fix_si inc isl_dim_set i 0
      else isl_set_fix_si inc isl_dim_set i 1) inc
  isl_set_sum gap inc

/-- The set pred of the case typeISplit after its extension to the schedule
space and its intersection with the loop. -/
def isplitPred (S : Scop) (is : isplitNodeType) (transform : isl_map) (postDomain : isl_set) :
    isl_set :=
  isl_set_intersect
    (isl_set_apply is.pred
      (iterToScheduleMap S (isl_set_dim is.pred isl_dim_set)
        (isl_set_dim postDomain isl_dim_set)))
    (isl_set_apply (S.LoopDomainMap is.l.name) transform)

/-- The set invPred of the case typeISplit. -/
def isplitInvPred (S : Scop) (is : isplitNodeType) (transform : isl_map)
    (postDomain : isl_set) : isl_set :=
  isl_set_apply (isplitPred S is transform postDomain) (isl_map_reverse transform)

/-- The domain that the case typeISplit records for the label r1. -/
def isplitDomain1 (S : Scop) (is : isplitNodeType) (transform : isl_map)
    (postDomain : isl_set) : isl_set :=
  isl_set_coalesce (isl_set_intersect (S.LoopDomainMap is.l.name)
    (isplitInvPred S is transform postDomain))

/-- The domain that the case typeISplit records for the label r2. -/
def isplitDomain2 (S : Scop) (is : isplitNodeType) (transform : isl_map)
    (postDomain : isl_set) : isl_set :=
  isl_set_coalesce (isl_set_intersect postDomain
    (isl_set_intersect (S.LoopDomainMap is.l.name)
      (isl_set_complement (isplitInvPred S is transform postDomain))))

/-- The value offset of the case typeAffine. -/
def affineOffset (a : affineNodeType) : Nat :=
  u32 (u32sub (isl_map_dim a.trans isl_dim_out) (isl_map_dim a.trans isl_dim_in) * 2)

/-- The value schOutDim of the case typeAffine: the new schedule width. -/
def affineOutDim (S : Scop) (a : affineNodeType) (postDomain : isl_set) : Nat :=
  if u32 (S.LoopDimMap a.l.name * 2 + 1 + affineOffset a) > isl_set_dim postDomain isl_dim_set
  then u32 (S.LoopDimMap a.l.name * 2 + 1 + affineOffset a)
  else isl_set_dim postDomain isl_dim_set

/-- The new value of loopDim of the case typeAffine. -/
def affineNewDim (S : Scop) (a : affineNodeType) : Nat :=
  u32 (S.LoopDimMap a.l.name + affineOffset a / 2)

/-- The map amap of the case typeAffine before its restriction to the loop and
to the domain. -/
def affineMap (S : Scop) (a : affineNodeType) (postDomain : isl_set) : isl_map :=
  let amap := a.trans
  let amapInDim := isl_map_dim amap isl_dim_in
  let amapOutDim := isl_map_dim amap isl_dim_out
  let schInDim := isl_set_dim postDomain isl_dim_set
  let schOutDim := affineOutDim S a postDomain
  let offset := affineOffset a
  let amap := isl_map_apply_domain amap (iterToScheduleMap S amapInDim schInDim)
  let amap := isl_map_apply_range amap (iterToScheduleMap S amapOutDim schOutDim)
  let amap := (evenBelow (min (u32 (amapInDim * 2)) (u32 (amapOutDim * 2)))).foldl
    (fun amap i => isl_map_equate amap isl_dim_out i isl_dim_in i) amap
  let amap := ((fromTo (u32 (amapInDim * 2)) schInDim).takeWhile
      (fun i => decide (u32 (i + offset) < schOutDim))).foldl
    (fun amap i => isl_map_equate amap isl_dim_out (u32 (i + offset)) isl_dim_in i) amap
  let amap := (evenBelow offset).foldl
    (fun amap i => isl_map_fix_si amap isl_dim_out (u32 (u32 (amapInDim * 2) + i)) 0) amap
  (fromTo (u32 (schInDim + offset)) schOutDim).foldl
    (fun amap i => isl_map_fix_si amap isl_dim_out i 0) amap

/-- The map cmap of the case typeAffine: the identity, at the new width, for
the points outside the loop. -/
def affineRest (S : Scop) (a : affineNodeType) (transform : isl_map) (postDomain : isl_set) :
    isl_map :=
  let schInDim := isl_set_dim postDomain isl_dim_set
  let schOutDim := affineOutDim S a postDomain
  let newSpace := isl_space_set_alloc 0 schOutDim
  let cmap := isl_map_from_domain_and_range
    (isl_set_complement (isl_set_apply (S.LoopDomainMap a.l.name) transform))
    (isl_set_universe newSpace)
  let cmap := (List.range schInDim).foldl
    (fun cmap i => isl_map_equate cmap isl_dim_out i isl_dim_in i) cmap
  let cmap := (fromTo schInDim schOutDim).foldl
    (fun cmap i => isl_map_fix_si cmap isl_dim_out i 0) cmap
  isl_map_intersect_domain cmap postDomain

/-- The unit map that the switch of applyUnitTransform builds for a directive;
NULL also where the case returns early. -/
def elementaryMap (S : Scop) (stmt : nodeType) (transform : isl_map) (postDomain : isl_set) :
    isl_map :=
  match unitMap S stmt transform postDomain with
  | some (map, _) => map
  | none => none

/-- The domain that the case typeLift records for the label r. -/
def liftDomain (S : Scop) (l : liftNodeType) (transform : isl_map) (postDomain : isl_set) :
    isl_set :=
  isl_set_apply
    (isl_set_apply (isl_set_apply (S.LoopDomainMap l.l.name) transform)
      (scheduleLexEq S (isl_set_dim postDomain isl_dim_set) l.n))
    (isl_map_reverse transform)

/-- The set leftDomain of the case typeRealign. -/
def realignLeft (S : Scop) (m : realignNodeType) (transform : isl_map) (postDomain : isl_set) :
    isl_set :=
  leftDomainOf S (isl_set_apply (S.LoopDomainMap m.l1.name) transform)
    (isl_set_apply (S.LoopDomainMap m.l1.name) transform) postDomain

/-- The set rightDomain of the case typeRealign. -/
def realignRight (S : Scop) (m : realignNodeType) (transform : isl_map) (postDomain : isl_set) :
    isl_set :=
  rightDomainOf (realignLeft S m transform postDomain) postDomain

/-- The set leftMax of the case typeRealign. -/
def realignLeftMax (S : Scop) (m : realignNodeType) (transform : isl_map)
    (postDomain : isl_set) : isl_set :=
  isl_set_lexmax (isl_set_apply (realignLeft S m transform postDomain)
    (zeroIterDims S (isl_set_get_space (realignLeft S m transform postDomain))))

/-- The set rightMin of the case typeRealign. -/
def realignRightMin (S : Scop) (m : realignNodeType) (transform : isl_map)
    (postDomain : isl_set) : isl_set :=
  isl_set_lexmin (isl_set_apply (realignRight S m transform postDomain)
    (zeroIterDims S (isl_set_get_space (realignLeft S m transform postDomain))))

/-- The set leftDomain of the case typeISplit. -/
def isplitLeft (S : Scop) (is : isplitNodeType) (transform : isl_map) (postDomain : isl_set) :
    isl_set :=
  leftDomainOf S (isl_set_apply (S.LoopDomainMap is.l.name) transform)
    (isplitPred S is transform postDomain) postDomain

/-- The coordinates at the odd positions 1, 3, ..., 2 * n - 1 of a schedule
vector: the loop iterators. -/
def oddCoords (n : Nat) (x : Point) : Point := (List.range n).map fun i => coord x (2 * i + 1)

/-- The map rightMap of the case typeISplit: position n * 2 goes up by one, the
other positions stay. -/
def isplitShift (rightDomain : isl_set) (n : Nat) (postDomain : isl_set) : isl_map :=
  let rightMap := isl_map_from_domain_and_range rightDomain
    (isl_set_universe (isl_set_get_space rightDomain))
  let c := isl_constraint_alloc_equality (isl_local_space_from_space (isl_map_get_space rightMap))
  let c := isl_constraint_set_coefficient_si c isl_dim_in (u32 (n * 2)) (-1)
  let c := isl_constraint_set_coefficient_si c isl_dim_out (u32 (n * 2)) 1
  let c := isl_constraint_set_constant_si c (-1)
  let rightMap := isl_map_add_constraint rightMap c
  let rightMap := (List.range (u32 (n * 2))).foldl
    (fun rightMap i => isl_map_equate rightMap isl_dim_out i isl_dim_in i) rightMap
  (fromTo (u32 (u32 (n * 2) + 1)) (isl_set_dim postDomain isl_dim_set)).foldl
    (fun rightMap i => isl_map_equate rightMap isl_dim_out i isl_dim_in i) rightMap

/-- The point of w coordinates with 1 at position k and 0 elsewhere. -/
def unitVec (w k : Nat) : Point := (List.range w).map fun i => if i = k then 1 else 0

/-- The point reached from x by zeroIterDims: odd positions set to 0. -/
def zeroOdd (x : Point) : Point :=
  (List.range x.length).map fun i => if i % 2 = 0 then coord x i else 0

/-! ## Shapes of handles -/

/-- The handle holds a set of n dimensions. -/
def isl_set.HasDim (s : isl_set) (n : Nat) : Prop := ∃ v, s = some v ∧ v.dim = n

/-- The handle holds a map from a to b dimensions. -/
def isl_map.HasDims (m : isl_map) (a b : Nat) : Prop := ∃ v, m = some v ∧ v.nIn = a ∧ v.nOut = b

/-! ## Example region

One statement `Stmt` with the instances i = 0 and i = 1, scheduled at [0, i, 0];
the label L names its loop.  The instance i = 1 reads what the instance i = 0
writes. -/

/-- The statement of the example region. -/
def exStmt : ScopStmt :=
  { name := "Stmt"
    domain := ⟨1, fun p => p = [0] ∨ p = [1]⟩
    schedule := some ⟨1, 3, fun x y => y = [0, coord x 0, 0]⟩ }

/-- The example region, over a given isl context. -/
def exScop (ctx : isl_ctx) : Scop :=
  { stmts := [exStmt]
    optimized := false
    LoopDomainMap := fun l => if l = "L" then some ⟨3, fun p => p = [0, 0, 0] ∨ p = [0, 1, 0]⟩
      else none
    LoopDimMap := fun l => if l = "L" then 1 else 0
    ctx := ctx }

/-- The dependence of the example region: from instance 0 to instance 1. -/
def exDeps : Dependences :=
  { hasValidDependences := true
    getDependences := fun _ => some [⟨"Stmt", "Stmt", ⟨1, 1, fun x y => x = [0] ∧ y = [1]⟩⟩] }

/-- The example region without usable dependence information. -/
def exNoDeps : Dependences :=
  { hasValidDependences := false
    getDependences := fun _ => none }

/-! ## Second example region

Two loops with one instance each: statement S1 in loop L1, scheduled at
[0, i, 0], and statement S2 in loop L2, scheduled at [1, j, 0]. -/

/-- The statements of the second example region. -/
def ex2Stmts : List ScopStmt :=
  [ { name := "S1"
      domain := ⟨1, fun p => p = [0]⟩
      schedule := some ⟨1, 3, fun x y => y = [0, coord x 0, 0]⟩ },
    { name := "S2"
      domain := ⟨1, fun p => p = [0]⟩
      schedule := some ⟨1, 3, fun x y => y = [1, coord x 0, 0]⟩ } ]

/-- The second example region, over a given isl context: the labels L1 and L2
hold the schedule points of their loops, both loops have depth 1. -/
def ex2Scop (ctx : isl_ctx) : Scop :=
  { stmts := ex2Stmts
    optimized := false
    LoopDomainMap := fun l =>
      if l = "L1" then some ⟨3, fun p => p = [0, 0, 0]⟩
      else if l = "L2" then some ⟨3, fun p => p = [1, 0, 0]⟩
      else none
    LoopDimMap := fun l => if l = "L1" ∨ l = "L2" then 1 else 0
    ctx := ctx }

/-- Directive realign(L1, LX, 1), whose second label LX has no metadata. -/
def exRealignUnknown : nodeType :=
  nodeType.typeRealign ⟨⟨"L1"⟩, ⟨"LX"⟩, 1⟩

/-- Directive realign(L1, L2, 1): fuse the loop L2 into the band of L1. -/
def exRealign : nodeType :=
  nodeType.typeRealign ⟨⟨"L1"⟩, ⟨"L2"⟩, 1⟩

/-- Directive isplit(L2, A, B, j >= 1, 1). -/
def exSplit2 : nodeType :=
  nodeType.typeISplit ⟨⟨"L2"⟩, ⟨"A"⟩, ⟨"B"⟩, some ⟨1, fun p => 1 ≤ coord p 0⟩, 1⟩

/-- Directive affine(L1, [i] -> [i, 0]): wrap the loop L1 into one more loop. -/
def exAffine : nodeType :=
  nodeType.typeAffine ⟨⟨"L1"⟩, some ⟨1, 2, fun x y => y = [coord x 0, 0]⟩⟩

/-- Parser of the second example: it knows four lines. -/
def ex2Parse : String → Option nodeType :=
  fun s =>
    if s = "realign(L1, LX, 1)" then some exRealignUnknown
    else if s = "realign(L1, L2, 1)" then some exRealign
    else if s = "isplit(L2, A, B, j >= 1, 1)" then some exSplit2
    else if s = "affine(L1, [i] -> [i, 0])" then some exAffine
    else none

/-- Directive splitting L into A, the instances with i = 1, and B, the others. -/
def exSplit : nodeType :=
  nodeType.typeISplit ⟨⟨"L"⟩, ⟨"A"⟩, ⟨"B"⟩, some ⟨1, fun p => coord p 0 = 1⟩, 0⟩

/-- Parser of the example: it knows one line. -/
def exParse : String → Option nodeType :=
  fun s => if s = "isplit(L, A, B, i = 1, 0)" then some exSplit else none

/-- Directive lift(L1, R, 1): the label R for the loop of depth 1 around L1. -/
def exLift : nodeType :=
  nodeType.typeLift ⟨⟨"L1"⟩, ⟨"R"⟩, 1⟩

/-- Parser of the second example that also knows the line lift(L1, R, 1). -/
def exLiftParse : String → Option nodeType :=
  fun s => if s = "lift(L1, R, 1)" then some exLift else ex2Parse s

/-! ## Third example region

One statement in a nest of three loops, scheduled at [0, i, 0, j, 0, k, 0]; the
label L3 names the innermost loop, of depth 3. -/

/-- The statement of the third example region. -/
def ex3Stmt : ScopStmt :=
  { name := "S3"
    domain := ⟨3, fun p => p = [0, 0, 0]⟩
    schedule := some ⟨3, 7, fun x y => y = [0, coord x 0, 0, coord x 1, 0, coord x 2, 0]⟩ }

/-- The third example region, over a given isl context. -/
def ex3Scop (ctx : isl_ctx) : Scop :=
  { stmts := [ex3Stmt]
    optimized := false
    LoopDomainMap := fun l =>
      if l = "L3" then some ⟨7, fun p => p = [0, 0, 0, 0, 0, 0, 0]⟩ else none
    LoopDimMap := fun l => if l = "L3" then 3 else 0
    ctx := ctx }

/-- Directive affine(L3, [i, j] -> [i]): a relation from two to one coordinate. -/
def exShrink : nodeType :=
  nodeType.typeAffine ⟨⟨"L3"⟩, some ⟨2, 1, fun x y => y = [coord x 0]⟩⟩

/-- Parser of the third example: it knows one line. -/
def ex3Parse : String → Option nodeType :=
  fun s => if s = "affine(L3, [i, j] -> [i])" then some exShrink else none

/-- Directive affine(L3, [i, j] -> [i, j, 0, 0]): two more loops around the body. -/
def exGrow : nodeType :=
  nodeType.typeAffine ⟨⟨"L3"⟩, some ⟨2, 4, fun x y => y = [coord x 0, coord x 1, 0, 0]⟩⟩

/-! ## Frame lemmas: directives touch only the label metadata -/

theorem caseRealign_frame {S S' : Scop} {m : realignNodeType} {T map : isl_map} {pd : isl_set}
    (h : caseRealign S m T pd = some (map, S')) : S' = S := by
  unfold caseRealign at h
  dsimp only at h
  split at h
  · exact absurd h (by simp)
  · simp only [Option.some.injEq, Prod.mk.injEq] at h
    exact h.2.symm

theorem caseISplit_frame {S S' : Scop} {is : isplitNodeType} {T map : isl_map} {pd : isl_set}
    (h : caseISplit S is T pd = some (map, S')) : S'.stmts = S.stmts ∧ S'.ctx = S.ctx := by
  unfold caseISplit at h
  dsimp only at h
  split at h
  · exact absurd h (by simp)
  · simp only [Option.some.injEq, Prod.mk.injEq] at h
    rw [← h.2]
    exact ⟨rfl, rfl⟩

theorem caseAffine_frame {S S' : Scop} {a : affineNodeType} {T map : isl_map} {pd : isl_set}
    (h : caseAffine S a T pd = some (map, S')) : S'.stmts = S.stmts ∧ S'.ctx = S.ctx := by
  unfold caseAffine at h
  dsimp only at h
  split at h
  · exact absurd h (by simp)
  · simp only [Option.some.injEq, Prod.mk.injEq] at h
    rw [← h.2]
    exact ⟨rfl, rfl⟩

theorem caseLift_frame {S S' : Scop} {l : liftNodeType} {T map : isl_map} {pd : isl_set}
    (h : caseLift S l T pd = some (map, S')) : S'.stmts = S.stmts ∧ S'.ctx = S.ctx := by
  unfold caseLift at h
  dsimp only at h
  split at h
  · exact absurd h (by simp)
  · simp only [Option.some.injEq, Prod.mk.injEq] at h
    rw [← h.2]
    exact ⟨rfl, rfl⟩

theorem unitMap_frame {S S' : Scop} {stmt : nodeType} {T map : isl_map} {pd : isl_set}
    (h : unitMap S stmt T pd = some (map, S')) : S'.stmts = S.stmts ∧ S'.ctx = S.ctx := by
  cases stmt with
  | typeRealign m => rw [caseRealign_frame h]; exact ⟨rfl, rfl⟩
  | typeISplit is => exact caseISplit_frame h
  | typeAffine a => exact caseAffine_frame h
  | typeLift l => exact caseLift_frame h

theorem applyUnitTransform_frame (yyparse : String → Option nodeType) (S : Scop) (str : String)
    (T : isl_map) :
    (applyUnitTransform yyparse S str T).2.stmts = S.stmts
      ∧ (applyUnitTransform yyparse S str T).2.ctx = S.ctx := by
  unfold applyUnitTransform
  cases hp : yyparse str with
  | none => exact ⟨rfl, rfl⟩
  | some stmt =>
    simp only
    cases hu : unitMap S stmt T (isl_set_apply (scheduleRange S) T) with
    | none => exact ⟨rfl, rfl⟩
    | some r =>
      obtain ⟨map, S'⟩ := r
      exact unitMap_frame hu

theorem foldl_lines_frame (yyparse : String → Option nodeType) (lines : List String) :
    ∀ acc : isl_map × Scop,
      (lines.foldl (fun (acc : isl_map × Scop) line =>
        if !(isComment line) then applyUnitTransform yyparse acc.2 line acc.1 else acc)
        acc).2.stmts = acc.2.stmts
      ∧ (lines.foldl (fun (acc : isl_map × Scop) line =>
        if !(isComment line) then applyUnitTransform yyparse acc.2 line acc.1 else acc)
        acc).2.ctx = acc.2.ctx := by
  induction lines with
  | nil => intro acc; exact ⟨rfl, rfl⟩
  | cons line rest ih =>
    intro acc
    simp only [List.foldl_cons]
    by_cases hc : isComment line = true
    · simp only [hc, Bool.not_true, Bool.false_eq_true, if_false]
      exact ih acc
    · have hc' : isComment line = false := by simpa using hc
      simp only [hc', Bool.not_false, if_true]
      have h1 := ih (applyUnitTransform yyparse acc.2 line acc.1)
      have h2 := applyUnitTransform_frame yyparse acc.2 line acc.1
      exact ⟨h1.1.trans h2.1, h1.2.trans h2.2⟩

theorem getTransform_frame (yyparse : String → Option nodeType) (src : Option (List String))
    (S : Scop) :
    (getTransform yyparse src S).2.stmts = S.stmts
      ∧ (getTransform yyparse src S).2.ctx = S.ctx := by
  unfold getTransform
  cases src with
  | none => exact ⟨rfl, rfl⟩
  | some lines => exact foldl_lines_frame yyparse lines _

/-! ## Legality checks -/

theorem query_eq_false (ctx : isl_ctx) (p : Prop) : ctx.query p = isl_bool_false ↔ ¬ p := by
  unfold isl_ctx.query
  cases ctx.dec p with
  | isTrue h => simp [h]
  | isFalse h => simp [h]

theorem query_ne_error (ctx : isl_ctx) (p : Prop) : ctx.query p ≠ isl_bool_error := by
  unfold isl_ctx.query
  cases ctx.dec p <;> simp

theorem is_injective_false (ctx : isl_ctx) (T : isl_map) :
    isl_map_is_injective ctx T = isl_bool_false
      ↔ ∃ x1 x2 y, x1 ≠ x2 ∧ T.Rel x1 y ∧ T.Rel x2 y := by
  cases T with
  | none => simp [isl_map_is_injective, isl_map.Rel]
  | some t =>
    simp only [isl_map_is_injective, query_eq_false, MapVal.Injective, isl_map.Rel]
    constructor
    · intro h
      by_contra hc
      apply h
      intro x1 x2 y h1 h2
      by_contra hne
      exact hc ⟨x1, x2, y, hne, h1, h2⟩
    · rintro ⟨x1, x2, y, hne, h1, h2⟩ h
      exact hne (h x1 x2 y h1 h2)

theorem newDeps_Rel (Deps T : isl_map) (a b : Point) :
    (newDeps Deps T).Rel a b ↔ ∃ s t, Deps.Rel s t ∧ T.Rel s a ∧ T.Rel t b := by
  cases Deps with
  | none => simp [newDeps, isl_map_apply_range, isl_map_apply_domain, isl_map_coalesce, isl_map.Rel]
  | some d =>
    cases T with
    | none =>
      simp [newDeps, isl_map_apply_range, isl_map_apply_domain, isl_map_coalesce, isl_map.Rel]
    | some t =>
      simp only [newDeps, isl_map_apply_range, isl_map_coalesce]
      by_cases h1 : d.nOut = t.nIn
      · simp only [h1, if_true, isl_map_apply_domain]
        by_cases h2 : d.nIn = t.nIn
        · simp only [h2, if_true, isl_map.Rel, MapVal.Rel]
          constructor
          · rintro ⟨ha, hb, s, ⟨hs, hb', u, ⟨hs', hu, hd⟩, hu', hb'', ht⟩, hs'', ha', hta⟩
            exact ⟨s, u, ⟨hs', hu, hd⟩, ⟨hs'', ha', hta⟩, ⟨hu', hb'', ht⟩⟩
          · rintro ⟨s, u, ⟨hs', hu, hd⟩, ⟨hs'', ha', hta⟩, ⟨hu', hb'', ht⟩⟩
            exact ⟨ha', hb'', s, ⟨hs'', hb'', u, ⟨hs', hu, hd⟩, hu', hb'', ht⟩, hs'', ha', hta⟩
        · simp only [h2, if_false, isl_map.Rel, MapVal.Rel, false_iff]
          rintro ⟨s, u, ⟨hs', _, _⟩, ⟨hs'', _, _⟩, _⟩
          exact h2 (hs'.symm.trans hs'')
      · simp only [h1, if_false, isl_map_apply_domain, isl_map.Rel, MapVal.Rel, false_iff]
        rintro ⟨s, u, ⟨_, hu, _⟩, _, ⟨hu', _, _⟩⟩
        exact h1 (hu.symm.trans hu')

theorem newDeps_square {Deps T : isl_map} {nd : MapVal} (h : newDeps Deps T = some nd) :
    nd.nIn = nd.nOut := by
  cases Deps with
  | none => simp [newDeps, isl_map_apply_range, isl_map_apply_domain, isl_map_coalesce] at h
  | some d =>
    cases T with
    | none => simp [newDeps, isl_map_apply_range, isl_map_apply_domain, isl_map_coalesce] at h
    | some t =>
      simp only [newDeps, isl_map_apply_range, isl_map_coalesce] at h
      by_cases h1 : d.nOut = t.nIn
      · simp only [h1, if_true, isl_map_apply_domain] at h
        by_cases h2 : d.nIn = t.nIn
        · simp only [h2, if_true, Option.some.injEq] at h
          rw [← h]
        · simp [h2] at h
      · simp [h1, isl_map_apply_domain] at h

/-- The flag of the dependence check is false exactly when a transformed
dependence lies in the lexicographic greater-or-equal relation. -/
theorem deps_flag_false (ctx : isl_ctx) (Deps T : isl_map) :
    isl_map_is_disjoint ctx (newDeps Deps T)
        (isl_map_lex_ge (isl_set_get_space (isl_map_domain (newDeps Deps T)))) = isl_bool_false
      ↔ ∃ a b, (newDeps Deps T).Rel a b ∧ lexGe a b := by
  cases hnd : newDeps Deps T with
  | none => simp [isl_map_is_disjoint, isl_map.Rel]
  | some nd =>
    have hsq := newDeps_square hnd
    simp only [isl_map_domain, isl_set_get_space, isl_map_lex_ge, isl_map_is_disjoint,
      true_and, hsq.symm, if_true, query_eq_false, MapVal.Disjoint, isl_map.Rel]
    constructor
    · intro h
      by_contra hc
      apply h
      intro x y hxy
      apply hc
      exact ⟨x, y, hxy.1, hxy.2.2.2⟩
    · rintro ⟨a, b, hab, hge⟩ h
      exact h a b ⟨hab, hab.1, hab.2.1.trans hsq.symm, hge⟩

theorem transformChecks_fst (ctx : isl_ctx) (depsCheck : Bool) (Deps T : isl_map) :
    (transformChecks ctx depsCheck Deps T).1 = false
      ↔ (∃ x1 x2 y, x1 ≠ x2 ∧ T.Rel x1 y ∧ T.Rel x2 y)
        ∨ (depsCheck = true ∧ ∃ a b, (newDeps Deps T).Rel a b ∧ lexGe a b) := by
  rw [← is_injective_false ctx, ← deps_flag_false ctx]
  unfold transformChecks
  cases depsCheck <;> simp only [Bool.false_eq_true, if_false, if_true, false_and, or_false,
    true_and]
  · by_cases h : isl_map_is_injective ctx T = isl_bool_false <;> simp [h]
  · by_cases h2 : isl_map_is_disjoint ctx (newDeps Deps T)
        (isl_map_lex_ge (isl_set_get_space (isl_map_domain (newDeps Deps T)))) = isl_bool_false
    · simp [h2]
    · by_cases h : isl_map_is_injective ctx T = isl_bool_false <;> simp [h, h2]

theorem transformChecks_snd (ctx : isl_ctx) (depsCheck : Bool) (Deps T : isl_map) :
    ((transformChecks ctx depsCheck Deps T).2 = none
        ∧ ¬ (depsCheck = true ∧ ∃ a b, (newDeps Deps T).Rel a b ∧ lexGe a b))
      ∨ ((transformChecks ctx depsCheck Deps T).2
          = some (isl_map_intersect (newDeps Deps T)
            (isl_map_lex_ge (isl_set_get_space (isl_map_domain (newDeps Deps T)))))
        ∧ depsCheck = true ∧ ∃ a b, (newDeps Deps T).Rel a b ∧ lexGe a b) := by
  rw [← deps_flag_false ctx]
  unfold transformChecks
  cases depsCheck <;> simp only [Bool.false_eq_true, if_false, if_true, false_and, true_and]
  · simp
  · by_cases h2 : isl_map_is_disjoint ctx (newDeps Deps T)
        (isl_map_lex_ge (isl_set_get_space (isl_map_domain (newDeps Deps T)))) = isl_bool_false
    · simp [h2, isl_map_coalesce]
    · simp [h2]

theorem not_injective_iff (T : isl_map) :
    ¬ T.Injective ↔ ∃ x1 x2 y, x1 ≠ x2 ∧ T.Rel x1 y ∧ T.Rel x2 y := by
  unfold isl_map.Injective
  constructor
  · intro h
    by_contra hc
    apply h
    intro x1 x2 y h1 h2
    by_contra hne
    exact hc ⟨x1, x2, y, hne, h1, h2⟩
  · rintro ⟨x1, x2, y, hne, h1, h2⟩ h
    exact hne (h x1 x2 y h1 h2)

theorem getDomains_some (S : Scop) : ∃ d, S.getDomains = some d := ⟨_, rfl⟩

/-- The result of runOnScop on a region with statements, in terms of the checks. -/
theorem runOnScop_nonempty (yyparse : String → Option nodeType) (src : Option (List String))
    (D : Dependences) (S : Scop) (hS : S.getSize ≠ 0) :
    runOnScop yyparse src D S =
      if (transformChecks (getTransform yyparse src S).2.ctx
          (if !D.hasValidDependences then false else true)
          (if (if !D.hasValidDependences then false else true) = true
            then scheduleDeps D S.getSchedule else none)
          (getTransform yyparse src S).1).1 = true then
        ⟨{ (getTransform yyparse src S).2.markAsOptimized with
            stmts := (getTransform yyparse src S).2.markAsOptimized.stmts.map
              (commitStmt (getTransform yyparse src S).2.markAsOptimized.ctx
                (isl_union_map_coalesce (isl_union_map_apply_range S.getSchedule
                  (isl_union_map_from_map (getTransform yyparse src S).1)))) },
          true,
          (transformChecks (getTransform yyparse src S).2.ctx
            (if !D.hasValidDependences then false else true)
            (if (if !D.hasValidDependences then false else true) = true
              then scheduleDeps D S.getSchedule else none)
            (getTransform yyparse src S).1).2⟩
      else
        ⟨(getTransform yyparse src S).2.markAsOptimized, false,
          (transformChecks (getTransform yyparse src S).2.ctx
            (if !D.hasValidDependences then false else true)
            (if (if !D.hasValidDependences then false else true) = true
              then scheduleDeps D S.getSchedule else none)
            (getTransform yyparse src S).1).2⟩ := by
  unfold runOnScop
  rw [if_neg hS]
  rfl

/-- C1: all-or-nothing commit.  If the cumulative transform is not injective, or
the dependence information is valid and a transformed dependence lies in the
lexicographic greater-or-equal relation, then after the pass every statement is
as before the pass (so is its schedule), the region is marked as optimized and
the transformation is reported as not applied. -/
theorem C1_all_or_nothing (yyparse : String → Option nodeType) (src : Option (List String))
    (D : Dependences) (S : Scop)
    (h : ¬ (getTransform yyparse src S).1.Injective
      ∨ (D.hasValidDependences = true
        ∧ ∃ a b, (newDeps (scheduleDeps D S.getSchedule) (getTransform yyparse src S).1).Rel a b
            ∧ lexGe a b)) :
    (runOnScop yyparse src D S).scop.stmts = S.stmts
      ∧ (runOnScop yyparse src D S).scop.optimized = true
      ∧ (runOnScop yyparse src D S).applyTransform = false := by
  by_cases hS : S.getSize = 0
  · unfold runOnScop
    rw [if_pos hS]
    exact ⟨rfl, rfl, rfl⟩
  · rw [runOnScop_nonempty yyparse src D S hS]
    have hf : (transformChecks (getTransform yyparse src S).2.ctx
          (if !D.hasValidDependences then false else true)
          (if (if !D.hasValidDependences then false else true) = true
            then scheduleDeps D S.getSchedule else none)
          (getTransform yyparse src S).1).1 = false := by
      rw [transformChecks_fst]
      rcases h with h | ⟨hv, a, b, hab⟩
      · exact Or.inl ((not_injective_iff _).1 h)
      · right
        simp only [hv, Bool.not_true, Bool.false_eq_true, if_false, if_true, true_and]
        exact ⟨a, b, hab⟩
    rw [hf]
    exact ⟨(getTransform_frame yyparse src S).1, rfl, rfl⟩

/-- C2: the dependence-preservation check.  No counter example is reported
(the check passes) exactly when no dependence (s, t) has images s' of s and t'
of t under the transform with s' lexicographically greater than or equal to t';
when the check fails the transformation is not applied, and the reported
relation holds exactly those pairs (s', t') and is not empty. -/
theorem C2_dependence_check (ctx : isl_ctx) (Deps T : isl_map) :
    ((transformChecks ctx true Deps T).2 = none
        ↔ ¬ ∃ s t s' t', Deps.Rel s t ∧ T.Rel s s' ∧ T.Rel t t' ∧ lexGe s' t')
      ∧ ∀ ce, (transformChecks ctx true Deps T).2 = some ce →
          (transformChecks ctx true Deps T).1 = false
          ∧ (∀ a b, ce.Rel a b ↔ ∃ s t, Deps.Rel s t ∧ T.Rel s a ∧ T.Rel t b ∧ lexGe a b)
          ∧ ∃ a b, ce.Rel a b := by
  have key : (∃ a b, (newDeps Deps T).Rel a b ∧ lexGe a b)
      ↔ ∃ s t s' t', Deps.Rel s t ∧ T.Rel s s' ∧ T.Rel t t' ∧ lexGe s' t' := by
    constructor
    · rintro ⟨a, b, hab, hge⟩
      obtain ⟨s, t, h1, h2, h3⟩ := (newDeps_Rel Deps T a b).1 hab
      exact ⟨s, t, a, b, h1, h2, h3, hge⟩
    · rintro ⟨s, t, a, b, h1, h2, h3, hge⟩
      exact ⟨a, b, (newDeps_Rel Deps T a b).2 ⟨s, t, h1, h2, h3⟩, hge⟩
  have hce : ∀ a b, (isl_map_intersect (newDeps Deps T)
      (isl_map_lex_ge (isl_set_get_space (isl_map_domain (newDeps Deps T))))).Rel a b
      ↔ (newDeps Deps T).Rel a b ∧ lexGe a b := by
    intro a b
    cases hnd : newDeps Deps T with
    | none => simp [isl_map_intersect, isl_map.Rel]
    | some nd =>
      have hsq := newDeps_square hnd
      simp only [isl_map_domain, isl_set_get_space, isl_map_lex_ge, isl_map_intersect,
        true_and, hsq.symm, if_true, isl_map.Rel, MapVal.Rel]
      constructor
      · rintro ⟨h1, h2, h3, h4⟩
        exact ⟨⟨h1, h2, h3⟩, h4⟩
      · rintro ⟨⟨h1, h2, h3⟩, h4⟩
        exact ⟨h1, h2, h3, h4⟩
  rcases transformChecks_snd ctx true Deps T with ⟨hn, hno⟩ | ⟨hs, _, hyes⟩
  · refine ⟨?_, ?_⟩
    · rw [← key]
      simp only [true_and] at hno
      exact ⟨fun _ => hno, fun _ => hn⟩
    · intro ce hce'
      rw [hn] at hce'
      exact absurd hce' (by simp)
  · refine ⟨?_, ?_⟩
    · rw [← key, hs]
      constructor
      · intro h'
        exact absurd h' (by simp)
      · intro h'
        exact absurd hyes h'
    · intro ce hce'
      rw [hs, Option.some.injEq] at hce'
      subst hce'
      refine ⟨?_, ?_, ?_⟩
      · rw [transformChecks_fst]
        exact Or.inr ⟨rfl, hyes⟩
      · intro a b
        rw [hce, newDeps_Rel]
        constructor
        · rintro ⟨⟨s, t, h1, h2, h3⟩, h4⟩
          exact ⟨s, t, h1, h2, h3, h4⟩
        · rintro ⟨s, t, h1, h2, h3, h4⟩
          exact ⟨⟨s, t, h1, h2, h3⟩, h4⟩
      · obtain ⟨a, b, hab⟩ := hyes
        exact ⟨a, b, (hce a b).2 hab⟩

/-! ## Denotation of the isl operations -/

theorem isl_set.HasDim.mem_length {s : isl_set} {n : Nat} (h : s.HasDim n) {p : Point} (hp : s.Mem p) :
    p.length = n := by
  obtain ⟨v, rfl, rfl⟩ := h
  exact hp.1

theorem isl_map.HasDims.rel_length {m : isl_map} {a b : Nat} (h : m.HasDims a b) {x y : Point}
    (hr : m.Rel x y) : x.length = a ∧ y.length = b := by
  obtain ⟨v, rfl, rfl, rfl⟩ := h
  exact ⟨hr.1, hr.2.1⟩

theorem mem_universe (n : Nat) (p : Point) :
    (isl_set_universe (isl_space_set_alloc 0 n)).Mem p ↔ p.length = n := by
  simp [isl_set_universe, isl_space_set_alloc, isl_set.Mem, SetVal.Mem]

theorem hasDim_universe (n : Nat) : (isl_set_universe (isl_space_set_alloc 0 n)).HasDim n :=
  ⟨_, rfl, rfl⟩

theorem mem_empty (n : Nat) (p : Point) : ¬ (isl_set_empty (isl_space_set_alloc 0 n)).Mem p := by
  simp [isl_set_empty, isl_space_set_alloc, isl_set.Mem, SetVal.Mem]

theorem hasDim_empty (n : Nat) : (isl_set_empty (isl_space_set_alloc 0 n)).HasDim n :=
  ⟨_, rfl, rfl⟩

theorem mem_intersect (a b : isl_set) (p : Point) :
    (isl_set_intersect a b).Mem p ↔ a.Mem p ∧ b.Mem p := by
  cases a with
  | none => simp [isl_set_intersect, isl_set.Mem]
  | some a =>
    cases b with
    | none => simp [isl_set_intersect, isl_set.Mem]
    | some b =>
      simp only [isl_set_intersect]
      by_cases h : a.dim = b.dim
      · simp only [h, if_true, isl_set.Mem, SetVal.Mem]
        tauto
      · simp only [h, if_false, isl_set.Mem, SetVal.Mem, false_iff]
        rintro ⟨⟨h1, _⟩, h2, _⟩
        exact h (h1.symm.trans h2)

theorem hasDim_intersect {a b : isl_set} {n : Nat} (ha : a.HasDim n) (hb : b.HasDim n) :
    (isl_set_intersect a b).HasDim n := by
  obtain ⟨va, rfl, rfl⟩ := ha
  obtain ⟨vb, rfl, hb⟩ := hb
  unfold isl_set.HasDim
  rw [isl_set_intersect, if_pos hb.symm]
  exact ⟨_, rfl, rfl⟩

theorem mem_union {a b : isl_set} {n : Nat} (ha : a.HasDim n) (hb : b.HasDim n) (p : Point) :
    (isl_set_union a b).Mem p ↔ a.Mem p ∨ b.Mem p := by
  obtain ⟨va, rfl, rfl⟩ := ha
  obtain ⟨vb, rfl, hb⟩ := hb
  simp only [isl_set_union, hb, if_true, isl_set.Mem, SetVal.Mem]
  tauto

theorem hasDim_union {a b : isl_set} {n : Nat} (ha : a.HasDim n) (hb : b.HasDim n) :
    (isl_set_union a b).HasDim n := by
  obtain ⟨va, rfl, rfl⟩ := ha
  obtain ⟨vb, rfl, hb⟩ := hb
  unfold isl_set.HasDim
  rw [isl_set_union, if_pos hb.symm]
  exact ⟨_, rfl, rfl⟩

theorem mem_complement {a : isl_set} {n : Nat} (ha : a.HasDim n) (p : Point) :
    (isl_set_complement a).Mem p ↔ p.length = n ∧ ¬ a.Mem p := by
  obtain ⟨va, rfl, rfl⟩ := ha
  simp only [isl_set_complement, isl_set.Mem, SetVal.Mem]
  tauto

theorem mem_complement_imp (a : isl_set) (p : Point) :
    (isl_set_complement a).Mem p → ¬ a.Mem p := by
  cases a with
  | none => simp [isl_set_complement, isl_set.Mem]
  | some a =>
    simp only [isl_set_complement, isl_set.Mem, SetVal.Mem]
    tauto

theorem hasDim_complement {a : isl_set} {n : Nat} (ha : a.HasDim n) :
    (isl_set_complement a).HasDim n := by
  obtain ⟨va, rfl, rfl⟩ := ha
  exact ⟨_, rfl, rfl⟩

theorem mem_apply (s : isl_set) (m : isl_map) (y : Point) :
    (isl_set_apply s m).Mem y ↔ ∃ x, s.Mem x ∧ m.Rel x y := by
  cases s with
  | none => simp [isl_set_apply, isl_set.Mem]
  | some s =>
    cases m with
    | none => simp [isl_set_apply, isl_set.Mem, isl_map.Rel]
    | some m =>
      simp only [isl_set_apply]
      by_cases h : s.dim = m.nIn
      · simp only [h, if_true, isl_set.Mem, SetVal.Mem, isl_map.Rel, MapVal.Rel]
        constructor
        · rintro ⟨_, x, hx, hr⟩
          exact ⟨x, hx, hr⟩
        · rintro ⟨x, hx, hr⟩
          exact ⟨hr.2.1, x, hx, hr⟩
      · simp only [h, if_false, isl_set.Mem, isl_map.Rel, MapVal.Rel, SetVal.Mem, false_iff]
        rintro ⟨x, ⟨h1, _⟩, h2, _⟩
        exact h (h1.symm.trans h2)

theorem hasDim_apply {s : isl_set} {m : isl_map} {a b : Nat} (hs : s.HasDim a)
    (hm : m.HasDims a b) : (isl_set_apply s m).HasDim b := by
  obtain ⟨vs, rfl, rfl⟩ := hs
  obtain ⟨vm, rfl, hm, rfl⟩ := hm
  unfold isl_set.HasDim
  rw [isl_set_apply, if_pos hm.symm]
  exact ⟨_, rfl, rfl⟩

theorem rel_identity (s : isl_set) (x y : Point) :
    (isl_set_identity s).Rel x y ↔ s.Mem x ∧ y = x := by
  cases s with
  | none => simp [isl_set_identity, isl_set.Mem, isl_map.Rel]
  | some s =>
    simp only [isl_set_identity, isl_set.Mem, isl_map.Rel, MapVal.Rel, SetVal.Mem]
    constructor
    · rintro ⟨_, _, h, rfl⟩
      exact ⟨h, rfl⟩
    · rintro ⟨h, rfl⟩
      exact ⟨h.1, h.1, h, rfl⟩

theorem hasDims_identity {s : isl_set} {n : Nat} (hs : s.HasDim n) :
    (isl_set_identity s).HasDims n n := by
  obtain ⟨vs, rfl, rfl⟩ := hs
  exact ⟨_, rfl, rfl, rfl⟩

theorem rel_from_domain_and_range (d r : isl_set) (x y : Point) :
    (isl_map_from_domain_and_range d r).Rel x y ↔ d.Mem x ∧ r.Mem y := by
  cases d with
  | none => simp [isl_map_from_domain_and_range, isl_set.Mem, isl_map.Rel]
  | some d =>
    cases r with
    | none => simp [isl_map_from_domain_and_range, isl_set.Mem, isl_map.Rel]
    | some r =>
      simp only [isl_map_from_domain_and_range, isl_set.Mem, isl_map.Rel, MapVal.Rel, SetVal.Mem]
      tauto

theorem hasDims_from_domain_and_range {d r : isl_set} {a b : Nat} (hd : d.HasDim a)
    (hr : r.HasDim b) : (isl_map_from_domain_and_range d r).HasDims a b := by
  obtain ⟨vd, rfl, rfl⟩ := hd
  obtain ⟨vr, rfl, rfl⟩ := hr
  exact ⟨_, rfl, rfl, rfl⟩

theorem rel_reverse (m : isl_map) (x y : Point) : (isl_map_reverse m).Rel x y ↔ m.Rel y x := by
  cases m with
  | none => simp [isl_map_reverse, isl_map.Rel]
  | some m =>
    simp only [isl_map_reverse, isl_map.Rel, MapVal.Rel]
    tauto

theorem hasDims_reverse {m : isl_map} {a b : Nat} (hm : m.HasDims a b) :
    (isl_map_reverse m).HasDims b a := by
  obtain ⟨vm, rfl, rfl, rfl⟩ := hm
  exact ⟨_, rfl, rfl, rfl⟩

theorem rel_apply_range (m t : isl_map) (x z : Point) :
    (isl_map_apply_range m t).Rel x z ↔ ∃ y, m.Rel x y ∧ t.Rel y z := by
  cases m with
  | none => simp [isl_map_apply_range, isl_map.Rel]
  | some m =>
    cases t with
    | none => simp [isl_map_apply_range, isl_map.Rel]
    | some t =>
      simp only [isl_map_apply_range]
      by_cases h : m.nOut = t.nIn
      · simp only [h, if_true, isl_map.Rel, MapVal.Rel]
        constructor
        · rintro ⟨_, _, y, hy, hr⟩
          exact ⟨y, hy, hr⟩
        · rintro ⟨y, hy, hr⟩
          exact ⟨hy.1, hr.2.1, y, hy, hr⟩
      · simp only [h, if_false, isl_map.Rel, MapVal.Rel, false_iff]
        rintro ⟨y, ⟨_, h1, _⟩, h2, _⟩
        exact h (h1.symm.trans h2)

theorem hasDims_apply_range {m t : isl_map} {a b c : Nat} (hm : m.HasDims a b)
    (ht : t.HasDims b c) : (isl_map_apply_range m t).HasDims a c := by
  obtain ⟨vm, rfl, rfl, rfl⟩ := hm
  obtain ⟨vt, rfl, ht, rfl⟩ := ht
  unfold isl_map.HasDims
  rw [isl_map_apply_range, if_pos ht.symm]
  exact ⟨_, rfl, rfl, rfl⟩

theorem rel_apply_domain (m t : isl_map) (a y : Point) :
    (isl_map_apply_domain m t).Rel a y ↔ ∃ x, m.Rel x y ∧ t.Rel x a := by
  cases m with
  | none => simp [isl_map_apply_domain, isl_map.Rel]
  | some m =>
    cases t with
    | none => simp [isl_map_apply_domain, isl_map.Rel]
    | some t =>
      simp only [isl_map_apply_domain]
      by_cases h : m.nIn = t.nIn
      · simp only [h, if_true, isl_map.Rel, MapVal.Rel]
        constructor
        · rintro ⟨_, _, x, hx, hr⟩
          exact ⟨x, hx, hr⟩
        · rintro ⟨x, hx, hr⟩
          exact ⟨hr.2.1, hx.2.1, x, hx, hr⟩
      · simp only [h, if_false, isl_map.Rel, MapVal.Rel, false_iff]
        rintro ⟨x, ⟨h1, _⟩, h2, _⟩
        exact h (h1.symm.trans h2)

theorem hasDims_apply_domain {m t : isl_map} {a b c : Nat} (hm : m.HasDims a b)
    (ht : t.HasDims a c) : (isl_map_apply_domain m t).HasDims c b := by
  obtain ⟨vm, rfl, rfl, rfl⟩ := hm
  obtain ⟨vt, rfl, ht, rfl⟩ := ht
  unfold isl_map.HasDims
  rw [isl_map_apply_domain, if_pos ht.symm]
  exact ⟨_, rfl, rfl, rfl⟩

theorem rel_intersect_domain (m : isl_map) (s : isl_set) (x y : Point) :
    (isl_map_intersect_domain m s).Rel x y ↔ m.Rel x y ∧ s.Mem x := by
  cases m with
  | none => simp [isl_map_intersect_domain, isl_map.Rel]
  | some m =>
    cases s with
    | none => simp [isl_map_intersect_domain, isl_map.Rel, isl_set.Mem]
    | some s =>
      simp only [isl_map_intersect_domain]
      by_cases h : m.nIn = s.dim
      · simp only [h, if_true, isl_map.Rel, MapVal.Rel, isl_set.Mem, SetVal.Mem]
        constructor
        · rintro ⟨h1, h2, h3, h4⟩
          exact ⟨⟨h1, h2, h3⟩, h1, h4⟩
        · rintro ⟨⟨_, h2, h3⟩, h1, h4⟩
          exact ⟨h1, h2, h3, h4⟩
      · simp only [h, if_false, isl_map.Rel, MapVal.Rel, isl_set.Mem, SetVal.Mem, false_iff]
        rintro ⟨⟨h1, _⟩, h2, _⟩
        exact h (h1.symm.trans h2)

theorem hasDims_intersect_domain {m : isl_map} {s : isl_set} {a b : Nat} (hm : m.HasDims a b)
    (hs : s.HasDim a) : (isl_map_intersect_domain m s).HasDims a b := by
  obtain ⟨vm, rfl, rfl, rfl⟩ := hm
  obtain ⟨vs, rfl, hs⟩ := hs
  unfold isl_map.HasDims
  rw [isl_map_intersect_domain, if_pos hs.symm]
  exact ⟨_, rfl, rfl, rfl⟩

theorem rel_union {m t : isl_map} {a b : Nat} (hm : m.HasDims a b) (ht : t.HasDims a b)
    (x y : Point) : (isl_map_union m t).Rel x y ↔ m.Rel x y ∨ t.Rel x y := by
  obtain ⟨vm, rfl, rfl, rfl⟩ := hm
  obtain ⟨vt, rfl, h1, h2⟩ := ht
  simp only [isl_map_union, h1, h2, and_self, if_true, isl_map.Rel, MapVal.Rel]
  tauto

theorem hasDims_union {m t : isl_map} {a b : Nat} (hm : m.HasDims a b) (ht : t.HasDims a b) :
    (isl_map_union m t).HasDims a b := by
  obtain ⟨vm, rfl, rfl, rfl⟩ := hm
  obtain ⟨vt, rfl, h1, h2⟩ := ht
  unfold isl_map.HasDims
  rw [isl_map_union, if_pos ⟨h1.symm, h2.symm⟩]
  exact ⟨_, rfl, rfl, rfl⟩

theorem hasDims_of_union {m t : isl_map} {u : MapVal} (h : isl_map_union m t = some u) :
    m.HasDims u.nIn u.nOut ∧ t.HasDims u.nIn u.nOut := by
  cases m with
  | none => simp [isl_map_union] at h
  | some m =>
    cases t with
    | none => simp [isl_map_union] at h
    | some t =>
      simp only [isl_map_union] at h
      by_cases hd : m.nIn = t.nIn ∧ m.nOut = t.nOut
      · rw [if_pos hd, Option.some.injEq] at h
        subst h
        exact ⟨⟨_, rfl, rfl, rfl⟩, ⟨_, rfl, hd.1.symm, hd.2.symm⟩⟩
      · simp [hd] at h

/-! ## Constraints added one coordinate at a time -/

theorem rel_equate {m : isl_map} {a b : Nat} (hm : m.HasDims a b) {p1 p2 : Nat}
    (h1 : p1 < b) (h2 : p2 < a) :
    (isl_map_equate m isl_dim_out p1 isl_dim_in p2).HasDims a b
      ∧ ∀ x y, (isl_map_equate m isl_dim_out p1 isl_dim_in p2).Rel x y
          ↔ m.Rel x y ∧ coord y p1 = coord x p2 := by
  obtain ⟨v, rfl, rfl, rfl⟩ := hm
  have hc : p1 < v.dimOf isl_dim_out ∧ p2 < v.dimOf isl_dim_in := ⟨h1, h2⟩
  rw [isl_map_equate, if_pos hc]
  refine ⟨⟨_, rfl, rfl, rfl⟩, ?_⟩
  intro x y
  simp only [isl_map.Rel, MapVal.Rel, pairCoord]
  tauto

theorem rel_fix {m : isl_map} {a b : Nat} (hm : m.HasDims a b) {p : Nat} (h1 : p < b) (c : Int) :
    (isl_map_fix_si m isl_dim_out p c).HasDims a b
      ∧ ∀ x y, (isl_map_fix_si m isl_dim_out p c).Rel x y ↔ m.Rel x y ∧ coord y p = c := by
  obtain ⟨v, rfl, rfl, rfl⟩ := hm
  have hc : p < v.dimOf isl_dim_out := h1
  rw [isl_map_fix_si, if_pos hc]
  refine ⟨⟨_, rfl, rfl, rfl⟩, ?_⟩
  intro x y
  simp only [isl_map.Rel, MapVal.Rel, pairCoord]
  tauto

theorem mem_set_fix {s : isl_set} {n : Nat} (hs : s.HasDim n) {p : Nat} (h1 : p < n) (c : Int) :
    (isl_set_fix_si s isl_dim_set p c).HasDim n
      ∧ ∀ x, (isl_set_fix_si s isl_dim_set p c).Mem x ↔ s.Mem x ∧ coord x p = c := by
  obtain ⟨v, rfl, rfl⟩ := hs
  rw [isl_set_fix_si, if_pos h1]
  refine ⟨⟨_, rfl, rfl⟩, ?_⟩
  intro x
  simp only [isl_set.Mem, SetVal.Mem]
  tauto

/-- A loop whose every step adds a condition to a map adds all the conditions. -/
theorem foldl_refine {ι : Type} (step : isl_map → ι → isl_map) (C : ι → Point → Point → Prop)
    (a b : Nat) (L : List ι)
    (hstep : ∀ m i, i ∈ L → m.HasDims a b →
      (step m i).HasDims a b ∧ ∀ x y, (step m i).Rel x y ↔ m.Rel x y ∧ C i x y) :
    ∀ m : isl_map, m.HasDims a b →
      (L.foldl step m).HasDims a b
        ∧ ∀ x y, (L.foldl step m).Rel x y ↔ m.Rel x y ∧ ∀ i ∈ L, C i x y := by
  induction L with
  | nil =>
    intro m hm
    exact ⟨hm, fun x y => by simp⟩
  | cons i rest ih =>
    intro m hm
    have h1 := hstep m i (List.mem_cons_self i rest) hm
    have h2 := ih (fun m j hj => hstep m j (List.mem_cons_of_mem i hj)) (step m i) h1.1
    refine ⟨h2.1, ?_⟩
    intro x y
    rw [List.foldl_cons, h2.2 x y, h1.2 x y]
    simp only [List.mem_cons, forall_eq_or_imp]
    tauto

/-- A loop whose every step adds a condition to a set adds all the conditions. -/
theorem foldl_refine_set {ι : Type} (step : isl_set → ι → isl_set) (C : ι → Point → Prop)
    (n : Nat) (L : List ι)
    (hstep : ∀ s i, i ∈ L → s.HasDim n →
      (step s i).HasDim n ∧ ∀ x, (step s i).Mem x ↔ s.Mem x ∧ C i x) :
    ∀ s : isl_set, s.HasDim n →
      (L.foldl step s).HasDim n ∧ ∀ x, (L.foldl step s).Mem x ↔ s.Mem x ∧ ∀ i ∈ L, C i x := by
  induction L with
  | nil =>
    intro s hs
    exact ⟨hs, fun x => by simp⟩
  | cons i rest ih =>
    intro s hs
    have h1 := hstep s i (List.mem_cons_self i rest) hs
    have h2 := ih (fun s j hj => hstep s j (List.mem_cons_of_mem i hj)) (step s i) h1.1
    refine ⟨h2.1, ?_⟩
    intro x
    rw [List.foldl_cons, h2.2 x, h1.2 x]
    simp only [List.mem_cons, forall_eq_or_imp]
    tauto

/-- A loop that unites a map with one more map at every step yields the union of all. -/
theorem foldl_union {ι : Type} (t : ι → isl_map) (a b : Nat) (L : List ι)
    (ht : ∀ i ∈ L, (t i).HasDims a b) :
    ∀ m : isl_map, m.HasDims a b →
      (L.foldl (fun lex i => isl_map_union lex (t i)) m).HasDims a b
        ∧ ∀ x y, (L.foldl (fun lex i => isl_map_union lex (t i)) m).Rel x y
            ↔ m.Rel x y ∨ ∃ i ∈ L, (t i).Rel x y := by
  induction L with
  | nil =>
    intro m hm
    exact ⟨hm, fun x y => by simp⟩
  | cons i rest ih =>
    intro m hm
    have hi := ht i (List.mem_cons_self i rest)
    have h2 := ih (fun j hj => ht j (List.mem_cons_of_mem i hj)) (isl_map_union m (t i))
      (hasDims_union hm hi)
    refine ⟨h2.1, ?_⟩
    intro x y
    rw [List.foldl_cons, h2.2 x y, rel_union hm hi]
    simp only [List.mem_cons, exists_eq_or_imp]
    tauto

theorem sum_update_mul (n p : Nat) (c : Int) (f : Nat → Int) :
    ((List.range n).map (fun i => Function.update (fun _ => (0 : Int)) p c i * f i)).sum
      = if p < n then c * f p else 0 := by
  induction n with
  | zero => simp
  | succ n ih =>
    rw [List.range_succ, List.map_append, List.sum_append, ih]
    by_cases h1 : p < n
    · have h2 : p < n + 1 := Nat.lt_succ_of_lt h1
      have h3 : n ≠ p := Nat.ne_of_gt h1
      simp [h1, h2, Function.update, h3]
    · by_cases h4 : p = n
      · subst h4
        simp [Function.update]
      · have h5 : ¬ p < n + 1 := by omega
        have h6 : n ≠ p := fun h => h4 h.symm
        simp [h1, h5, Function.update, h6]

/-- The constraint c1 * x[p] + c2 * y[q] + k >= 0, built the way the source builds it. -/
theorem rel_add_inequality {m : isl_map} {a b : Nat} (hm : m.HasDims a b) {p q : Nat}
    (hp : p < a) (hq : q < b) (c1 c2 k : Int) :
    (isl_map_add_constraint m
        (isl_constraint_set_constant_si
          (isl_constraint_set_coefficient_si
            (isl_constraint_set_coefficient_si
              (isl_constraint_alloc_inequality (isl_local_space_from_space (isl_map_get_space m)))
              isl_dim_in p c1) isl_dim_out q c2) k)).HasDims a b
      ∧ ∀ x y, (isl_map_add_constraint m
        (isl_constraint_set_constant_si
          (isl_constraint_set_coefficient_si
            (isl_constraint_set_coefficient_si
              (isl_constraint_alloc_inequality (isl_local_space_from_space (isl_map_get_space m)))
              isl_dim_in p c1) isl_dim_out q c2) k)).Rel x y
          ↔ m.Rel x y ∧ 0 ≤ c1 * coord x p + c2 * coord y q + k := by
  obtain ⟨v, rfl, rfl, rfl⟩ := hm
  simp only [isl_map_get_space, isl_local_space_from_space, isl_constraint_alloc_inequality,
    isl_constraint_set_coefficient_si, hp, hq, if_true, isl_constraint_set_constant_si,
    isl_map_add_constraint, and_self]
  refine ⟨⟨_, rfl, rfl, rfl⟩, ?_⟩
  intro x y
  simp only [isl_map.Rel, MapVal.Rel, ConstraintVal.Holds, ConstraintVal.eval,
    Bool.false_eq_true, if_false, sum_update_mul, hp, hq, if_true]
  tauto

/-- The constraint c1 * x[p] + c2 * y[q] + k = 0, built the way the source builds it. -/
theorem rel_add_equality {m : isl_map} {a b : Nat} (hm : m.HasDims a b) {p q : Nat}
    (hp : p < a) (hq : q < b) (c1 c2 k : Int) :
    (isl_map_add_constraint m
        (isl_constraint_set_constant_si
          (isl_constraint_set_coefficient_si
            (isl_constraint_set_coefficient_si
              (isl_constraint_alloc_equality (isl_local_space_from_space (isl_map_get_space m)))
              isl_dim_in p c1) isl_dim_out q c2) k)).HasDims a b
      ∧ ∀ x y, (isl_map_add_constraint m
        (isl_constraint_set_constant_si
          (isl_constraint_set_coefficient_si
            (isl_constraint_set_coefficient_si
              (isl_constraint_alloc_equality (isl_local_space_from_space (isl_map_get_space m)))
              isl_dim_in p c1) isl_dim_out q c2) k)).Rel x y
          ↔ m.Rel x y ∧ c1 * coord x p + c2 * coord y q + k = 0 := by
  obtain ⟨v, rfl, rfl, rfl⟩ := hm
  simp only [isl_map_get_space, isl_local_space_from_space, isl_constraint_alloc_equality,
    isl_constraint_set_coefficient_si, hp, hq, if_true, isl_constraint_set_constant_si,
    isl_map_add_constraint, and_self]
  refine ⟨⟨_, rfl, rfl, rfl⟩, ?_⟩
  intro x y
  simp only [isl_map.Rel, MapVal.Rel, ConstraintVal.Holds, ConstraintVal.eval,
    if_true, sum_update_mul, hp, hq]
  tauto

/-! ## Extrema and sums -/

theorem mem_lexmax (s : isl_set) (p : Point) :
    (isl_set_lexmax s).Mem p ↔ s.Mem p ∧ ∀ q, s.Mem q → lexGe p q := by
  cases s with
  | none => simp [isl_set_lexmax, isl_set.Mem]
  | some s =>
    simp only [isl_set_lexmax, isl_set.Mem, SetVal.Mem]
    tauto

theorem mem_lexmin (s : isl_set) (p : Point) :
    (isl_set_lexmin s).Mem p ↔ s.Mem p ∧ ∀ q, s.Mem q → lexLe p q := by
  cases s with
  | none => simp [isl_set_lexmin, isl_set.Mem]
  | some s =>
    simp only [isl_set_lexmin, isl_set.Mem, SetVal.Mem]
    tauto

theorem hasDim_lexmax {s : isl_set} {n : Nat} (hs : s.HasDim n) : (isl_set_lexmax s).HasDim n := by
  obtain ⟨v, rfl, rfl⟩ := hs
  exact ⟨_, rfl, rfl⟩

theorem hasDim_lexmin {s : isl_set} {n : Nat} (hs : s.HasDim n) : (isl_set_lexmin s).HasDim n := by
  obtain ⟨v, rfl, rfl⟩ := hs
  exact ⟨_, rfl, rfl⟩

theorem mem_neg (s : isl_set) (p : Point) :
    (isl_set_neg s).Mem p ↔ ∃ q, s.Mem q ∧ p = Point.neg q := by
  cases s with
  | none => simp [isl_set_neg, isl_set.Mem]
  | some s =>
    simp only [isl_set_neg, isl_set.Mem, SetVal.Mem]
    constructor
    · rintro ⟨_, q, hq, rfl⟩
      exact ⟨q, hq, rfl⟩
    · rintro ⟨q, hq, rfl⟩
      exact ⟨by simp [Point.neg, hq.1], q, hq, rfl⟩

theorem hasDim_neg {s : isl_set} {n : Nat} (hs : s.HasDim n) : (isl_set_neg s).HasDim n := by
  obtain ⟨v, rfl, rfl⟩ := hs
  exact ⟨_, rfl, rfl⟩

theorem mem_sum {s t : isl_set} {n : Nat} (hs : s.HasDim n) (ht : t.HasDim n) (p : Point) :
    (isl_set_sum s t).Mem p ↔ ∃ x y, s.Mem x ∧ t.Mem y ∧ p = Point.add x y := by
  obtain ⟨vs, rfl, rfl⟩ := hs
  obtain ⟨vt, rfl, ht⟩ := ht
  rw [isl_set_sum, if_pos ht.symm]
  simp only [isl_set.Mem, SetVal.Mem]
  constructor
  · rintro ⟨_, x, y, hx, hy, rfl⟩
    exact ⟨x, y, hx, hy, rfl⟩
  · rintro ⟨x, y, hx, hy, rfl⟩
    refine ⟨?_, x, y, hx, hy, rfl⟩
    simp [Point.add, hx.1, hy.1, ht]

theorem hasDim_sum {s t : isl_set} {n : Nat} (hs : s.HasDim n) (ht : t.HasDim n) :
    (isl_set_sum s t).HasDim n := by
  obtain ⟨vs, rfl, rfl⟩ := hs
  obtain ⟨vt, rfl, ht⟩ := ht
  unfold isl_set.HasDim
  rw [isl_set_sum, if_pos ht.symm]
  exact ⟨_, rfl, rfl⟩

theorem rel_map_sum {m t : isl_map} {a b : Nat} (hm : m.HasDims a b) (ht : t.HasDims a b)
    (x y : Point) :
    (isl_map_sum m t).Rel x y ↔ ∃ u v, m.Rel x u ∧ t.Rel x v ∧ y = Point.add u v := by
  obtain ⟨vm, rfl, rfl, rfl⟩ := hm
  obtain ⟨vt, rfl, h1, h2⟩ := ht
  rw [isl_map_sum, if_pos ⟨h1.symm, h2.symm⟩]
  simp only [isl_map.Rel, MapVal.Rel]
  constructor
  · rintro ⟨_, _, u, v, hu, hv, rfl⟩
    exact ⟨u, v, hu, hv, rfl⟩
  · rintro ⟨u, v, hu, hv, rfl⟩
    refine ⟨hu.1, ?_, u, v, hu, hv, rfl⟩
    simp [Point.add, hu.2.1, hv.2.1, h2]

theorem hasDims_map_sum {m t : isl_map} {a b : Nat} (hm : m.HasDims a b) (ht : t.HasDims a b) :
    (isl_map_sum m t).HasDims a b := by
  obtain ⟨vm, rfl, rfl, rfl⟩ := hm
  obtain ⟨vt, rfl, h1, h2⟩ := ht
  unfold isl_map.HasDims
  rw [isl_map_sum, if_pos ⟨h1.symm, h2.symm⟩]
  exact ⟨_, rfl, rfl, rfl⟩

theorem isl_set_dim_of_hasDim {s : isl_set} {n : Nat} (hs : s.HasDim n) :
    isl_set_dim s isl_dim_set = n := by
  obtain ⟨v, rfl, rfl⟩ := hs
  rfl

theorem get_space_of_hasDim {s : isl_set} {n : Nat} (hs : s.HasDim n) :
    isl_set_get_space s = isl_space_set_alloc 0 n := by
  obtain ⟨v, rfl, rfl⟩ := hs
  rfl

/-! ## The coordinate-space mapper and the ordering relations -/

theorem hasDims_universe_pair (a b : Nat) :
    (isl_map_from_domain_and_range (isl_set_universe (isl_space_set_alloc 0 a))
      (isl_set_universe (isl_space_set_alloc 0 b))).HasDims a b :=
  hasDims_from_domain_and_range (hasDim_universe a) (hasDim_universe b)

theorem rel_universe_pair (a b : Nat) (x y : Point) :
    (isl_map_from_domain_and_range (isl_set_universe (isl_space_set_alloc 0 a))
      (isl_set_universe (isl_space_set_alloc 0 b))).Rel x y ↔ x.length = a ∧ y.length = b := by
  rw [rel_from_domain_and_range, mem_universe, mem_universe]

/-- What iterToScheduleMap relates, when every loop slot 2 i + 1 lies in the schedule space. -/
theorem iterToScheduleMap_rel (S : Scop) (a w : Nat) (h : ∀ i < a, u32 (2 * i + 1) < w) :
    (iterToScheduleMap S a w).HasDims a w
      ∧ ∀ x y, (iterToScheduleMap S a w).Rel x y
          ↔ x.length = a ∧ y.length = w ∧ ∀ i < a, coord y (u32 (2 * i + 1)) = coord x i := by
  have key := foldl_refine
    (fun trans i => isl_map_equate trans isl_dim_out (u32 (2 * i + 1)) isl_dim_in i)
    (fun i x y => coord y (u32 (2 * i + 1)) = coord x i) a w (List.range a)
    (fun m i hi hm => rel_equate hm (h i (List.mem_range.1 hi)) (List.mem_range.1 hi))
    _ (hasDims_universe_pair a w)
  refine ⟨key.1, ?_⟩
  intro x y
  have h2 := key.2 x y
  rw [rel_universe_pair] at h2
  unfold iterToScheduleMap isl_map_align_params
  rw [h2]
  simp only [List.mem_range]
  tauto

/-- What scheduleLexEq relates, when the compared slots lie in the schedule space. -/
theorem scheduleLexEq_rel (S : Scop) (w n : Nat) (h : ∀ i < n, u32 (2 * i) < w) :
    (scheduleLexEq S w n).HasDims w w
      ∧ ∀ x y, (scheduleLexEq S w n).Rel x y
          ↔ x.length = w ∧ y.length = w
            ∧ ∀ i < n, coord y (u32 (2 * i)) = coord x (u32 (2 * i)) := by
  have key := foldl_refine
    (fun lex i => isl_map_equate lex isl_dim_out (u32 (2 * i)) isl_dim_in (u32 (2 * i)))
    (fun i x y => coord y (u32 (2 * i)) = coord x (u32 (2 * i))) w w (List.range n)
    (fun m i hi hm => rel_equate hm (h i (List.mem_range.1 hi)) (h i (List.mem_range.1 hi)))
    _ (hasDims_universe_pair w w)
  refine ⟨key.1, ?_⟩
  intro x y
  have h2 := key.2 x y
  rw [rel_universe_pair] at h2
  unfold scheduleLexEq isl_map_align_params
  rw [h2]
  simp only [List.mem_range]
  tauto

/-- The relation number i united into the result of scheduleLexGt. -/
theorem lexGt_piece_rel (w i : Nat) (h : ∀ j ≤ i, u32 (2 * j) < w) :
    (isl_map_add_constraint
        ((List.range i).foldl
          (fun t j => isl_map_equate t isl_dim_out (u32 (2 * j)) isl_dim_in (u32 (2 * j)))
          (isl_map_from_domain_and_range (isl_set_universe (isl_space_set_alloc 0 w))
            (isl_set_universe (isl_space_set_alloc 0 w))))
        (isl_constraint_set_constant_si
          (isl_constraint_set_coefficient_si
            (isl_constraint_set_coefficient_si
              (isl_constraint_alloc_inequality (isl_local_space_from_space (isl_map_get_space
                ((List.range i).foldl
                  (fun t j => isl_map_equate t isl_dim_out (u32 (2 * j)) isl_dim_in (u32 (2 * j)))
                  (isl_map_from_domain_and_range (isl_set_universe (isl_space_set_alloc 0 w))
                    (isl_set_universe (isl_space_set_alloc 0 w)))))))
              isl_dim_in (u32 (2 * i)) 1) isl_dim_out (u32 (2 * i)) (-1)) (-1))).HasDims w w
      ∧ ∀ x y, (isl_map_add_constraint
        ((List.range i).foldl
          (fun t j => isl_map_equate t isl_dim_out (u32 (2 * j)) isl_dim_in (u32 (2 * j)))
          (isl_map_from_domain_and_range (isl_set_universe (isl_space_set_alloc 0 w))
            (isl_set_universe (isl_space_set_alloc 0 w))))
        (isl_constraint_set_constant_si
          (isl_constraint_set_coefficient_si
            (isl_constraint_set_coefficient_si
              (isl_constraint_alloc_inequality (isl_local_space_from_space (isl_map_get_space
                ((List.range i).foldl
                  (fun t j => isl_map_equate t isl_dim_out (u32 (2 * j)) isl_dim_in (u32 (2 * j)))
                  (isl_map_from_domain_and_range (isl_set_universe (isl_space_set_alloc 0 w))
                    (isl_set_universe (isl_space_set_alloc 0 w)))))))
              isl_dim_in (u32 (2 * i)) 1) isl_dim_out (u32 (2 * i)) (-1)) (-1))).Rel x y
          ↔ x.length = w ∧ y.length = w
            ∧ (∀ j < i, coord y (u32 (2 * j)) = coord x (u32 (2 * j)))
            ∧ coord y (u32 (2 * i)) < coord x (u32 (2 * i)) := by
  have key := foldl_refine
    (fun t j => isl_map_equate t isl_dim_out (u32 (2 * j)) isl_dim_in (u32 (2 * j)))
    (fun j x y => coord y (u32 (2 * j)) = coord x (u32 (2 * j))) w w (List.range i)
    (fun m j hj hm => rel_equate hm (h j (Nat.le_of_lt (List.mem_range.1 hj)))
      (h j (Nat.le_of_lt (List.mem_range.1 hj))))
    _ (hasDims_universe_pair w w)
  have hc := rel_add_inequality key.1 (h i (Nat.le_refl i)) (h i (Nat.le_refl i)) 1 (-1) (-1)
  refine ⟨hc.1, ?_⟩
  intro x y
  rw [hc.2 x y, key.2 x y, rel_universe_pair]
  simp only [List.mem_range]
  constructor
  · rintro ⟨⟨⟨h1, h2⟩, h3⟩, h4⟩
    exact ⟨h1, h2, h3, by omega⟩
  · rintro ⟨h1, h2, h3, h4⟩
    exact ⟨⟨⟨h1, h2⟩, h3⟩, by omega⟩

/-- What scheduleLexGt relates, when the compared slots lie in the schedule space. -/
theorem scheduleLexGt_rel (S : Scop) (w n : Nat) (h : ∀ i < n, u32 (2 * i) < w) :
    (scheduleLexGt S w n).HasDims w w
      ∧ ∀ x y, (scheduleLexGt S w n).Rel x y
          ↔ x.length = w ∧ y.length = w
            ∧ ∃ i < n, (∀ j < i, coord y (u32 (2 * j)) = coord x (u32 (2 * j)))
              ∧ coord y (u32 (2 * i)) < coord x (u32 (2 * i)) := by
  have hp : ∀ i ∈ List.range n, ∀ j ≤ i, u32 (2 * j) < w :=
    fun i hi j hj => h j (Nat.lt_of_le_of_lt hj (List.mem_range.1 hi))
  have h0 : (isl_map_from_domain_and_range (isl_set_empty (isl_space_set_alloc 0 w))
      (isl_set_empty (isl_space_set_alloc 0 w))).HasDims w w :=
    hasDims_from_domain_and_range (hasDim_empty w) (hasDim_empty w)
  have key := foldl_union _ w w (List.range n)
    (fun i hi => (lexGt_piece_rel w i (hp i hi)).1) _ h0
  refine ⟨key.1, ?_⟩
  intro x y
  have h2 := key.2 x y
  unfold scheduleLexGt isl_map_align_params
  rw [h2, rel_from_domain_and_range]
  constructor
  · rintro (⟨h3, _⟩ | ⟨i, hi, hr⟩)
    · exact absurd h3 (mem_empty w x)
    · obtain ⟨h4, h5, h6, h7⟩ := ((lexGt_piece_rel w i (hp i hi)).2 x y).1 hr
      exact ⟨h4, h5, i, List.mem_range.1 hi, h6, h7⟩
  · rintro ⟨h4, h5, i, hi, h6, h7⟩
    right
    exact ⟨i, List.mem_range.2 hi,
      ((lexGt_piece_rel w i (hp i (List.mem_range.2 hi))).2 x y).2 ⟨h4, h5, h6, h7⟩⟩

theorem mem_evenBelow (n i : Nat) : i ∈ evenBelow n ↔ i < n ∧ i % 2 = 0 := by
  simp [evenBelow]

/-- What zeroIterDims relates: even positions are kept, odd positions become 0. -/
theorem zeroIterDims_rel (S : Scop) (n : Nat) :
    (zeroIterDims S (isl_space_set_alloc 0 n)).HasDims n n
      ∧ ∀ x y, (zeroIterDims S (isl_space_set_alloc 0 n)).Rel x y
          ↔ x.length = n ∧ y.length = n
            ∧ ∀ i, i < n → i % 2 = 0 →
                coord y i = coord x i ∧ (u32 (i + 1) < n → coord y (u32 (i + 1)) = 0) := by
  have h0 : (isl_map_universe (isl_space_map_from_set (isl_space_set_alloc 0 n))).HasDims n n :=
    ⟨_, rfl, rfl, rfl⟩
  have key := foldl_refine
    (fun map i =>
      if u32 (i + 1) < n then
        isl_map_fix_si (isl_map_equate map isl_dim_out i isl_dim_in i) isl_dim_out (u32 (i + 1)) 0
      else isl_map_equate map isl_dim_out i isl_dim_in i)
    (fun i x y => coord y i = coord x i ∧ (u32 (i + 1) < n → coord y (u32 (i + 1)) = 0))
    n n (evenBelow n)
    (by
      intro m i hi hm
      have hin : i < n := ((mem_evenBelow n i).1 hi).1
      have he := rel_equate hm hin hin
      by_cases hc : u32 (i + 1) < n
      · have hf := rel_fix he.1 hc 0
        simp only [hc, if_true]
        refine ⟨hf.1, ?_⟩
        intro x y
        rw [hf.2 x y, he.2 x y]
        tauto
      · simp only [hc, if_false]
        refine ⟨he.1, ?_⟩
        intro x y
        rw [he.2 x y]
        tauto)
    _ h0
  have hdef : zeroIterDims S (isl_space_set_alloc 0 n)
      = (evenBelow n).foldl
        (fun map i =>
          if u32 (i + 1) < n then
            isl_map_fix_si (isl_map_equate map isl_dim_out i isl_dim_in i) isl_dim_out
              (u32 (i + 1)) 0
          else isl_map_equate map isl_dim_out i isl_dim_in i)
        (isl_map_universe (isl_space_map_from_set (isl_space_set_alloc 0 n))) := rfl
  rw [hdef]
  refine ⟨key.1, ?_⟩
  intro x y
  rw [key.2 x y]
  simp only [mem_evenBelow, isl_map_universe, isl_space_map_from_set, isl_space_set_alloc,
    isl_map.Rel, MapVal.Rel, and_true]
  constructor
  · rintro ⟨⟨h1, h2⟩, h3⟩
    exact ⟨h1, h2, fun i hi he => h3 i ⟨hi, he⟩⟩
  · rintro ⟨h1, h2, h3⟩
    exact ⟨⟨h1, h2⟩, fun i hi => h3 i hi.1 hi.2⟩

/-! ## The pass: legality decides the commit -/

/-- The pass on a region with statements and without dependence information. -/
theorem runOnScop_without_deps (yyparse : String → Option nodeType) (src : Option (List String))
    (D : Dependences) (S : Scop) (hD : D.hasValidDependences = false) (hS : S.getSize ≠ 0) :
    ((runOnScop yyparse src D S).applyTransform = true
        ↔ (getTransform yyparse src S).1.Injective)
      ∧ ((getTransform yyparse src S).1.Injective →
          (runOnScop yyparse src D S).scop.stmts
            = S.stmts.map (commitStmt S.ctx (isl_union_map_apply_range S.getSchedule
                (isl_union_map_from_map (getTransform yyparse src S).1))))
      ∧ (¬ (getTransform yyparse src S).1.Injective →
          (runOnScop yyparse src D S).scop.stmts = S.stmts) := by
  have hfr := getTransform_frame yyparse src S
  have hchk := transformChecks_fst (getTransform yyparse src S).2.ctx
    (if !D.hasValidDependences then false else true)
    (if (if !D.hasValidDependences then false else true) = true
      then scheduleDeps D S.getSchedule else none) (getTransform yyparse src S).1
  rw [← not_injective_iff] at hchk
  simp only [hD, Bool.not_false, if_true, Bool.false_eq_true, false_and, or_false, if_false] at hchk
  rw [runOnScop_nonempty yyparse src D S hS]
  simp only [hD, Bool.not_false, if_true, Bool.false_eq_true, if_false]
  by_cases hinj : (getTransform yyparse src S).1.Injective
  · have h1 : (transformChecks (getTransform yyparse src S).2.ctx false none
        (getTransform yyparse src S).1).1 = true := by
      cases hb : (transformChecks (getTransform yyparse src S).2.ctx false none
        (getTransform yyparse src S).1).1 with
      | true => rfl
      | false => exact absurd hinj (hchk.1 hb)
    rw [h1]
    simp only [if_true, true_iff]
    refine ⟨hinj, ?_, fun h => absurd hinj h⟩
    intro _
    simp only [Scop.markAsOptimized, isl_union_map_coalesce, hfr.1, hfr.2]
  · have h1 := hchk.2 hinj
    rw [h1]
    simp only [Bool.false_eq_true, if_false, false_iff]
    exact ⟨hinj, fun h => absurd h hinj, fun _ => hfr.1⟩

/-- C3: without dependence information injectivity alone decides.  For a region
with statements and invalid dependence information, whatever dependences the
analysis holds, the pass applies the transform exactly when it is injective:
then every statement gets its part of the new schedule, otherwise the
statements stay as they are. -/
theorem C3_injectivity_alone (yyparse : String → Option nodeType) (src : Option (List String))
    (D : Dependences) (S : Scop) (hD : D.hasValidDependences = false) (hS : S.getSize ≠ 0) :
    ((runOnScop yyparse src D S).applyTransform = true
        ↔ (getTransform yyparse src S).1.Injective)
      ∧ ((getTransform yyparse src S).1.Injective →
          (runOnScop yyparse src D S).scop.stmts
            = S.stmts.map (commitStmt S.ctx (isl_union_map_apply_range S.getSchedule
                (isl_union_map_from_map (getTransform yyparse src S).1))))
      ∧ (¬ (getTransform yyparse src S).1.Injective →
          (runOnScop yyparse src D S).scop.stmts = S.stmts) :=
  runOnScop_without_deps yyparse src D S hD hS

/-! ## The commit stage -/

/-- The new global schedule is the original schedule composed with the transform. -/
theorem newSchedule_rel (U : isl_union_map) (T : isl_map) (n : String) (x y : Point) :
    (isl_union_map_apply_range U (isl_union_map_from_map T)).Rel n x "" y
      ↔ ∃ z, U.Rel n x "" z ∧ T.Rel z y := by
  cases U with
  | none => simp [isl_union_map_apply_range, isl_union_map.Rel]
  | some ms =>
    cases T with
    | none => simp [isl_union_map_apply_range, isl_union_map_from_map, isl_union_map.Rel,
        isl_map.Rel]
    | some t =>
      simp only [isl_union_map_apply_range, isl_union_map_from_map, isl_union_map.Rel,
        isl_map.Rel, List.mem_flatten, List.mem_map, List.filterMap_cons, List.filterMap_nil]
      constructor
      · rintro ⟨q, ⟨l, ⟨p, hp, rfl⟩, hq⟩, h1, h2, h3⟩
        by_cases hc : p.outName = "" ∧ p.map.nOut = t.nIn
        · rw [if_pos hc] at hq
          simp only [List.mem_singleton] at hq
          subst hq
          obtain ⟨_, _, z, hz1, hz2⟩ := h3
          exact ⟨z, ⟨p, hp, h1, hc.1, hz1⟩, hz2⟩
        · rw [if_neg hc] at hq
          simp at hq
      · rintro ⟨z, ⟨p, hp, h1, h2, h3⟩, hz⟩
        have hc : p.outName = "" ∧ p.map.nOut = t.nIn := ⟨h2, h3.2.1.symm.trans hz.1⟩
        refine ⟨⟨p.inName, "", ⟨p.map.nIn, t.nOut,
          fun x z => ∃ y, p.map.Rel x y ∧ t.Rel y z⟩⟩, ⟨_, ⟨p, hp, rfl⟩, ?_⟩, h1, rfl, ?_⟩
        · rw [if_pos hc]
          simp
        · exact ⟨h3.1, hz.2.1, z, h3, hz⟩

/-- Every map of the new global schedule ends in the range space of the transform. -/
theorem newSchedule_pieces {ms : List UMapPiece} {t : MapVal} {ps : List UMapPiece}
    (h : isl_union_map_apply_range (some ms) (isl_union_map_from_map (some t)) = some ps) :
    ∀ q ∈ ps, q.outName = "" ∧ q.map.nOut = t.nOut := by
  simp only [isl_union_map_apply_range, isl_union_map_from_map, Option.some.injEq] at h
  subst h
  intro q hq
  simp only [List.mem_flatten, List.mem_map, List.filterMap_cons, List.filterMap_nil] at hq
  obtain ⟨l, ⟨p, _, rfl⟩, hq⟩ := hq
  by_cases hc : p.outName = "" ∧ p.map.nOut = t.nIn
  · rw [if_pos hc] at hq
    simp only [List.mem_singleton] at hq
    subst hq
    exact ⟨rfl, rfl⟩
  · rw [if_neg hc] at hq
    simp at hq

/-- The part of a union map that belongs to one statement. -/
theorem stmtBand_mem (ps : List UMapPiece) (st : ScopStmt) (q : UMapPiece) :
    q ∈ ps.filterMap (restrictPiece [⟨st.name, st.domain⟩])
      ↔ ∃ p ∈ ps, st.name = p.inName ∧ st.domain.dim = p.map.nIn
          ∧ q = ⟨p.inName, p.outName, ⟨p.map.nIn, p.map.nOut,
            fun x y => p.map.pred x y
              ∧ ∃ q ∈ [(⟨st.name, st.domain⟩ : USetPiece)], q.name = p.inName ∧ q.set.Mem x⟩⟩ := by
  simp only [List.mem_filterMap, restrictPiece, List.any_cons, List.any_nil, Bool.or_false,
    decide_eq_true_eq]
  constructor
  · rintro ⟨p, hp, hq⟩
    by_cases hc : st.name = p.inName ∧ st.domain.dim = p.map.nIn
    · rw [if_pos hc, Option.some.injEq] at hq
      exact ⟨p, hp, hc.1, hc.2, hq.symm⟩
    · rw [if_neg hc] at hq
      exact absurd hq (by simp)
  · rintro ⟨p, hp, h1, h2, rfl⟩
    exact ⟨p, hp, by rw [if_pos ⟨h1, h2⟩]⟩

/-- The schedule that the commit loop installs in one statement, when every map
of the new schedule ends in one space. -/
theorem commitStmt_rel (ctx : isl_ctx) (NS : isl_union_map) (w : Nat)
    (hNS : ∀ ps, NS = some ps → ∀ q ∈ ps, q.outName = "" ∧ q.map.nOut = w) (st : ScopStmt) :
    (∀ x y, (commitStmt ctx NS st).schedule.Rel x y ↔ st.domain.Mem x ∧ NS.Rel st.name x "" y)
      ∧ ((∀ x y, ¬ (st.domain.Mem x ∧ NS.Rel st.name x "" y)) →
          (commitStmt ctx NS st).schedule
            = isl_map_from_domain (isl_set_empty st.getDomainSpace)) := by
  have hempty : ∀ x y, ¬ (isl_map_from_domain (isl_set_empty st.getDomainSpace)).Rel x y := by
    intro x y
    simp [isl_map_from_domain, isl_set_empty, ScopStmt.getDomainSpace, isl_map.Rel, MapVal.Rel,
      SetVal.Mem]
  cases hN : NS with
  | none =>
    have hs : (commitStmt ctx none st).schedule
        = isl_map_from_domain (isl_set_empty st.getDomainSpace) := by
      simp [commitStmt, isl_union_map_intersect_domain, isl_union_map_is_empty,
        isl_bool.toBool, ScopStmt.setSchedule]
    refine ⟨?_, fun _ => hs⟩
    intro x y
    rw [hs]
    simp only [isl_union_map.Rel, and_false, iff_false]
    exact hempty x y
  | some ps =>
    have hps := hNS ps hN
    -- the statement band and its emptiness
    have hband : ∀ x y,
        (∃ q ∈ ps.filterMap (restrictPiece [⟨st.name, st.domain⟩]), q.map.Rel x y)
        ↔ st.domain.Mem x ∧ isl_union_map.Rel (some ps) st.name x "" y := by
      intro x y
      simp only [isl_union_map.Rel]
      constructor
      · rintro ⟨q, hq, hr⟩
        obtain ⟨p, hp, h1, h2, rfl⟩ := (stmtBand_mem ps st q).1 hq
        obtain ⟨hx, hy, hpr, q', hq', _, hmem⟩ := hr
        simp only [List.mem_singleton] at hq'
        subst hq'
        exact ⟨hmem, p, hp, h1.symm, (hps p hp).1, hx, hy, hpr⟩
      · rintro ⟨hmem, p, hp, h1, _, hx, hy, hpr⟩
        refine ⟨_, (stmtBand_mem ps st _).2 ⟨p, hp, h1.symm, hmem.1.symm.trans hx, rfl⟩, ?_⟩
        exact ⟨hx, hy, hpr, ⟨st.name, st.domain⟩, List.mem_singleton.2 rfl, h1.symm, hmem⟩
    by_cases hE : ∀ x y, ¬ (st.domain.Mem x ∧ isl_union_map.Rel (some ps) st.name x "" y)
    · have hq : ctx.query (∀ p ∈ ps.filterMap (restrictPiece [⟨st.name, st.domain⟩]),
          ∀ x y, ¬ p.map.Rel x y) ≠ isl_bool_false := by
        rw [Ne, query_eq_false, not_not]
        intro q hq x y hr
        exact hE x y ((hband x y).1 ⟨q, hq, hr⟩)
      have hs : (commitStmt ctx (some ps) st).schedule
          = isl_map_from_domain (isl_set_empty st.getDomainSpace) := by
        simp only [commitStmt, ScopStmt.getDomain, isl_union_set_from_set,
          isl_union_map_intersect_domain, isl_union_map_is_empty, ScopStmt.setSchedule]
        split
        · rfl
        · rename_i hb
          exfalso
          apply hb
          revert hq
          generalize ctx.query _ = r
          intro hq
          cases r with
          | isl_bool_error => rfl
          | isl_bool_false => exact absurd rfl hq
          | isl_bool_true => rfl
      refine ⟨?_, fun _ => hs⟩
      intro x y
      rw [hs]
      exact ⟨fun h => absurd h (hempty x y), fun h => absurd h (hE x y)⟩
    · refine ⟨?_, fun h => absurd h hE⟩
      have hq : ctx.query (∀ p ∈ ps.filterMap (restrictPiece [⟨st.name, st.domain⟩]),
          ∀ x y, ¬ p.map.Rel x y) = isl_bool_false := by
        rw [query_eq_false]
        intro hall
        apply hE
        intro x y hxy
        obtain ⟨q, hq, hr⟩ := (hband x y).2 hxy
        exact hall q hq x y hr
      intro x y
      rw [← hband x y]
      simp only [commitStmt, ScopStmt.getDomain, isl_union_set_from_set,
        isl_union_map_intersect_domain, isl_union_map_is_empty, ScopStmt.setSchedule, hq,
        isl_bool.toBool, Bool.false_eq_true, if_false]
      generalize hB : ps.filterMap _ = band
      have hbm : ∀ q ∈ band, q.inName = st.name ∧ q.outName = "" ∧ q.map.nIn = st.domain.dim
          ∧ q.map.nOut = w := by
        intro q hq'
        rw [← hB] at hq'
        obtain ⟨p, hp, h1, h2, rfl⟩ := (stmtBand_mem ps st q).1 hq'
        exact ⟨h1.symm, (hps p hp).1, h2.symm, (hps p hp).2⟩
      cases band with
      | nil => simp [isl_map_from_union_map, isl_map.Rel]
      | cons q0 rest =>
        have hall : (rest.all fun q => decide (q.inName = q0.inName ∧ q.outName = q0.outName
            ∧ q.map.nIn = q0.map.nIn ∧ q.map.nOut = q0.map.nOut)) = true := by
          rw [List.all_eq_true]
          intro q hq'
          have a := hbm q (List.mem_cons_of_mem q0 hq')
          have b := hbm q0 (List.mem_cons_self q0 rest)
          simp only [decide_eq_true_eq]
          exact ⟨a.1.trans b.1.symm, a.2.1.trans b.2.1.symm, a.2.2.1.trans b.2.2.1.symm,
            a.2.2.2.trans b.2.2.2.symm⟩
        rw [isl_map_from_union_map, if_pos hall]
        simp only [isl_map.Rel, MapVal.Rel]
        have b := hbm q0 (List.mem_cons_self q0 rest)
        constructor
        · rintro ⟨hx, hy, q, hq', hpr⟩
          have a := hbm q hq'
          exact ⟨q, hq', hx.trans (b.2.2.1.trans a.2.2.1.symm),
            hy.trans (b.2.2.2.trans a.2.2.2.symm), hpr⟩
        · rintro ⟨q, hq', hx, hy, hpr⟩
          have a := hbm q hq'
          exact ⟨hx.trans (a.2.2.1.trans b.2.2.1.symm), hy.trans (a.2.2.2.trans b.2.2.2.symm),
            q, hq', hpr⟩

theorem newSchedule_uniform (U : isl_union_map) (T : isl_map) :
    ∀ ps, isl_union_map_apply_range U (isl_union_map_from_map T) = some ps →
      ∀ q ∈ ps, q.outName = "" ∧ q.map.nOut = isl_map_dim T isl_dim_out := by
  intro ps h
  cases U with
  | none => simp [isl_union_map_apply_range] at h
  | some ms =>
    cases T with
    | none => simp [isl_union_map_apply_range, isl_union_map_from_map] at h
    | some t => exact newSchedule_pieces h

/-- What runOnScop leaves when it applies the transform. -/
theorem runOnScop_applied (yyparse : String → Option nodeType) (src : Option (List String))
    (D : Dependences) (S : Scop) (h : (runOnScop yyparse src D S).applyTransform = true) :
    (runOnScop yyparse src D S).scop.stmts
      = S.stmts.map (commitStmt S.ctx (isl_union_map_apply_range S.getSchedule
          (isl_union_map_from_map (getTransform yyparse src S).1))) := by
  have hfr := getTransform_frame yyparse src S
  by_cases hS : S.getSize = 0
  · unfold runOnScop at h
    rw [if_pos hS] at h
    exact absurd h (by simp)
  · rw [runOnScop_nonempty yyparse src D S hS] at h ⊢
    generalize transformChecks _ _ _ _ = chk at h ⊢
    cases hb : chk.1 with
    | true =>
      simp only [if_true, Scop.markAsOptimized, isl_union_map_coalesce, hfr.1, hfr.2]
    | false =>
      rw [hb] at h
      exact absurd h (by simp)

/-- What runOnScop leaves when it does not apply the transform. -/
theorem runOnScop_not_applied (yyparse : String → Option nodeType) (src : Option (List String))
    (D : Dependences) (S : Scop) (h : (runOnScop yyparse src D S).applyTransform = false) :
    (runOnScop yyparse src D S).scop.stmts = S.stmts := by
  have hfr := getTransform_frame yyparse src S
  by_cases hS : S.getSize = 0
  · unfold runOnScop
    rw [if_pos hS]
    rfl
  · rw [runOnScop_nonempty yyparse src D S hS] at h ⊢
    generalize transformChecks _ _ _ _ = chk at h ⊢
    cases hb : chk.1 with
    | true =>
      rw [hb] at h
      exact absurd h (by simp)
    | false =>
      simp only [Bool.false_eq_true, if_false]
      exact hfr.1

/-- C4: commit stage.  When the checks pass (the transform is applied), every
statement is replaced by the statement with the installed schedule; the new
global schedule is the original schedule composed with the cumulative transform;
the installed schedule of a statement relates exactly the pairs of the new
global schedule whose first point lies in the domain of the statement; and when
there is no such pair it is the empty relation over the domain space. -/
theorem C4_commit_stage (yyparse : String → Option nodeType) (src : Option (List String))
    (D : Dependences) (S : Scop) (h : (runOnScop yyparse src D S).applyTransform = true) :
    (runOnScop yyparse src D S).scop.stmts
        = S.stmts.map (commitStmt S.ctx (isl_union_map_apply_range S.getSchedule
            (isl_union_map_from_map (getTransform yyparse src S).1)))
      ∧ (∀ n x y, (isl_union_map_apply_range S.getSchedule
            (isl_union_map_from_map (getTransform yyparse src S).1)).Rel n x "" y
          ↔ ∃ z, S.getSchedule.Rel n x "" z ∧ (getTransform yyparse src S).1.Rel z y)
      ∧ ∀ st ∈ S.stmts,
          (commitStmt S.ctx (isl_union_map_apply_range S.getSchedule
            (isl_union_map_from_map (getTransform yyparse src S).1)) st).name = st.name
          ∧ (commitStmt S.ctx (isl_union_map_apply_range S.getSchedule
            (isl_union_map_from_map (getTransform yyparse src S).1)) st).domain = st.domain
          ∧ (∀ x y, (commitStmt S.ctx (isl_union_map_apply_range S.getSchedule
                (isl_union_map_from_map (getTransform yyparse src S).1)) st).schedule.Rel x y
              ↔ st.domain.Mem x ∧ (isl_union_map_apply_range S.getSchedule
                (isl_union_map_from_map (getTransform yyparse src S).1)).Rel st.name x "" y)
          ∧ ((∀ x y, ¬ (st.domain.Mem x ∧ (isl_union_map_apply_range S.getSchedule
                (isl_union_map_from_map (getTransform yyparse src S).1)).Rel st.name x "" y)) →
              (commitStmt S.ctx (isl_union_map_apply_range S.getSchedule
                (isl_union_map_from_map (getTransform yyparse src S).1)) st).schedule
                = isl_map_from_domain (isl_set_empty st.getDomainSpace)) := by
  refine ⟨runOnScop_applied yyparse src D S h, fun n x y => newSchedule_rel _ _ n x y, ?_⟩
  intro st _
  have hc := commitStmt_rel S.ctx _ _
    (newSchedule_uniform S.getSchedule (getTransform yyparse src S).1) st
  exact ⟨rfl, rfl, hc.1, hc.2⟩

/-! ## The identity script -/

theorem identity_injective (s : isl_set) : (isl_set_identity s).Injective := by
  intro x1 x2 y h1 h2
  rw [rel_identity] at h1 h2
  rw [← h1.2, ← h2.2]

/-- A script whose lines are comments or hold no directive leaves the
transform and the region as they are. -/
theorem foldl_lines_skip (yyparse : String → Option nodeType) (lines : List String)
    (h : ∀ l ∈ lines, isComment l = true ∨ yyparse l = none) (acc : isl_map × Scop) :
    lines.foldl (fun (acc : isl_map × Scop) line =>
        if !(isComment line) then applyUnitTransform yyparse acc.2 line acc.1 else acc)
      acc = acc := by
  induction lines with
  | nil => rfl
  | cons line rest ih =>
    rw [List.foldl_cons]
    have hstep : (if !(isComment line) then applyUnitTransform yyparse acc.2 line acc.1
        else acc) = acc := by
      rcases h line (List.mem_cons_self line rest) with hc | hp
      · simp [hc]
      · by_cases hc : isComment line = true
        · simp [hc]
        · have hc' : isComment line = false := by simpa using hc
          simp only [hc', Bool.not_false, if_true]
          unfold applyUnitTransform
          rw [hp]
    rw [hstep]
    exact ih (fun l hl => h l (List.mem_cons_of_mem line hl))

theorem getTransform_identity_script (yyparse : String → Option nodeType)
    (src : Option (List String)) (S : Scop)
    (hsrc : ∀ lines, src = some lines → ∀ l ∈ lines, isComment l = true ∨ yyparse l = none) :
    getTransform yyparse src S = (isl_set_identity (scheduleRange S), S) := by
  unfold getTransform
  cases src with
  | none => rfl
  | some lines => exact foldl_lines_skip yyparse lines (hsrc lines rfl) _

theorem unionOfSchedules_mem : ∀ (stmts : List ScopStmt) (ps : List UMapPiece),
    unionOfSchedules stmts = some ps →
      ∀ p, p ∈ ps ↔ ∃ st ∈ stmts, ∃ m, st.schedule = some m ∧ p = ⟨st.name, "", m⟩ := by
  intro stmts
  induction stmts with
  | nil =>
    intro ps h p
    simp only [unionOfSchedules, Option.some.injEq] at h
    subst h
    simp
  | cons st rest ih =>
    intro ps h p
    unfold unionOfSchedules at h
    cases hs : st.schedule with
    | none => simp [hs] at h
    | some m =>
      cases hr : unionOfSchedules rest with
      | none => simp [hs, hr] at h
      | some qs =>
        simp only [hs, hr, Option.some.injEq] at h
        subst h
        simp only [List.mem_cons, ih qs hr p]
        constructor
        · rintro (rfl | ⟨st', hst', m', hm', rfl⟩)
          · exact ⟨st, Or.inl rfl, m, hs, rfl⟩
          · exact ⟨st', Or.inr hst', m', hm', rfl⟩
        · rintro ⟨st', (rfl | hst'), m', hm', rfl⟩
          · left
            rw [hs, Option.some.injEq] at hm'
            rw [hm']
          · exact Or.inr ⟨st', hst', m', hm', rfl⟩

theorem from_union_set_some {l : List USetPiece} {R : SetVal}
    (h : isl_set_from_union_set (some l) = some R) :
    (∀ q ∈ l, q.set.dim = R.dim) ∧ ∀ y, R.pred y ↔ ∃ q ∈ l, q.set.pred y := by
  cases l with
  | nil => simp [isl_set_from_union_set] at h
  | cons p ps =>
    simp only [isl_set_from_union_set] at h
    split at h
    · rename_i hall
      rw [Option.some.injEq] at h
      subst h
      rw [List.all_eq_true] at hall
      refine ⟨?_, fun y => Iff.rfl⟩
      intro q hq
      rcases List.mem_cons.1 hq with rfl | hq'
      · rfl
      · have := hall q hq'
        simp only [decide_eq_true_eq] at this
        exact this.2
    · exact absurd h (by simp)

/-- The images of the instances of a statement lie in the schedule range. -/
theorem scheduleRange_mem {S : Scop} {R : SetVal} (hR : scheduleRange S = some R)
    {st : ScopStmt} (hst : st ∈ S.stmts) {x y : Point} (hx : st.domain.Mem x)
    (hxy : st.schedule.Rel x y) : R.Mem y := by
  unfold scheduleRange isl_set_coalesce at hR
  cases hU : S.getSchedule with
  | none => simp [hU, isl_union_map_intersect_domain, isl_union_map_range,
      isl_set_from_union_set] at hR
  | some ps =>
    cases hm : st.schedule with
    | none => simp [hm, isl_map.Rel] at hxy
    | some m =>
      rw [hm] at hxy
      simp only [hU, Scop.getDomains, isl_union_map_intersect_domain, isl_union_map_range] at hR
      have hfs := from_union_set_some hR
      have hp : (⟨st.name, "", m⟩ : UMapPiece) ∈ ps :=
        (unionOfSchedules_mem S.stmts ps hU _).2 ⟨st, hst, m, hm, rfl⟩
      have hdom : (⟨st.name, st.domain⟩ : USetPiece)
          ∈ S.stmts.map (fun st => (⟨st.name, st.domain⟩ : USetPiece)) :=
        List.mem_map.2 ⟨st, hst, rfl⟩
      have hany : (S.stmts.map (fun st => (⟨st.name, st.domain⟩ : USetPiece))).any
          (fun q => decide (q.name = st.name ∧ q.set.dim = m.nIn)) = true := by
        rw [List.any_eq_true]
        exact ⟨_, hdom, by simpa using hx.1.symm.trans hxy.1⟩
      have hq : (⟨"", ⟨m.nOut, fun y => ∃ x, MapVal.Rel ⟨m.nIn, m.nOut,
            fun x y => m.pred x y ∧ ∃ q ∈ S.stmts.map
              (fun st => (⟨st.name, st.domain⟩ : USetPiece)), q.name = st.name ∧ q.set.Mem x⟩
            x y⟩⟩ : USetPiece)
          ∈ (ps.filterMap (restrictPiece (S.stmts.map
              (fun st => (⟨st.name, st.domain⟩ : USetPiece))))).map
            (fun p => (⟨p.outName, ⟨p.map.nOut, fun y => ∃ x, p.map.Rel x y⟩⟩ : USetPiece)) := by
        rw [List.mem_map]
        refine ⟨⟨st.name, "", ⟨m.nIn, m.nOut, fun x y => m.pred x y ∧ ∃ q ∈ S.stmts.map
              (fun st => (⟨st.name, st.domain⟩ : USetPiece)), q.name = st.name ∧ q.set.Mem x⟩⟩,
          ?_, rfl⟩
        rw [List.mem_filterMap]
        refine ⟨_, hp, ?_⟩
        unfold restrictPiece
        rw [if_pos hany]
      refine ⟨hxy.2.1.trans (hfs.1 _ hq), (hfs.2 y).2 ⟨_, hq, x, hxy.1, hxy.2.1, hxy.2.2, ?_⟩⟩
      exact ⟨_, hdom, rfl, hx⟩

/-- With distinct statement names, the union of the schedules relates the
instances of a statement as the schedule of that statement does. -/
theorem getSchedule_rel {S : Scop} (hnames : (S.stmts.map (fun st => st.name)).Nodup)
    {ps : List UMapPiece} (hU : S.getSchedule = some ps) {st : ScopStmt} (hst : st ∈ S.stmts)
    (x z : Point) : S.getSchedule.Rel st.name x "" z ↔ st.schedule.Rel x z := by
  rw [hU]
  simp only [isl_union_map.Rel]
  constructor
  · rintro ⟨p, hp, h1, _, h3⟩
    obtain ⟨st', hst', m, hm, rfl⟩ := (unionOfSchedules_mem S.stmts ps hU p).1 hp
    have heq : st' = st := List.inj_on_of_nodup_map hnames hst' hst h1
    subst heq
    rw [hm]
    exact h3
  · intro h
    cases hm : st.schedule with
    | none => simp [hm, isl_map.Rel] at h
    | some m =>
      rw [hm] at h
      exact ⟨_, (unionOfSchedules_mem S.stmts ps hU _).2 ⟨st, hst, m, hm, rfl⟩, rfl, rfl, h⟩

/-- On its domain, the schedule committed for the identity transform is the
original schedule of the statement. -/
theorem commit_identity_rel {S : Scop} (hnames : (S.stmts.map (fun st => st.name)).Nodup)
    {R : SetVal} (hR : scheduleRange S = some R) {st : ScopStmt} (hst : st ∈ S.stmts)
    (x y : Point) :
    (commitStmt S.ctx (isl_union_map_apply_range S.getSchedule
        (isl_union_map_from_map (isl_set_identity (scheduleRange S)))) st).schedule.Rel x y
      ↔ st.domain.Mem x ∧ st.schedule.Rel x y := by
  have hc := commitStmt_rel S.ctx _ _
    (newSchedule_uniform S.getSchedule (isl_set_identity (scheduleRange S))) st
  rw [hc.1 x y, newSchedule_rel]
  cases hU : S.getSchedule with
  | none =>
    exfalso
    unfold scheduleRange isl_set_coalesce at hR
    simp [hU, isl_union_map_intersect_domain, isl_union_map_range, isl_set_from_union_set] at hR
  | some ps =>
    rw [← hU]
    constructor
    · rintro ⟨hx, z, hz, hid⟩
      rw [rel_identity] at hid
      rw [hid.2]
      exact ⟨hx, (getSchedule_rel hnames hU hst x z).1 hz⟩
    · rintro ⟨hx, hxy⟩
      refine ⟨hx, y, (getSchedule_rel hnames hU hst x y).2 hxy, ?_⟩
      rw [rel_identity, hR]
      exact ⟨scheduleRange_mem hR hst hx hxy, rfl⟩

/-! ## The example region under the pass -/

theorem exScop_range_mem (ctx : isl_ctx) (y : Point) :
    (scheduleRange (exScop ctx)).Mem y ↔ y = [0, 0, 0] ∨ y = [0, 1, 0] := by
  simp only [scheduleRange, exScop, exStmt, Scop.getSchedule, unionOfSchedules, Scop.getDomains,
    isl_union_map_intersect_domain, isl_union_map_range, isl_set_from_union_set, isl_set_coalesce,
    isl_set.Mem, SetVal.Mem, MapVal.Rel, coord, restrictPiece, List.map, List.filterMap,
    List.any, List.all, decide_True, and_self, Bool.or_false, if_true, List.mem_singleton,
    exists_eq_left, List.length_singleton]
  constructor
  · rintro ⟨_, x, _, _, rfl, _, _, (rfl | rfl)⟩
    · left; rfl
    · right; rfl
  · rintro (rfl | rfl)
    · exact ⟨rfl, [0], by simp⟩
    · exact ⟨rfl, [1], by simp⟩

theorem exScop_range_dim (ctx : isl_ctx) : (scheduleRange (exScop ctx)).HasDim 3 :=
  ⟨_, rfl, rfl⟩

theorem exScop_names (ctx : isl_ctx) : ((exScop ctx).stmts.map (fun st => st.name)).Nodup := by
  simp [exScop]

/-- Witness of C3: the example region without script and without dependence
information. -/
theorem C3_injectivity_alone_witness :
    (exNoDeps.hasValidDependences = false
        ∧ (exScop ⟨fun p => Classical.propDecidable p⟩).getSize ≠ 0)
      ∧ ((runOnScop exParse none exNoDeps
            (exScop ⟨fun p => Classical.propDecidable p⟩)).applyTransform = true
          ↔ (getTransform exParse none
              (exScop ⟨fun p => Classical.propDecidable p⟩)).1.Injective)
      ∧ ((getTransform exParse none (exScop ⟨fun p => Classical.propDecidable p⟩)).1.Injective →
          (runOnScop exParse none exNoDeps (exScop ⟨fun p => Classical.propDecidable p⟩)).scop.stmts
            = (exScop ⟨fun p => Classical.propDecidable p⟩).stmts.map
                (commitStmt (exScop ⟨fun p => Classical.propDecidable p⟩).ctx
                  (isl_union_map_apply_range
                    (exScop ⟨fun p => Classical.propDecidable p⟩).getSchedule
                    (isl_union_map_from_map (getTransform exParse none
                      (exScop ⟨fun p => Classical.propDecidable p⟩)).1))))
      ∧ (¬ (getTransform exParse none (exScop ⟨fun p => Classical.propDecidable p⟩)).1.Injective →
          (runOnScop exParse none exNoDeps (exScop ⟨fun p => Classical.propDecidable p⟩)).scop.stmts
            = (exScop ⟨fun p => Classical.propDecidable p⟩).stmts) :=
  ⟨⟨rfl, by simp [exScop, Scop.getSize]⟩,
    C3_injectivity_alone exParse none exNoDeps _ rfl (by simp [exScop, Scop.getSize])⟩

theorem exScop_applied (ctx : isl_ctx) :
    (runOnScop exParse none exNoDeps (exScop ctx)).applyTransform = true :=
  (runOnScop_without_deps exParse none exNoDeps (exScop ctx) rfl
    (by simp [exScop, Scop.getSize])).1.2
    (by
      show (isl_set_identity (scheduleRange (exScop ctx))).Injective
      exact identity_injective _)

theorem exScop_getSchedule_rel (ctx : isl_ctx) (x y : Point) :
    (exScop ctx).getSchedule.Rel "Stmt" x "" y ↔ x.length = 1 ∧ y = [0, coord x 0, 0] := by
  simp only [exScop, exStmt, Scop.getSchedule, unionOfSchedules, isl_union_map.Rel,
    List.mem_singleton, exists_eq_left, MapVal.Rel, true_and]
  constructor
  · rintro ⟨h1, _, h2⟩
    exact ⟨h1, h2⟩
  · rintro ⟨h1, h2⟩
    exact ⟨h1, by rw [h2]; rfl, h2⟩

/-- Witness of C4: the example region without script and without dependence
information; the identity transform is applied, and the schedule installed in
the statement relates instance 1 to the schedule point [0, 1, 0]. -/
theorem C4_commit_stage_witness :
    (runOnScop exParse none exNoDeps (exScop ⟨fun p => Classical.propDecidable p⟩)).applyTransform
        = true
      ∧ (runOnScop exParse none exNoDeps (exScop ⟨fun p => Classical.propDecidable p⟩)).scop.stmts
        = (exScop ⟨fun p => Classical.propDecidable p⟩).stmts.map
            (commitStmt (exScop ⟨fun p => Classical.propDecidable p⟩).ctx
              (isl_union_map_apply_range (exScop ⟨fun p => Classical.propDecidable p⟩).getSchedule
                (isl_union_map_from_map (getTransform exParse none
                  (exScop ⟨fun p => Classical.propDecidable p⟩)).1)))
      ∧ (commitStmt (exScop ⟨fun p => Classical.propDecidable p⟩).ctx
            (isl_union_map_apply_range (exScop ⟨fun p => Classical.propDecidable p⟩).getSchedule
              (isl_union_map_from_map (getTransform exParse none
                (exScop ⟨fun p => Classical.propDecidable p⟩)).1)) exStmt).schedule.Rel
          [1] [0, 1, 0] := by
  have h := C4_commit_stage exParse none exNoDeps _ (exScop_applied ⟨fun p => Classical.propDecidable p⟩)
  refine ⟨exScop_applied _, h.1, ?_⟩
  rw [(h.2.2 exStmt (List.mem_singleton.2 rfl)).2.2.1, h.2.1]
  refine ⟨⟨rfl, Or.inr rfl⟩, [0, 1, 0], ?_, ?_⟩
  · exact (exScop_getSchedule_rel _ [1] [0, 1, 0]).2 ⟨rfl, rfl⟩
  · show (isl_set_identity (scheduleRange (exScop _))).Rel _ _
    rw [rel_identity, exScop_range_mem]
    exact ⟨Or.inr rfl, rfl⟩

/-- C5 (amended): identity script.  When the script file cannot be opened, is
empty, or holds only lines that start with "//" or that the parser reads as no
directive, getTransform returns exactly the identity relation on the range of
the schedule restricted to the domains, and leaves the label metadata alone.
When that range is a set of one space and the statements have distinct names,
the schedule of every statement after the pass relates only pairs of the
original schedule, and relates every instance of the domain of the statement to
all the schedule points of the original schedule (it is the original schedule,
restricted to the domain when the transform is committed). -/
theorem C5_identity_script (yyparse : String → Option nodeType) (src : Option (List String))
    (D : Dependences) (S : Scop)
    (hsrc : ∀ lines, src = some lines → ∀ l ∈ lines, isComment l = true ∨ yyparse l = none)
    (hnames : (S.stmts.map (fun st => st.name)).Nodup)
    (hR : (scheduleRange S).isSome = true) :
    getTransform yyparse src S = (isl_set_identity (scheduleRange S), S)
      ∧ ∃ g : ScopStmt → ScopStmt,
          (runOnScop yyparse src D S).scop.stmts = S.stmts.map g
          ∧ ∀ st ∈ S.stmts, (g st).name = st.name ∧ (g st).domain = st.domain
              ∧ (∀ x y, (g st).schedule.Rel x y → st.schedule.Rel x y)
              ∧ (∀ x y, st.domain.Mem x → st.schedule.Rel x y → (g st).schedule.Rel x y) := by
  have hT := getTransform_identity_script yyparse src S hsrc
  refine ⟨hT, ?_⟩
  obtain ⟨R, hR⟩ := Option.isSome_iff_exists.1 hR
  cases ha : (runOnScop yyparse src D S).applyTransform with
  | false =>
    refine ⟨id, ?_, ?_⟩
    · rw [runOnScop_not_applied yyparse src D S ha, List.map_id]
    · intro st _
      exact ⟨rfl, rfl, fun _ _ h => h, fun _ _ _ h => h⟩
  | true =>
    refine ⟨commitStmt S.ctx (isl_union_map_apply_range S.getSchedule
      (isl_union_map_from_map (isl_set_identity (scheduleRange S)))), ?_, ?_⟩
    · rw [runOnScop_applied yyparse src D S ha, hT]
    · intro st hst
      refine ⟨rfl, rfl, ?_, ?_⟩
      · intro x y h
        exact ((commit_identity_rel hnames hR hst x y).1 h).2
      · intro x y hx h
        exact (commit_identity_rel hnames hR hst x y).2 ⟨hx, h⟩

/-- Witness of C5: the example region without script file. -/
theorem C5_identity_script_witness :
    (((exScop ⟨fun p => Classical.propDecidable p⟩).stmts.map (fun st => st.name)).Nodup
        ∧ (scheduleRange (exScop ⟨fun p => Classical.propDecidable p⟩)).isSome = true)
      ∧ getTransform exParse none (exScop ⟨fun p => Classical.propDecidable p⟩)
        = (isl_set_identity (scheduleRange (exScop ⟨fun p => Classical.propDecidable p⟩)),
            exScop ⟨fun p => Classical.propDecidable p⟩) :=
  ⟨⟨exScop_names _, rfl⟩,
    (C5_identity_script exParse none exNoDeps _ (fun _ h => absurd h (by simp))
      (exScop_names _) rfl).1⟩

/-- Counterexample to C5 as stated: without script file the pass replaces the
schedule of the statement of the example region, which relates [5] to
[0, 5, 0], by a schedule that does not: the new schedule is cut down to the
domain of the statement. -/
theorem C5_identity_script_counterexample :
    getTransform exParse none (exScop ⟨fun p => Classical.propDecidable p⟩)
        = (isl_set_identity (scheduleRange (exScop ⟨fun p => Classical.propDecidable p⟩)),
            exScop ⟨fun p => Classical.propDecidable p⟩)
      ∧ (exScop ⟨fun p => Classical.propDecidable p⟩).stmts = [exStmt]
      ∧ exStmt.schedule.Rel [5] [0, 5, 0]
      ∧ ∃ st, (runOnScop exParse none exNoDeps
            (exScop ⟨fun p => Classical.propDecidable p⟩)).scop.stmts = [st]
          ∧ ¬ st.schedule.Rel [5] [0, 5, 0] := by
  refine ⟨rfl, rfl, ⟨rfl, rfl, rfl⟩,
    commitStmt (exScop ⟨fun p => Classical.propDecidable p⟩).ctx
      (isl_union_map_apply_range (exScop ⟨fun p => Classical.propDecidable p⟩).getSchedule
        (isl_union_map_from_map
          (isl_set_identity (scheduleRange (exScop ⟨fun p => Classical.propDecidable p⟩)))))
      exStmt, ?_, ?_⟩
  · rw [runOnScop_applied exParse none exNoDeps _ (exScop_applied _)]
    rfl
  · intro h
    have h2 := (commit_identity_rel (exScop_names ⟨fun p => Classical.propDecidable p⟩)
      rfl (List.mem_singleton.2 rfl) [5] [0, 5, 0]).1 h
    have h3 := h2.1.2
    simp [exStmt] at h3

/-! ## The case typeRealign -/

/-- The case typeRealign in terms of its named parts. -/
theorem caseRealign_eq (S : Scop) (m : realignNodeType) (T : isl_map) (pd : isl_set) :
    caseRealign S m T pd =
      if (S.LoopDomainMap m.l1.name).isNone || (S.LoopDomainMap m.l1.name).isNone then none
      else
        some (isl_map_union
          (isl_set_identity (leftDomainOf S (isl_set_apply (S.LoopDomainMap m.l1.name) T)
            (isl_set_apply (S.LoopDomainMap m.l1.name) T) pd))
          (isl_map_sum
            (isl_set_identity (rightDomainOf
              (leftDomainOf S (isl_set_apply (S.LoopDomainMap m.l1.name) T)
                (isl_set_apply (S.LoopDomainMap m.l1.name) T) pd) pd))
            (isl_map_from_domain_and_range
              (rightDomainOf (leftDomainOf S (isl_set_apply (S.LoopDomainMap m.l1.name) T)
                (isl_set_apply (S.LoopDomainMap m.l1.name) T) pd) pd)
              (realignGap S
                (leftDomainOf S (isl_set_apply (S.LoopDomainMap m.l1.name) T)
                  (isl_set_apply (S.LoopDomainMap m.l1.name) T) pd)
                (rightDomainOf (leftDomainOf S (isl_set_apply (S.LoopDomainMap m.l1.name) T)
                  (isl_set_apply (S.LoopDomainMap m.l1.name) T) pd) pd) m.n))), S) := rfl

theorem lexSlots_ok {w i : Nat} (hw : w + 1 < 4294967296) (hi : i < u32 (w + 1) / 2) :
    u32 (2 * i) < w ∧ u32 (2 * i) = 2 * i := by
  have h1 : u32 (w + 1) = w + 1 := Nat.mod_eq_of_lt hw
  rw [h1] at hi
  have h2 : 2 * i < w := by omega
  have h3 : u32 (2 * i) = 2 * i := Nat.mod_eq_of_lt (by omega)
  rw [h3]
  exact ⟨h2, rfl⟩

/-- Members of leftDomain. -/
theorem leftDomainOf_mem (S : Scop) {pl first pd : isl_set} {w : Nat} (hpl : pl.HasDim w)
    (hf : first.HasDim w) (hpd : pd.HasDim w) (hw : w + 1 < 4294967296) :
    (leftDomainOf S pl first pd).HasDim w
      ∧ ∀ x, (leftDomainOf S pl first pd).Mem x
          ↔ pd.Mem x ∧ (first.Mem x
            ∨ ∃ z, pl.Mem z ∧ ∃ i, 2 * i < w
                ∧ (∀ j < i, coord x (2 * j) = coord z (2 * j))
                ∧ coord x (2 * i) < coord z (2 * i)) := by
  have hlex := scheduleLexGt_rel S w (u32 (w + 1) / 2) (fun i hi => (lexSlots_ok hw hi).1)
  have hd : isl_set_dim pd isl_dim_set = w := isl_set_dim_of_hasDim hpd
  unfold leftDomainOf
  rw [hd]
  have ha := hasDim_apply hpl hlex.1
  refine ⟨hasDim_intersect (hasDim_union ha hf) hpd, ?_⟩
  intro x
  rw [mem_intersect, mem_union ha hf, mem_apply]
  have h1 : u32 (w + 1) = w + 1 := Nat.mod_eq_of_lt hw
  constructor
  · rintro ⟨(⟨z, hz, hr⟩ | hx), hp⟩
    · obtain ⟨_, _, i, hi, h2, h3⟩ := (hlex.2 z x).1 hr
      have hs := lexSlots_ok hw hi
      refine ⟨hp, Or.inr ⟨z, hz, i, by omega, ?_, ?_⟩⟩
      · intro j hj
        have hsj := lexSlots_ok hw (Nat.lt_trans hj hi)
        have := h2 j hj
        rw [hsj.2] at this
        exact this
      · rw [hs.2] at h3
        exact h3
    · exact ⟨hp, Or.inl hx⟩
  · rintro ⟨hp, (hx | ⟨z, hz, i, hi, h2, h3⟩)⟩
    · exact ⟨Or.inr hx, hp⟩
    · refine ⟨Or.inl ⟨z, hz, (hlex.2 z x).2 ⟨hpl.mem_length hz, hpd.mem_length hp, i, ?_, ?_, ?_⟩⟩, hp⟩
      · rw [h1]; omega
      · intro j hj
        have hj2 : u32 (2 * j) = 2 * j := Nat.mod_eq_of_lt (by omega)
        rw [hj2]
        exact h2 j hj
      · have hi2 : u32 (2 * i) = 2 * i := Nat.mod_eq_of_lt (by omega)
        rw [hi2]
        exact h3

/-- Members of rightDomain. -/
theorem rightDomainOf_mem {left pd : isl_set} {w : Nat} (hl : left.HasDim w)
    (hpd : pd.HasDim w) :
    (rightDomainOf left pd).HasDim w
      ∧ ∀ x, (rightDomainOf left pd).Mem x ↔ pd.Mem x ∧ ¬ left.Mem x := by
  unfold rightDomainOf
  refine ⟨hasDim_intersect (hasDim_complement hl) hpd, ?_⟩
  intro x
  rw [mem_intersect, mem_complement hl]
  constructor
  · rintro ⟨⟨_, h1⟩, h2⟩
    exact ⟨h2, h1⟩
  · rintro ⟨h2, h1⟩
    exact ⟨⟨hpd.mem_length h2, h1⟩, h2⟩

theorem coord_of_lt {x : Point} {i : Nat} (h : i < x.length) : coord x i = x[i] := by
  unfold coord
  rw [List.getD_eq_getElem?_getD, List.getElem?_eq_getElem h]
  rfl

theorem point_ext {x y : Point} (hl : x.length = y.length)
    (h : ∀ i, i < x.length → coord x i = coord y i) : x = y := by
  apply List.ext_getElem hl
  intro i h1 h2
  have := h i h1
  rw [coord_of_lt h1, coord_of_lt h2] at this
  exact this

theorem unitVec_length (w k : Nat) : (unitVec w k).length = w := by
  simp [unitVec]

theorem unitVec_coord {w k i : Nat} (hi : i < w) :
    coord (unitVec w k) i = if i = k then 1 else 0 := by
  rw [coord_of_lt (by rw [unitVec_length]; exact hi)]
  simp [unitVec]

theorem zeroOdd_length (x : Point) : (zeroOdd x).length = x.length := by
  simp [zeroOdd]

theorem zeroOdd_coord {x : Point} {i : Nat} (hi : i < x.length) :
    coord (zeroOdd x) i = if i % 2 = 0 then coord x i else 0 := by
  rw [coord_of_lt (by rw [zeroOdd_length]; exact hi)]
  simp [zeroOdd]

/-- The relation zeroIterDims is the function zeroOdd. -/
theorem zeroIterDims_fun (S : Scop) {n : Nat} (hn : n + 1 < 4294967296) (x y : Point) :
    (zeroIterDims S (isl_space_set_alloc 0 n)).Rel x y ↔ x.length = n ∧ y = zeroOdd x := by
  rw [(zeroIterDims_rel S n).2 x y]
  constructor
  · rintro ⟨hx, hy, h⟩
    refine ⟨hx, point_ext (by rw [zeroOdd_length, hx, hy]) ?_⟩
    intro i hi
    rw [hy] at hi
    rw [zeroOdd_coord (by rw [hx]; exact hi)]
    by_cases he : i % 2 = 0
    · rw [if_pos he]
      exact (h i hi he).1
    · rw [if_neg he]
      have h1 : (i - 1) % 2 = 0 := by omega
      have h2 : i - 1 < n := by omega
      have h3 : u32 (i - 1 + 1) = i := by
        have : i - 1 + 1 = i := by omega
        rw [this]
        exact Nat.mod_eq_of_lt (by omega)
      have h4 := (h (i - 1) h2 h1).2
      rw [h3] at h4
      exact h4 hi
  · rintro ⟨hx, rfl⟩
    refine ⟨hx, by rw [zeroOdd_length, hx], ?_⟩
    intro i hi he
    refine ⟨?_, ?_⟩
    · rw [zeroOdd_coord (by rw [hx]; exact hi), if_pos he]
    · intro h1
      have h3 : u32 (i + 1) = i + 1 := Nat.mod_eq_of_lt (by omega)
      rw [h3] at h1 ⊢
      rw [zeroOdd_coord (by rw [hx]; exact h1), if_neg (by omega)]

/-- Members of the set gap of the case typeRealign. -/
theorem realignGap_mem (S : Scop) {left right : isl_set} {w : Nat} (hl : left.HasDim w)
    (hr : right.HasDim w) (hw : w + 1 < 4294967296) (n : Nat) :
    (realignGap S left right n).HasDim w
      ∧ ∀ g, (realignGap S left right n).Mem g
          ↔ ∃ mn mx,
              (∃ a, right.Mem a ∧ mn = zeroOdd a)
              ∧ (∀ a, right.Mem a → lexLe mn (zeroOdd a))
              ∧ (∃ a, left.Mem a ∧ mx = zeroOdd a)
              ∧ (∀ a, left.Mem a → lexGe mx (zeroOdd a))
              ∧ g = Point.add (Point.add (Point.neg mn) mx) (unitVec w (u32 (n * 2))) := by
  have hz := zeroIterDims_rel S w
  have hzf := zeroIterDims_fun S hw
  have hal := hasDim_apply hl hz.1
  have har := hasDim_apply hr hz.1
  have hmax := hasDim_lexmax hal
  have hmin := hasDim_lexmin har
  have hgap := hasDim_sum (hasDim_neg hmin) hmax
  have hinc := foldl_refine_set
    (fun inc i =>
      if i ≠ u32 (n * 2) then isl_set_fix_si inc isl_dim_set i 0
      else isl_set_fix_si inc isl_dim_set i 1)
    (fun i e => coord e i = if i = u32 (n * 2) then 1 else 0) w (List.range w)
    (by
      intro s i hi hs
      have hiw : i < w := List.mem_range.1 hi
      by_cases hc : i = u32 (n * 2)
      · simp only [hc, ne_eq, not_true_eq_false, if_false, if_true]
        rw [← hc]
        exact mem_set_fix hs hiw 1
      · simp only [hc, ne_eq, not_false_eq_true, if_true, if_false]
        exact mem_set_fix hs hiw 0)
    _ (hasDim_universe w)
  unfold realignGap
  simp only [get_space_of_hasDim hl]
  rw [get_space_of_hasDim hgap, isl_set_dim_of_hasDim hgap]
  refine ⟨hasDim_sum hgap hinc.1, ?_⟩
  intro g
  rw [mem_sum hgap hinc.1]
  have hmemL : ∀ p, (isl_set_apply left (zeroIterDims S (isl_space_set_alloc 0 w))).Mem p
      ↔ ∃ a, left.Mem a ∧ p = zeroOdd a := by
    intro p
    rw [mem_apply]
    constructor
    · rintro ⟨a, ha, hr'⟩
      exact ⟨a, ha, ((hzf a p).1 hr').2⟩
    · rintro ⟨a, ha, rfl⟩
      exact ⟨a, ha, (hzf a _).2 ⟨hl.mem_length ha, rfl⟩⟩
  have hmemR : ∀ p, (isl_set_apply right (zeroIterDims S (isl_space_set_alloc 0 w))).Mem p
      ↔ ∃ a, right.Mem a ∧ p = zeroOdd a := by
    intro p
    rw [mem_apply]
    constructor
    · rintro ⟨a, ha, hr'⟩
      exact ⟨a, ha, ((hzf a p).1 hr').2⟩
    · rintro ⟨a, ha, rfl⟩
      exact ⟨a, ha, (hzf a _).2 ⟨hr.mem_length ha, rfl⟩⟩
  have hincm : ∀ e, ((List.range w).foldl
      (fun inc i =>
        if i ≠ u32 (n * 2) then isl_set_fix_si inc isl_dim_set i 0
        else isl_set_fix_si inc isl_dim_set i 1)
      (isl_set_universe (isl_space_set_alloc 0 w))).Mem e ↔ e = unitVec w (u32 (n * 2)) := by
    intro e
    rw [hinc.2 e, mem_universe]
    constructor
    · rintro ⟨he, h⟩
      apply point_ext (by rw [he, unitVec_length])
      intro i hi
      rw [he] at hi
      rw [h i (List.mem_range.2 hi), unitVec_coord hi]
    · rintro rfl
      refine ⟨unitVec_length _ _, ?_⟩
      intro i hi
      exact unitVec_coord (List.mem_range.1 hi)
  constructor
  · rintro ⟨p, e, hp, he, rfl⟩
    rw [mem_sum (hasDim_neg hmin) hmax] at hp
    obtain ⟨q, mx, hq, hmx, rfl⟩ := hp
    rw [mem_neg] at hq
    obtain ⟨mn, hmn, rfl⟩ := hq
    rw [mem_lexmin] at hmn
    rw [mem_lexmax] at hmx
    refine ⟨mn, mx, (hmemR mn).1 hmn.1, ?_, (hmemL mx).1 hmx.1, ?_, ?_⟩
    · intro a ha
      exact hmn.2 _ ((hmemR _).2 ⟨a, ha, rfl⟩)
    · intro a ha
      exact hmx.2 _ ((hmemL _).2 ⟨a, ha, rfl⟩)
    · rw [(hincm e).1 he]
  · rintro ⟨mn, mx, h1, h2, h3, h4, rfl⟩
    refine ⟨_, _, ?_, (hincm _).2 rfl, rfl⟩
    rw [mem_sum (hasDim_neg hmin) hmax]
    refine ⟨_, mx, ?_, ?_, rfl⟩
    · rw [mem_neg]
      refine ⟨mn, ?_, rfl⟩
      rw [mem_lexmin]
      refine ⟨(hmemR mn).2 h1, ?_⟩
      intro q hq
      obtain ⟨a, ha, rfl⟩ := (hmemR q).1 hq
      exact h2 a ha
    · rw [mem_lexmax]
      refine ⟨(hmemL mx).2 h3, ?_⟩
      intro q hq
      obtain ⟨a, ha, rfl⟩ := (hmemL q).1 hq
      exact h4 a ha

/-- The unit map of the case typeRealign: the identity on the left domain and
the shift by the gap on the right domain. -/
theorem caseRealign_map (S : Scop) (m : realignNodeType) (T : isl_map) (pd : isl_set)
    (h1 : (S.LoopDomainMap m.l1.name).isSome = true) {w : Nat}
    (hpl : (isl_set_apply (S.LoopDomainMap m.l1.name) T).HasDim w) (hpd : pd.HasDim w)
    (hw : w + 1 < 4294967296) :
    ∃ map, caseRealign S m T pd = some (map, S) ∧ map.HasDims w w
      ∧ ∀ x y, map.Rel x y
          ↔ ((leftDomainOf S (isl_set_apply (S.LoopDomainMap m.l1.name) T)
                (isl_set_apply (S.LoopDomainMap m.l1.name) T) pd).Mem x ∧ y = x)
            ∨ ((rightDomainOf (leftDomainOf S (isl_set_apply (S.LoopDomainMap m.l1.name) T)
                (isl_set_apply (S.LoopDomainMap m.l1.name) T) pd) pd).Mem x
              ∧ ∃ g, (realignGap S
                  (leftDomainOf S (isl_set_apply (S.LoopDomainMap m.l1.name) T)
                    (isl_set_apply (S.LoopDomainMap m.l1.name) T) pd)
                  (rightDomainOf (leftDomainOf S (isl_set_apply (S.LoopDomainMap m.l1.name) T)
                    (isl_set_apply (S.LoopDomainMap m.l1.name) T) pd) pd) m.n).Mem g
                ∧ y = Point.add x g) := by
  have hleft := leftDomainOf_mem S hpl hpl hpd hw
  have hright := rightDomainOf_mem hleft.1 hpd
  have hgap := realignGap_mem S hleft.1 hright.1 hw m.n
  have hidl := hasDims_identity hleft.1
  have hidr := hasDims_identity hright.1
  have hgm := hasDims_from_domain_and_range hright.1 hgap.1
  have hsum := hasDims_map_sum hidr hgm
  refine ⟨_, ?_, hasDims_union hidl hsum, ?_⟩
  · rw [caseRealign_eq]
    have hn : (S.LoopDomainMap m.l1.name).isNone = false := by
      cases hL : S.LoopDomainMap m.l1.name with
      | none => rw [hL] at h1; exact absurd h1 (by simp)
      | some v => rfl
    simp only [hn, Bool.or_self, Bool.false_eq_true, if_false]
  · intro x y
    rw [rel_union hidl hsum, rel_identity, rel_map_sum hidr hgm]
    constructor
    · rintro (h | ⟨u, v, hu, hv, rfl⟩)
      · exact Or.inl h
      · rw [rel_identity] at hu
        rw [rel_from_domain_and_range] at hv
        right
        refine ⟨hu.1, v, hv.2, ?_⟩
        rw [hu.2]
    · rintro (h | ⟨hx, g, hg, rfl⟩)
      · exact Or.inl h
      · right
        refine ⟨x, g, ?_, ?_, rfl⟩
        · rw [rel_identity]
          exact ⟨hx, rfl⟩
        · rw [rel_from_domain_and_range]
          exact ⟨hx, hg⟩

/-! ## The second example region under realign -/

theorem ex2Scop_range_mem (ctx : isl_ctx) (y : Point) :
    (scheduleRange (ex2Scop ctx)).Mem y ↔ y = [0, 0, 0] ∨ y = [1, 0, 0] := by
  simp [scheduleRange, ex2Scop, ex2Stmts, Scop.getSchedule, unionOfSchedules,
    Scop.getDomains,
    isl_union_map_intersect_domain, isl_union_map_range, isl_set_from_union_set, isl_set_coalesce,
    isl_set.Mem, SetVal.Mem, MapVal.Rel, coord, restrictPiece]
  constructor
  · rintro ⟨_, (⟨x, _, _, rfl, _, rfl⟩ | ⟨x, _, _, rfl, _, rfl⟩)⟩
    · left; rfl
    · right; rfl
  · rintro (rfl | rfl)
    · exact ⟨rfl, Or.inl ⟨[0], by simp⟩⟩
    · exact ⟨rfl, Or.inr ⟨[0], by simp⟩⟩

theorem ex2Scop_range_dim (ctx : isl_ctx) : (scheduleRange (ex2Scop ctx)).HasDim 3 :=
  ⟨_, rfl, rfl⟩

/-- The domain after the identity transform is the schedule range. -/
theorem ex2_postDomain_mem (ctx : isl_ctx) (y : Point) :
    (isl_set_apply (scheduleRange (ex2Scop ctx))
      (isl_set_identity (scheduleRange (ex2Scop ctx)))).Mem y
      ↔ y = [0, 0, 0] ∨ y = [1, 0, 0] := by
  rw [mem_apply]
  constructor
  · rintro ⟨x, hx, hr⟩
    rw [rel_identity] at hr
    rw [hr.2]
    exact (ex2Scop_range_mem ctx x).1 hx
  · intro h
    have hy := (ex2Scop_range_mem ctx y).2 h
    exact ⟨y, hy, (rel_identity _ _ _).2 ⟨hy, rfl⟩⟩

theorem ex2_postDomain_dim (ctx : isl_ctx) :
    (isl_set_apply (scheduleRange (ex2Scop ctx))
      (isl_set_identity (scheduleRange (ex2Scop ctx)))).HasDim 3 :=
  hasDim_apply (ex2Scop_range_dim ctx) (hasDims_identity (ex2Scop_range_dim ctx))

/-- The loop L1 after the identity transform. -/
theorem ex2_postLoop1_mem (ctx : isl_ctx) (y : Point) :
    (isl_set_apply ((ex2Scop ctx).LoopDomainMap "L1")
      (isl_set_identity (scheduleRange (ex2Scop ctx)))).Mem y ↔ y = [0, 0, 0] := by
  rw [mem_apply]
  constructor
  · rintro ⟨x, hx, hr⟩
    rw [rel_identity] at hr
    rw [hr.2]
    simpa [ex2Scop, isl_set.Mem, SetVal.Mem] using hx.2
  · rintro rfl
    refine ⟨[0, 0, 0], by simp [ex2Scop, isl_set.Mem, SetVal.Mem], ?_⟩
    rw [rel_identity, ex2Scop_range_mem]
    exact ⟨Or.inl rfl, rfl⟩

theorem ex2_postLoop1_dim (ctx : isl_ctx) :
    (isl_set_apply ((ex2Scop ctx).LoopDomainMap "L1")
      (isl_set_identity (scheduleRange (ex2Scop ctx)))).HasDim 3 :=
  hasDim_apply ⟨_, rfl, rfl⟩ (hasDims_identity (ex2Scop_range_dim ctx))

theorem ex2_left_mem (ctx : isl_ctx) (x : Point) :
    (leftDomainOf (ex2Scop ctx)
        (isl_set_apply ((ex2Scop ctx).LoopDomainMap "L1")
          (isl_set_identity (scheduleRange (ex2Scop ctx))))
        (isl_set_apply ((ex2Scop ctx).LoopDomainMap "L1")
          (isl_set_identity (scheduleRange (ex2Scop ctx))))
        (isl_set_apply (scheduleRange (ex2Scop ctx))
          (isl_set_identity (scheduleRange (ex2Scop ctx))))).Mem x ↔ x = [0, 0, 0] := by
  rw [(leftDomainOf_mem _ (ex2_postLoop1_dim ctx) (ex2_postLoop1_dim ctx)
    (ex2_postDomain_dim ctx) (by decide)).2 x, ex2_postDomain_mem, ex2_postLoop1_mem]
  constructor
  · rintro ⟨(rfl | rfl), h⟩
    · rfl
    · rcases h with h | ⟨z, hz, i, hi, h2, h3⟩
      · exact h
      · exfalso
        rw [ex2_postLoop1_mem] at hz
        subst hz
        have hi' : i = 0 ∨ i = 1 := by omega
        rcases hi' with rfl | rfl
        · simp [coord] at h3
        · have := h2 0 (by decide)
          simp [coord] at this
  · rintro rfl
    exact ⟨Or.inl rfl, Or.inl rfl⟩

theorem ex2_left_dim (ctx : isl_ctx) :
    (leftDomainOf (ex2Scop ctx)
        (isl_set_apply ((ex2Scop ctx).LoopDomainMap "L1")
          (isl_set_identity (scheduleRange (ex2Scop ctx))))
        (isl_set_apply ((ex2Scop ctx).LoopDomainMap "L1")
          (isl_set_identity (scheduleRange (ex2Scop ctx))))
        (isl_set_apply (scheduleRange (ex2Scop ctx))
          (isl_set_identity (scheduleRange (ex2Scop ctx))))).HasDim 3 :=
  (leftDomainOf_mem _ (ex2_postLoop1_dim ctx) (ex2_postLoop1_dim ctx)
    (ex2_postDomain_dim ctx) (by decide)).1

theorem ex2_right_mem (ctx : isl_ctx) (x : Point) :
    (rightDomainOf (leftDomainOf (ex2Scop ctx)
        (isl_set_apply ((ex2Scop ctx).LoopDomainMap "L1")
          (isl_set_identity (scheduleRange (ex2Scop ctx))))
        (isl_set_apply ((ex2Scop ctx).LoopDomainMap "L1")
          (isl_set_identity (scheduleRange (ex2Scop ctx))))
        (isl_set_apply (scheduleRange (ex2Scop ctx))
          (isl_set_identity (scheduleRange (ex2Scop ctx)))))
        (isl_set_apply (scheduleRange (ex2Scop ctx))
          (isl_set_identity (scheduleRange (ex2Scop ctx))))).Mem x ↔ x = [1, 0, 0] := by
  rw [(rightDomainOf_mem (ex2_left_dim ctx) (ex2_postDomain_dim ctx)).2 x, ex2_postDomain_mem,
    ex2_left_mem]
  constructor
  · rintro ⟨(rfl | rfl), h⟩
    · exact absurd rfl h
    · rfl
  · rintro rfl
    exact ⟨Or.inr rfl, by decide⟩

theorem ex2_right_dim (ctx : isl_ctx) :
    (rightDomainOf (leftDomainOf (ex2Scop ctx)
        (isl_set_apply ((ex2Scop ctx).LoopDomainMap "L1")
          (isl_set_identity (scheduleRange (ex2Scop ctx))))
        (isl_set_apply ((ex2Scop ctx).LoopDomainMap "L1")
          (isl_set_identity (scheduleRange (ex2Scop ctx))))
        (isl_set_apply (scheduleRange (ex2Scop ctx))
          (isl_set_identity (scheduleRange (ex2Scop ctx)))))
        (isl_set_apply (scheduleRange (ex2Scop ctx))
          (isl_set_identity (scheduleRange (ex2Scop ctx))))).HasDim 3 :=
  (rightDomainOf_mem (ex2_left_dim ctx) (ex2_postDomain_dim ctx)).1

theorem ex2_gap_mem (ctx : isl_ctx) (g : Point) :
    (realignGap (ex2Scop ctx)
        (leftDomainOf (ex2Scop ctx)
          (isl_set_apply ((ex2Scop ctx).LoopDomainMap "L1")
            (isl_set_identity (scheduleRange (ex2Scop ctx))))
          (isl_set_apply ((ex2Scop ctx).LoopDomainMap "L1")
            (isl_set_identity (scheduleRange (ex2Scop ctx))))
          (isl_set_apply (scheduleRange (ex2Scop ctx))
            (isl_set_identity (scheduleRange (ex2Scop ctx)))))
        (rightDomainOf (leftDomainOf (ex2Scop ctx)
          (isl_set_apply ((ex2Scop ctx).LoopDomainMap "L1")
            (isl_set_identity (scheduleRange (ex2Scop ctx))))
          (isl_set_apply ((ex2Scop ctx).LoopDomainMap "L1")
            (isl_set_identity (scheduleRange (ex2Scop ctx))))
          (isl_set_apply (scheduleRange (ex2Scop ctx))
            (isl_set_identity (scheduleRange (ex2Scop ctx)))))
          (isl_set_apply (scheduleRange (ex2Scop ctx))
            (isl_set_identity (scheduleRange (ex2Scop ctx))))) 1).Mem g ↔ g = [-1, 0, 1] := by
  rw [(realignGap_mem _ (ex2_left_dim ctx) (ex2_right_dim ctx) (by decide) 1).2 g]
  simp only [ex2_left_mem, ex2_right_mem, exists_eq_left, forall_eq]
  constructor
  · rintro ⟨mn, mx, rfl, _, rfl, _, rfl⟩
    decide
  · rintro rfl
    exact ⟨_, _, rfl, Or.inl rfl, rfl, Or.inl rfl, by decide⟩

/-- The unit map of realign(L1, l2, 1) on the second example region, whatever
the second label is: [0, 0, 0] stays, [1, 0, 0] moves to [0, 0, 1]. -/
theorem ex2_realign_map (ctx : isl_ctx) (l2 : String) :
    ∃ map, caseRealign (ex2Scop ctx) ⟨⟨"L1"⟩, ⟨l2⟩, 1⟩
        (isl_set_identity (scheduleRange (ex2Scop ctx)))
        (isl_set_apply (scheduleRange (ex2Scop ctx))
          (isl_set_identity (scheduleRange (ex2Scop ctx)))) = some (map, ex2Scop ctx)
      ∧ map.HasDims 3 3
      ∧ ∀ x y, map.Rel x y
          ↔ (x = [0, 0, 0] ∧ y = [0, 0, 0]) ∨ (x = [1, 0, 0] ∧ y = [0, 0, 1]) := by
  obtain ⟨map, h1, h2, h3⟩ := caseRealign_map (ex2Scop ctx) ⟨⟨"L1"⟩, ⟨l2⟩, 1⟩
    (isl_set_identity (scheduleRange (ex2Scop ctx)))
    (isl_set_apply (scheduleRange (ex2Scop ctx))
      (isl_set_identity (scheduleRange (ex2Scop ctx)))) rfl
    (ex2_postLoop1_dim ctx) (ex2_postDomain_dim ctx) (by decide)
  refine ⟨map, h1, h2, ?_⟩
  intro x y
  rw [h3 x y]
  simp only [ex2_left_mem, ex2_right_mem, ex2_gap_mem, exists_eq_left]
  constructor
  · rintro (⟨rfl, rfl⟩ | ⟨rfl, rfl⟩)
    · exact Or.inl ⟨rfl, rfl⟩
    · exact Or.inr ⟨rfl, by decide⟩
  · rintro (⟨rfl, rfl⟩ | ⟨rfl, rfl⟩)
    · exact Or.inl ⟨rfl, rfl⟩
    · exact Or.inr ⟨rfl, by decide⟩

/-- The transform after realign(L1, l2, 1) on the second example region. -/
theorem ex2_realign_transform (ctx : isl_ctx) (str : String) (l2 : String)
    (hp : ex2Parse str = some (nodeType.typeRealign ⟨⟨"L1"⟩, ⟨l2⟩, 1⟩)) :
    (applyUnitTransform ex2Parse (ex2Scop ctx) str
        (isl_set_identity (scheduleRange (ex2Scop ctx)))).2 = ex2Scop ctx
      ∧ (applyUnitTransform ex2Parse (ex2Scop ctx) str
        (isl_set_identity (scheduleRange (ex2Scop ctx)))).1.HasDims 3 3
      ∧ ∀ x y, (applyUnitTransform ex2Parse (ex2Scop ctx) str
          (isl_set_identity (scheduleRange (ex2Scop ctx)))).1.Rel x y
          ↔ (x = [0, 0, 0] ∧ y = [0, 0, 0]) ∨ (x = [1, 0, 0] ∧ y = [0, 0, 1]) := by
  obtain ⟨map, h1, h2, h3⟩ := ex2_realign_map ctx l2
  unfold applyUnitTransform
  rw [hp]
  simp only [unitMap, h1, isl_map_align_params, isl_map_coalesce]
  refine ⟨trivial, hasDims_apply_range (hasDims_identity (ex2Scop_range_dim ctx)) h2, ?_⟩
  intro x y
  rw [rel_apply_range]
  constructor
  · rintro ⟨z, hz, hm⟩
    rw [rel_identity] at hz
    rw [hz.2] at hm
    exact (h3 x y).1 hm
  · intro h
    refine ⟨x, ?_, (h3 x y).2 h⟩
    rw [rel_identity, ex2Scop_range_mem]
    rcases h with ⟨rfl, _⟩ | ⟨rfl, _⟩
    · exact ⟨Or.inl rfl, rfl⟩
    · exact ⟨Or.inr rfl, rfl⟩

/-! ## The label metadata after the case typeISplit -/

/-- The metadata that the case typeISplit leaves. -/
theorem caseISplit_metadata {S S' : Scop} {is : isplitNodeType} {T map : isl_map} {pd : isl_set}
    (h : caseISplit S is T pd = some (map, S')) :
    S'.LoopDomainMap
        = Function.update (Function.update S.LoopDomainMap is.r1.name (isplitDomain1 S is T pd))
            is.r2.name (isplitDomain2 S is T pd)
      ∧ S'.LoopDimMap
        = Function.update (Function.update S.LoopDimMap is.r1.name (S.LoopDimMap is.l.name))
            is.r2.name
            (Function.update S.LoopDimMap is.r1.name (S.LoopDimMap is.l.name) is.l.name) := by
  unfold caseISplit at h
  dsimp only at h
  split at h
  · exact absurd h (by simp)
  · simp only [Option.some.injEq, Prod.mk.injEq] at h
    rw [← h.2]
    exact ⟨rfl, rfl⟩

/-- The case typeISplit returns early exactly when the label has no metadata. -/
theorem caseISplit_isSome (S : Scop) (is : isplitNodeType) (T : isl_map) (pd : isl_set) :
    (caseISplit S is T pd).isSome = (S.LoopDomainMap is.l.name).isSome := by
  unfold caseISplit
  dsimp only
  cases S.LoopDomainMap is.l.name <;> simp

/-- The region after an index split directive. -/
theorem applyUnitTransform_isplit {yyparse : String → Option nodeType} {S : Scop} {str : String}
    {T : isl_map} {is : isplitNodeType} (hp : yyparse str = some (nodeType.typeISplit is))
    (hl : (S.LoopDomainMap is.l.name).isSome = true) :
    (applyUnitTransform yyparse S str T).2.LoopDomainMap
      = Function.update (Function.update S.LoopDomainMap is.r1.name
          (isplitDomain1 S is T (isl_set_apply (scheduleRange S) T)))
          is.r2.name (isplitDomain2 S is T (isl_set_apply (scheduleRange S) T)) := by
  have hs := caseISplit_isSome S is T (isl_set_apply (scheduleRange S) T)
  rw [hl] at hs
  obtain ⟨r, hr⟩ := Option.isSome_iff_exists.1 hs
  obtain ⟨map, S'⟩ := r
  have hm := caseISplit_metadata hr
  unfold applyUnitTransform
  rw [hp]
  simp only [unitMap, hr]
  exact hm.1

theorem isplitDomain1_mem (S : Scop) (is : isplitNodeType) (T : isl_map) (pd : isl_set)
    (x : Point) :
    (isplitDomain1 S is T pd).Mem x
      ↔ (S.LoopDomainMap is.l.name).Mem x ∧ (isplitInvPred S is T pd).Mem x := by
  unfold isplitDomain1 isl_set_coalesce
  rw [mem_intersect]

theorem isplitDomain2_mem_imp (S : Scop) (is : isplitNodeType) (T : isl_map) (pd : isl_set)
    (x : Point) (h : (isplitDomain2 S is T pd).Mem x) :
    pd.Mem x ∧ (S.LoopDomainMap is.l.name).Mem x ∧ ¬ (isplitInvPred S is T pd).Mem x := by
  unfold isplitDomain2 isl_set_coalesce at h
  rw [mem_intersect, mem_intersect] at h
  exact ⟨h.1, h.2.1, mem_complement_imp _ _ h.2.2⟩

/-- Shapes and members of the sets of the case typeISplit, when the spaces fit. -/
theorem isplit_parts (S : Scop) (is : isplitNodeType) (T : isl_map) (pd : isl_set)
    {k w a : Nat} (hT : T.HasDims k w) (hD : (S.LoopDomainMap is.l.name).HasDim k)
    (hpd : pd.HasDim w) (hP : is.pred.HasDim a) (hemb : ∀ i < a, u32 (2 * i + 1) < w) :
    (isplitPred S is T pd).HasDim w
      ∧ (∀ y, (isplitPred S is T pd).Mem y
          ↔ (∃ p, is.pred.Mem p ∧ y.length = w
              ∧ ∀ i < a, coord y (u32 (2 * i + 1)) = coord p i)
            ∧ (isl_set_apply (S.LoopDomainMap is.l.name) T).Mem y)
      ∧ (isplitInvPred S is T pd).HasDim k
      ∧ (isplitDomain1 S is T pd).HasDim k
      ∧ (w = k → (isplitDomain2 S is T pd).HasDim k
          ∧ ∀ x, (isplitDomain2 S is T pd).Mem x
              ↔ pd.Mem x ∧ (S.LoopDomainMap is.l.name).Mem x
                ∧ ¬ (isplitInvPred S is T pd).Mem x) := by
  have hemb' := iterToScheduleMap_rel S a w hemb
  have hda : isl_set_dim is.pred isl_dim_set = a := isl_set_dim_of_hasDim hP
  have hdw : isl_set_dim pd isl_dim_set = w := isl_set_dim_of_hasDim hpd
  have hpl := hasDim_apply hD hT
  have hpe := hasDim_apply hP hemb'.1
  have hpred : (isplitPred S is T pd).HasDim w := by
    unfold isplitPred
    rw [hda, hdw]
    exact hasDim_intersect hpe hpl
  have hinv : (isplitInvPred S is T pd).HasDim k := hasDim_apply hpred (hasDims_reverse hT)
  refine ⟨hpred, ?_, hinv, hasDim_intersect hD hinv, ?_⟩
  · intro y
    unfold isplitPred
    rw [hda, hdw, mem_intersect, mem_apply]
    constructor
    · rintro ⟨⟨p, hp, hr⟩, hy⟩
      obtain ⟨_, h2, h3⟩ := (hemb'.2 p y).1 hr
      exact ⟨⟨p, hp, h2, h3⟩, hy⟩
    · rintro ⟨⟨p, hp, h2, h3⟩, hy⟩
      exact ⟨⟨p, hp, (hemb'.2 p y).2 ⟨hP.mem_length hp, h2, h3⟩⟩, hy⟩
  · intro hwk
    subst hwk
    refine ⟨hasDim_intersect hpd (hasDim_intersect hD (hasDim_complement hinv)), ?_⟩
    intro x
    unfold isplitDomain2 isl_set_coalesce
    rw [mem_intersect, mem_intersect, mem_complement hinv]
    constructor
    · rintro ⟨h1, h2, _, h3⟩
      exact ⟨h1, h2, h3⟩
    · rintro ⟨h1, h2, h3⟩
      exact ⟨h1, h2, hpd.mem_length h1, h3⟩

/-- C8: index split, disjointness.  An index split of a label l with recorded
domain D records the set isplitDomain2 for r2 and, r1 being another label than
r2, the set isplitDomain1 for r1 (with r1 = r2 the second assignment replaces
the first).  No point lies in both sets, and every point of either set lies in
D.  Both sets are recorded (not NULL) when the spaces fit: transform, schedule
range and D over one space of k dimensions that has the loop slots of the
predicate. -/
theorem C8_isplit_disjoint (yyparse : String → Option nodeType) (S : Scop) (str : String)
    (T : isl_map) (is : isplitNodeType) (D : SetVal)
    (hp : yyparse str = some (nodeType.typeISplit is))
    (hl : S.LoopDomainMap is.l.name = some D) :
    (applyUnitTransform yyparse S str T).2.LoopDomainMap is.r2.name
        = isplitDomain2 S is T (isl_set_apply (scheduleRange S) T)
      ∧ (is.r1.name ≠ is.r2.name →
          (applyUnitTransform yyparse S str T).2.LoopDomainMap is.r1.name
            = isplitDomain1 S is T (isl_set_apply (scheduleRange S) T))
      ∧ (∀ x, ¬ ((isplitDomain1 S is T (isl_set_apply (scheduleRange S) T)).Mem x
          ∧ (isplitDomain2 S is T (isl_set_apply (scheduleRange S) T)).Mem x))
      ∧ (∀ x, (isplitDomain1 S is T (isl_set_apply (scheduleRange S) T)).Mem x → D.Mem x)
      ∧ (∀ x, (isplitDomain2 S is T (isl_set_apply (scheduleRange S) T)).Mem x → D.Mem x)
      ∧ ∀ k a, T.HasDims k k → D.dim = k → (scheduleRange S).HasDim k → is.pred.HasDim a →
          (∀ i < a, u32 (2 * i + 1) < k) →
          (isplitDomain1 S is T (isl_set_apply (scheduleRange S) T)).HasDim k
          ∧ (isplitDomain2 S is T (isl_set_apply (scheduleRange S) T)).HasDim k := by
  have hsome : (S.LoopDomainMap is.l.name).isSome = true := by rw [hl]; rfl
  rw [applyUnitTransform_isplit hp hsome]
  refine ⟨?_, ?_, ?_, ?_, ?_, ?_⟩
  · simp only [Function.update_same]
  · intro hne
    simp only [Function.update_noteq hne, Function.update_same]
  · rintro x ⟨h1, h2⟩
    exact (isplitDomain2_mem_imp S is T _ x h2).2.2 ((isplitDomain1_mem S is T _ x).1 h1).2
  · intro x h1
    have := ((isplitDomain1_mem S is T _ x).1 h1).1
    rw [hl] at this
    exact this
  · intro x h2
    have := (isplitDomain2_mem_imp S is T _ x h2).2.1
    rw [hl] at this
    exact this
  · intro k a hT hD hR hP hemb
    have hparts := isplit_parts S is T (isl_set_apply (scheduleRange S) T) hT
      (by rw [hl]; exact ⟨D, rfl, hD⟩) (hasDim_apply hR hT) hP hemb
    exact ⟨hparts.2.2.2.1, (hparts.2.2.2.2 rfl).1⟩

/-! ## Directives on labels without metadata -/

/-- A directive whose first label has no metadata is skipped: the transform and
the region come back unchanged. -/
theorem missing_first_label (yyparse : String → Option nodeType) (S : Scop) (str : String)
    (T : isl_map) (stmt : nodeType) (hp : yyparse str = some stmt)
    (hmiss : match stmt with
      | nodeType.typeRealign m => S.LoopDomainMap m.l1.name = none
      | nodeType.typeISplit is => S.LoopDomainMap is.l.name = none
      | nodeType.typeAffine a => S.LoopDomainMap a.l.name = none
      | nodeType.typeLift l => S.LoopDomainMap l.l.name = none) :
    applyUnitTransform yyparse S str T = (T, S) := by
  unfold applyUnitTransform
  rw [hp]
  cases stmt with
  | typeRealign m =>
    simp only at hmiss
    simp [unitMap, caseRealign, hmiss]
  | typeISplit is =>
    simp only at hmiss
    simp [unitMap, caseISplit, hmiss]
  | typeAffine a =>
    simp only at hmiss
    simp [unitMap, caseAffine, hmiss]
  | typeLift l =>
    simp only at hmiss
    simp [unitMap, caseLift, hmiss]

/-- C6, the failing input: on the second example region the directive
realign(L1, LX, 1), whose label LX has no metadata, is not skipped.  The
transform that comes back relates [1, 0, 0] to [0, 0, 1], which the ambient
identity transform does not, so it is not the ambient transform. -/
theorem C6_realign_unknown_second_label (ctx : isl_ctx) :
    ((ex2Scop ctx).LoopDomainMap "L1").isSome = true
      ∧ (ex2Scop ctx).LoopDomainMap "LX" = none
      ∧ ex2Parse "realign(L1, LX, 1)" = some (nodeType.typeRealign ⟨⟨"L1"⟩, ⟨"LX"⟩, 1⟩)
      ∧ (applyUnitTransform ex2Parse (ex2Scop ctx) "realign(L1, LX, 1)"
          (isl_set_identity (scheduleRange (ex2Scop ctx)))).1.Rel [1, 0, 0] [0, 0, 1]
      ∧ ¬ (isl_set_identity (scheduleRange (ex2Scop ctx))).Rel [1, 0, 0] [0, 0, 1]
      ∧ (applyUnitTransform ex2Parse (ex2Scop ctx) "realign(L1, LX, 1)"
          (isl_set_identity (scheduleRange (ex2Scop ctx)))).1
        ≠ isl_set_identity (scheduleRange (ex2Scop ctx)) := by
  have h := ex2_realign_transform ctx "realign(L1, LX, 1)" "LX" rfl
  have h1 : (applyUnitTransform ex2Parse (ex2Scop ctx) "realign(L1, LX, 1)"
      (isl_set_identity (scheduleRange (ex2Scop ctx)))).1.Rel [1, 0, 0] [0, 0, 1] :=
    (h.2.2 _ _).2 (Or.inr ⟨rfl, rfl⟩)
  have h2 : ¬ (isl_set_identity (scheduleRange (ex2Scop ctx))).Rel [1, 0, 0] [0, 0, 1] := by
    rw [rel_identity]
    rintro ⟨_, h3⟩
    exact absurd h3 (by decide)
  refine ⟨rfl, rfl, rfl, h1, h2, ?_⟩
  intro heq
  rw [heq] at h1
  exact h2 h1

/-! ## Index split after a realign: an instance is lost -/

/-- The transform and the region after the line realign(L1, L2, 1) and the
line isplit(L2, A, B, j >= 1, 1) on the second example region. -/
theorem ex2_script_eq (ctx : isl_ctx) :
    getTransform ex2Parse (some ["realign(L1, L2, 1)", "isplit(L2, A, B, j >= 1, 1)"])
        (ex2Scop ctx)
      = applyUnitTransform ex2Parse (ex2Scop ctx) "isplit(L2, A, B, j >= 1, 1)"
          (applyUnitTransform ex2Parse (ex2Scop ctx) "realign(L1, L2, 1)"
            (isl_set_identity (scheduleRange (ex2Scop ctx)))).1 := by
  have h := ex2_realign_transform ctx "realign(L1, L2, 1)" "L2" rfl
  have hc1 : isComment "realign(L1, L2, 1)" = false := by decide
  have hc2 : isComment "isplit(L2, A, B, j >= 1, 1)" = false := by decide
  simp only [getTransform, isl_map_align_params, List.foldl_cons, List.foldl_nil, hc1, hc2,
    Bool.not_false, if_true, h.1]

/-- C7, the failing input: on the second example region the script with the
lines realign(L1, L2, 1) and isplit(L2, A, B, j >= 1, 1) records for A and for B
domains that both miss the instance [1, 0, 0] of L2: the union of the two
recorded domains is not the recorded domain of L2. -/
theorem C7_isplit_loses_instance (ctx : isl_ctx) :
    ((ex2Scop ctx).LoopDomainMap "L2").Mem [1, 0, 0]
      ∧ ¬ ((getTransform ex2Parse
            (some ["realign(L1, L2, 1)", "isplit(L2, A, B, j >= 1, 1)"])
            (ex2Scop ctx)).2.LoopDomainMap "A").Mem [1, 0, 0]
      ∧ ¬ ((getTransform ex2Parse
            (some ["realign(L1, L2, 1)", "isplit(L2, A, B, j >= 1, 1)"])
            (ex2Scop ctx)).2.LoopDomainMap "B").Mem [1, 0, 0] := by
  have hT := ex2_realign_transform ctx "realign(L1, L2, 1)" "L2" rfl
  have hL : ((ex2Scop ctx).LoopDomainMap "L2").Mem [1, 0, 0] := ⟨rfl, rfl⟩
  have hne : ("A" : String) ≠ "B" := by decide
  have hisp := @applyUnitTransform_isplit ex2Parse (ex2Scop ctx) "isplit(L2, A, B, j >= 1, 1)"
    (applyUnitTransform ex2Parse (ex2Scop ctx) "realign(L1, L2, 1)"
      (isl_set_identity (scheduleRange (ex2Scop ctx)))).1
    ⟨⟨"L2"⟩, ⟨"A"⟩, ⟨"B"⟩, some ⟨1, fun p => 1 ≤ coord p 0⟩, 1⟩ rfl rfl
  rw [ex2_script_eq, hisp]
  simp only [Function.update_same, Function.update_noteq hne]
  refine ⟨hL, ?_, ?_⟩
  · intro h
    have h1 := ((isplitDomain1_mem _ _ _ _ _).1 h).2
    unfold isplitInvPred at h1
    rw [mem_apply] at h1
    obtain ⟨y, hy, hr⟩ := h1
    rw [rel_reverse, hT.2.2] at hr
    have hy2 : y = [0, 0, 1] := by
      rcases hr with ⟨h3, _⟩ | ⟨_, h4⟩
      · exact absurd h3 (by decide)
      · exact h4
    subst hy2
    have hparts := isplit_parts (ex2Scop ctx)
      ⟨⟨"L2"⟩, ⟨"A"⟩, ⟨"B"⟩, some ⟨1, fun p => 1 ≤ coord p 0⟩, 1⟩ _
      (isl_set_apply (scheduleRange (ex2Scop ctx))
        (applyUnitTransform ex2Parse (ex2Scop ctx) "realign(L1, L2, 1)"
          (isl_set_identity (scheduleRange (ex2Scop ctx)))).1)
      hT.2.1 ⟨_, rfl, rfl⟩ (hasDim_apply (ex2Scop_range_dim ctx) hT.2.1) ⟨_, rfl, rfl⟩
      (by
        intro i hi
        have hi0 : i = 0 := Nat.lt_one_iff.1 hi
        subst hi0
        decide)
    obtain ⟨⟨p, hp, _, hc⟩, _⟩ := (hparts.2.1 _).1 hy
    have h0 := hc 0 (by decide)
    have hp2 : 1 ≤ coord p 0 := hp.2
    rw [← h0] at hp2
    exact absurd hp2 (by decide)
  · intro h
    have h1 := (isplitDomain2_mem_imp _ _ _ _ _ h).1
    rw [mem_apply] at h1
    obtain ⟨z, _, hr⟩ := h1
    rw [hT.2.2] at hr
    rcases hr with ⟨_, h3⟩ | ⟨_, h4⟩
    · exact absurd h3 (by decide)
    · exact absurd h4 (by decide)

/-! ## The case typeAffine -/

/-- The case typeAffine in terms of its named parts. -/
theorem caseAffine_eq (S : Scop) (a : affineNodeType) (T : isl_map) (pd : isl_set) :
    caseAffine S a T pd =
      if (S.LoopDomainMap a.l.name).isNone then none
      else
        some (isl_map_union
          (isl_map_intersect_domain
            (isl_map_intersect_domain (affineMap S a pd)
              (isl_set_apply (S.LoopDomainMap a.l.name) T)) pd)
          (affineRest S a T pd),
          { S with LoopDimMap := Function.update S.LoopDimMap a.l.name (affineNewDim S a) }) :=
  rfl

/-- The region after an affine directive on a label with metadata. -/
theorem applyUnitTransform_affine {yyparse : String → Option nodeType} {S : Scop} {str : String}
    {T : isl_map} {a : affineNodeType} (hp : yyparse str = some (nodeType.typeAffine a))
    (hl : (S.LoopDomainMap a.l.name).isSome = true) :
    (applyUnitTransform yyparse S str T).2
      = { S with LoopDimMap := Function.update S.LoopDimMap a.l.name (affineNewDim S a) } := by
  have hn : (S.LoopDomainMap a.l.name).isNone = false := by
    cases hL : S.LoopDomainMap a.l.name with
    | none => rw [hL] at hl; exact absurd hl (by simp)
    | some v => rfl
  unfold applyUnitTransform
  rw [hp]
  simp only [unitMap, caseAffine_eq, hn, Bool.false_eq_true, if_false]

theorem u32sub_of_le {a b : Nat} (hab : a ≤ b) (hb : b < 4294967296) : u32sub b a = b - a := by
  unfold u32sub u32
  rw [Nat.mod_eq_of_lt hb, Nat.mod_eq_of_lt (Nat.lt_of_le_of_lt hab hb)]
  omega

/-- C9: affine remap, depth.  For a label with metadata and recorded depth d
and a relation of input arity a and output arity b with a < b, where b is a
value of the type unsigned and neither (b - a) * 2 nor d + (b - a) wraps around,
the depth recorded after the directive is d + (b - a), greater than d. -/
theorem C9_affine_depth (yyparse : String → Option nodeType) (S : Scop) (str : String)
    (T : isl_map) (af : affineNodeType) (a b d : Nat)
    (hp : yyparse str = some (nodeType.typeAffine af))
    (hl : (S.LoopDomainMap af.l.name).isSome = true)
    (ha : isl_map_dim af.trans isl_dim_in = a) (hb : isl_map_dim af.trans isl_dim_out = b)
    (hd : S.LoopDimMap af.l.name = d) (hab : a < b) (hb32 : b < 4294967296)
    (hoff : (b - a) * 2 < 4294967296) (hsum : d + (b - a) < 4294967296) :
    (applyUnitTransform yyparse S str T).2.LoopDimMap af.l.name = d + (b - a)
      ∧ d < (applyUnitTransform yyparse S str T).2.LoopDimMap af.l.name := by
  rw [applyUnitTransform_affine hp hl]
  simp only [Function.update_same]
  have hoff' : affineOffset af = (b - a) * 2 := by
    unfold affineOffset
    rw [ha, hb, u32sub_of_le (Nat.le_of_lt hab) hb32]
    exact Nat.mod_eq_of_lt hoff
  have hnew : affineNewDim S af = d + (b - a) := by
    unfold affineNewDim
    rw [hoff', hd, Nat.mul_div_cancel _ (by decide : 0 < 2)]
    exact Nat.mod_eq_of_lt hsum
  rw [hnew]
  exact ⟨rfl, by omega⟩

/-- Witness of C9: affine(L1, [i] -> [i, 0]) on the second example region takes
the depth of L1 from 1 to 2. -/
theorem C9_affine_depth_witness :
    (ex2Parse "affine(L1, [i] -> [i, 0])"
          = some (nodeType.typeAffine ⟨⟨"L1"⟩, some ⟨1, 2, fun x y => y = [coord x 0, 0]⟩⟩)
        ∧ (1 : Nat) < 2 ∧ (2 : Nat) < 4294967296 ∧ (2 - 1) * 2 < 4294967296
        ∧ 1 + (2 - 1) < 4294967296)
      ∧ (applyUnitTransform ex2Parse (ex2Scop ⟨fun p => Classical.propDecidable p⟩)
          "affine(L1, [i] -> [i, 0])"
          (isl_set_identity (scheduleRange (ex2Scop ⟨fun p => Classical.propDecidable p⟩)))
        ).2.LoopDimMap "L1" = 1 + (2 - 1) :=
  ⟨⟨rfl, by decide, by decide, by decide, by decide⟩,
    (C9_affine_depth ex2Parse (ex2Scop ⟨fun p => Classical.propDecidable p⟩)
      "affine(L1, [i] -> [i, 0])"
      (isl_set_identity (scheduleRange (ex2Scop ⟨fun p => Classical.propDecidable p⟩)))
      ⟨⟨"L1"⟩, some ⟨1, 2, fun x y => y = [coord x 0, 0]⟩⟩ 1 2 1 rfl rfl rfl rfl rfl
      (by decide) (by decide) (by decide) (by decide)).1⟩

theorem intersect_domain_some {m : isl_map} {s : isl_set} {r : MapVal}
    (h : isl_map_intersect_domain m s = some r) :
    m.HasDims r.nIn r.nOut ∧ s.HasDim r.nIn := by
  cases m with
  | none => simp [isl_map_intersect_domain] at h
  | some m =>
    cases s with
    | none => simp [isl_map_intersect_domain] at h
    | some s =>
      simp only [isl_map_intersect_domain] at h
      by_cases hd : m.nIn = s.dim
      · rw [if_pos hd, Option.some.injEq] at h
        subst h
        exact ⟨⟨_, rfl, rfl, rfl⟩, ⟨_, rfl, hd.symm⟩⟩
      · simp [hd] at h

theorem affineOutDim_ge (S : Scop) (a : affineNodeType) (pd : isl_set) :
    isl_set_dim pd isl_dim_set ≤ affineOutDim S a pd := by
  unfold affineOutDim
  split
  · rename_i h
    exact Nat.le_of_lt h
  · exact Nat.le_refl _

theorem mem_fromTo (a b i : Nat) : i ∈ fromTo a b ↔ a ≤ i ∧ i < b := by
  unfold fromTo
  rw [List.mem_range'_1]
  omega

/-- What the map cmap of the case typeAffine relates. -/
theorem affineRest_rel (S : Scop) (a : affineNodeType) (T : isl_map) (pd : isl_set) {k : Nat}
    (hpl : (isl_set_apply (S.LoopDomainMap a.l.name) T).HasDim k) (hpd : pd.HasDim k) :
    (affineRest S a T pd).HasDims k (affineOutDim S a pd)
      ∧ ∀ x y, (affineRest S a T pd).Rel x y
          ↔ pd.Mem x ∧ ¬ (isl_set_apply (S.LoopDomainMap a.l.name) T).Mem x
            ∧ y.length = affineOutDim S a pd
            ∧ (∀ i < k, coord y i = coord x i)
            ∧ ∀ i, k ≤ i → i < affineOutDim S a pd → coord y i = 0 := by
  have hk : isl_set_dim pd isl_dim_set = k := isl_set_dim_of_hasDim hpd
  have hge := affineOutDim_ge S a pd
  rw [hk] at hge
  have hbase := hasDims_from_domain_and_range (hasDim_complement hpl)
    (hasDim_universe (affineOutDim S a pd))
  have heq := foldl_refine
    (fun cmap i => isl_map_equate cmap isl_dim_out i isl_dim_in i)
    (fun i x y => coord y i = coord x i) k (affineOutDim S a pd) (List.range k)
    (fun m i hi hm => rel_equate hm (Nat.lt_of_lt_of_le (List.mem_range.1 hi) hge)
      (List.mem_range.1 hi))
    _ hbase
  have hfix := foldl_refine
    (fun cmap i => isl_map_fix_si cmap isl_dim_out i 0)
    (fun i _ y => coord y i = 0) k (affineOutDim S a pd) (fromTo k (affineOutDim S a pd))
    (fun m i hi hm => rel_fix hm ((mem_fromTo _ _ _).1 hi).2 0)
    _ heq.1
  unfold affineRest
  simp only [hk]
  refine ⟨hasDims_intersect_domain hfix.1 hpd, ?_⟩
  intro x y
  rw [rel_intersect_domain, hfix.2 x y, heq.2 x y, rel_from_domain_and_range,
    mem_complement hpl, mem_universe]
  simp only [List.mem_range, mem_fromTo]
  constructor
  · rintro ⟨⟨⟨⟨⟨_, h1⟩, h2⟩, h3⟩, h4⟩, h5⟩
    exact ⟨h5, h1, h2, h3, fun i hi1 hi2 => h4 i ⟨hi1, hi2⟩⟩
  · rintro ⟨h5, h1, h2, h3, h4⟩
    exact ⟨⟨⟨⟨⟨hpd.mem_length h5, h1⟩, h2⟩, h3⟩, fun i hi => h4 i hi.1 hi.2⟩, h5⟩

theorem coord_append_left {x z : Point} {i : Nat} (h : i < x.length) :
    coord (x ++ z) i = coord x i := by
  unfold coord
  rw [List.getD_eq_getElem?_getD, List.getD_eq_getElem?_getD, List.getElem?_append_left h]

theorem coord_append_zeros {x : Point} {n i : Nat} (h : x.length ≤ i) :
    coord (x ++ List.replicate n 0) i = 0 := by
  unfold coord
  rw [List.getD_eq_getElem?_getD, List.getElem?_append_right h]
  by_cases hi : i - x.length < n
  · rw [List.getElem?_replicate_of_lt hi]
    rfl
  · rw [List.getElem?_eq_none (by simpa using hi)]
    rfl

/-- C10: affine remap leaves the other statements value-identical.  When the
case typeAffine builds a unit map (not NULL), the new width is at least the old
one, and every point x of the domain after the transform that lies outside the
loop of the label after the transform is related to exactly one point y: y has
the new width, agrees with x below the old width and is 0 on every new
coordinate. -/
theorem C10_affine_frame (S : Scop) (af : affineNodeType) (T : isl_map) (pd : isl_set)
    (hmap : (elementaryMap S (nodeType.typeAffine af) T pd).isSome = true) :
    isl_set_dim pd isl_dim_set
        ≤ isl_map_dim (elementaryMap S (nodeType.typeAffine af) T pd) isl_dim_out
      ∧ ∀ x, pd.Mem x → ¬ (isl_set_apply (S.LoopDomainMap af.l.name) T).Mem x →
          ∃ y, (elementaryMap S (nodeType.typeAffine af) T pd).Rel x y
            ∧ y.length = isl_map_dim (elementaryMap S (nodeType.typeAffine af) T pd) isl_dim_out
            ∧ (∀ i, i < isl_set_dim pd isl_dim_set → coord y i = coord x i)
            ∧ (∀ i, isl_set_dim pd isl_dim_set ≤ i →
                i < isl_map_dim (elementaryMap S (nodeType.typeAffine af) T pd) isl_dim_out →
                coord y i = 0)
            ∧ ∀ y', (elementaryMap S (nodeType.typeAffine af) T pd).Rel x y' → y' = y := by
  obtain ⟨m, hm⟩ := Option.isSome_iff_exists.1 hmap
  have hdef : elementaryMap S (nodeType.typeAffine af) T pd
      = if (S.LoopDomainMap af.l.name).isNone then none
        else isl_map_union
          (isl_map_intersect_domain
            (isl_map_intersect_domain (affineMap S af pd)
              (isl_set_apply (S.LoopDomainMap af.l.name) T)) pd)
          (affineRest S af T pd) := by
    unfold elementaryMap
    simp only [unitMap, caseAffine_eq]
    by_cases hn : (S.LoopDomainMap af.l.name).isNone = true
    · simp only [hn, if_true]
    · simp only [hn, Bool.false_eq_true, if_false]
  rw [hdef] at hm
  by_cases hnone : (S.LoopDomainMap af.l.name).isNone = true
  · rw [if_pos hnone] at hm
    exact absurd hm (by simp)
  · rw [if_neg hnone] at hm
    obtain ⟨hA, hC⟩ := hasDims_of_union hm
    obtain ⟨vA, hvA, hA1, hA2⟩ := hA
    obtain ⟨hA3, hpd⟩ := intersect_domain_some hvA
    obtain ⟨vB, hvB, hB1, hB2⟩ := hA3
    obtain ⟨_, hpl⟩ := intersect_domain_some hvB
    rw [hB1, hA1] at hpl
    rw [hA1] at hpd
    have hrest := affineRest_rel S af T pd hpl hpd
    have hnOut : m.nOut = affineOutDim S af pd := by
      obtain ⟨vC, hvC, _, hC2⟩ := hC
      obtain ⟨vC', hvC', _, hC2'⟩ := hrest.1
      rw [hvC, Option.some.injEq] at hvC'
      rw [← hC2, hvC', hC2']
    have hk : isl_set_dim pd isl_dim_set = m.nIn := isl_set_dim_of_hasDim hpd
    have hge := affineOutDim_ge S af pd
    have hEl : elementaryMap S (nodeType.typeAffine af) T pd = some m := by
      rw [hdef, if_neg hnone]
      exact hm
    have hrel : ∀ x y, isl_map.Rel (some m) x y
        ↔ (isl_map_intersect_domain
            (isl_map_intersect_domain (affineMap S af pd)
              (isl_set_apply (S.LoopDomainMap af.l.name) T)) pd).Rel x y
          ∨ (affineRest S af T pd).Rel x y := by
      intro x y
      rw [← hm]
      exact rel_union ⟨vA, hvA, hA1, hA2⟩ hC x y
    rw [hEl]
    simp only [isl_map_dim, hnOut, hk] at hge ⊢
    refine ⟨hge, ?_⟩
    intro x hx hnot
    have hxl : x.length = m.nIn := hpd.mem_length hx
    refine ⟨x ++ List.replicate (affineOutDim S af pd - m.nIn) 0, ?_, ?_, ?_, ?_, ?_⟩
    · rw [hrel]
      right
      rw [hrest.2]
      refine ⟨hx, hnot, ?_, ?_, ?_⟩
      · rw [List.length_append, List.length_replicate, hxl]
        omega
      · intro i hi
        exact coord_append_left (by rw [hxl]; exact hi)
      · intro i hi _
        exact coord_append_zeros (by rw [hxl]; exact hi)
    · rw [List.length_append, List.length_replicate, hxl]
      omega
    · intro i hi
      exact coord_append_left (by rw [hxl]; exact hi)
    · intro i hi _
      exact coord_append_zeros (by rw [hxl]; exact hi)
    · intro y' hy'
      rw [hrel] at hy'
      rcases hy' with h1 | h2
      · rw [rel_intersect_domain, rel_intersect_domain] at h1
        exact absurd h1.1.2 hnot
      · rw [hrest.2] at h2
        obtain ⟨_, _, h3, h4, h5⟩ := h2
        apply point_ext
        · rw [h3, List.length_append, List.length_replicate, hxl]
          omega
        · intro i hi
          rw [h3] at hi
          by_cases hik : i < m.nIn
          · rw [h4 i hik, coord_append_left (by rw [hxl]; exact hik)]
          · rw [h5 i (by omega) hi, coord_append_zeros (by rw [hxl]; omega)]

/-- Witness of C10: affine(L1, [i] -> [i, 0]) on the second example region under
the identity transform.  The unit map has width 5, and the point [1, 0, 0] of
the loop L2 is related to [1, 0, 0, 0, 0]. -/
theorem C10_affine_frame_witness :
    ((elementaryMap (ex2Scop ⟨fun p => Classical.propDecidable p⟩) exAffine
          (isl_set_identity (scheduleRange (ex2Scop ⟨fun p => Classical.propDecidable p⟩)))
          (isl_set_apply (scheduleRange (ex2Scop ⟨fun p => Classical.propDecidable p⟩))
            (isl_set_identity (scheduleRange (ex2Scop ⟨fun p => Classical.propDecidable p⟩))))
        ).isSome = true)
      ∧ isl_map_dim (elementaryMap (ex2Scop ⟨fun p => Classical.propDecidable p⟩) exAffine
          (isl_set_identity (scheduleRange (ex2Scop ⟨fun p => Classical.propDecidable p⟩)))
          (isl_set_apply (scheduleRange (ex2Scop ⟨fun p => Classical.propDecidable p⟩))
            (isl_set_identity (scheduleRange (ex2Scop ⟨fun p => Classical.propDecidable p⟩)))))
          isl_dim_out = 5
      ∧ (elementaryMap (ex2Scop ⟨fun p => Classical.propDecidable p⟩) exAffine
          (isl_set_identity (scheduleRange (ex2Scop ⟨fun p => Classical.propDecidable p⟩)))
          (isl_set_apply (scheduleRange (ex2Scop ⟨fun p => Classical.propDecidable p⟩))
            (isl_set_identity (scheduleRange (ex2Scop ⟨fun p => Classical.propDecidable p⟩))))
        ).Rel [1, 0, 0] [1, 0, 0, 0, 0] := by
  refine ⟨rfl, rfl, ?_⟩
  have h := (C10_affine_frame (ex2Scop ⟨fun p => Classical.propDecidable p⟩)
    ⟨⟨"L1"⟩, some ⟨1, 2, fun x y => y = [coord x 0, 0]⟩⟩
    (isl_set_identity (scheduleRange (ex2Scop ⟨fun p => Classical.propDecidable p⟩)))
    (isl_set_apply (scheduleRange (ex2Scop ⟨fun p => Classical.propDecidable p⟩))
      (isl_set_identity (scheduleRange (ex2Scop ⟨fun p => Classical.propDecidable p⟩))))
    rfl).2 [1, 0, 0] ((ex2_postDomain_mem _ _).2 (Or.inr rfl))
    (by
      rw [ex2_postLoop1_mem]
      decide)
  obtain ⟨y, hy, hlen, hlow, hnew, _⟩ := h
  have hout : isl_map_dim (elementaryMap (ex2Scop ⟨fun p => Classical.propDecidable p⟩)
      (nodeType.typeAffine ⟨⟨"L1"⟩, some ⟨1, 2, fun x y => y = [coord x 0, 0]⟩⟩)
      (isl_set_identity (scheduleRange (ex2Scop ⟨fun p => Classical.propDecidable p⟩)))
      (isl_set_apply (scheduleRange (ex2Scop ⟨fun p => Classical.propDecidable p⟩))
        (isl_set_identity (scheduleRange (ex2Scop ⟨fun p => Classical.propDecidable p⟩)))))
      isl_dim_out = 5 := rfl
  have hin : isl_set_dim (isl_set_apply
      (scheduleRange (ex2Scop ⟨fun p => Classical.propDecidable p⟩))
      (isl_set_identity (scheduleRange (ex2Scop ⟨fun p => Classical.propDecidable p⟩))))
      isl_dim_set = 3 := rfl
  rw [hout] at hlen hnew
  rw [hin] at hlow hnew
  have hyv : y = [1, 0, 0, 0, 0] := by
    apply point_ext (by rw [hlen]; rfl)
    intro i hi
    rw [hlen] at hi
    by_cases h3 : i < 3
    · rw [hlow i h3]
      have : i = 0 ∨ i = 1 ∨ i = 2 := by omega
      rcases this with rfl | rfl | rfl <;> rfl
    · rw [hnew i (by omega) hi]
      have : i = 3 ∨ i = 4 := by omega
      rcases this with rfl | rfl <;> rfl
  rw [hyv] at hy
  exact hy

/-! ## The unit map of the case typeISplit -/

/-- The case typeISplit in terms of its named parts. -/
theorem caseISplit_eq (S : Scop) (is : isplitNodeType) (T : isl_map) (pd : isl_set) :
    (caseISplit S is T pd).map Prod.fst =
      if (S.LoopDomainMap is.l.name).isNone then none
      else
        some (isl_map_union
          (isl_set_identity
            (leftDomainOf S (isl_set_apply (S.LoopDomainMap is.l.name) T)
              (isplitPred S is T pd) pd))
          (isplitShift
            (rightDomainOf (leftDomainOf S (isl_set_apply (S.LoopDomainMap is.l.name) T)
              (isplitPred S is T pd) pd) pd) is.n pd)) := by
  unfold caseISplit
  dsimp only
  split <;> rfl

/-- What the map rightMap of the case typeISplit relates. -/
theorem isplitShift_rel {right pd : isl_set} {w : Nat} (hr : right.HasDim w) (hpd : pd.HasDim w)
    (n : Nat) (hn : u32 (n * 2) < w) (hw : w < 4294967296) :
    (isplitShift right n pd).HasDims w w
      ∧ ∀ x y, (isplitShift right n pd).Rel x y
          ↔ right.Mem x ∧ y.length = w
            ∧ coord y (u32 (n * 2)) = coord x (u32 (n * 2)) + 1
            ∧ ∀ i, i < w → i ≠ u32 (n * 2) → coord y i = coord x i := by
  have hbase := hasDims_from_domain_and_range hr (hasDim_universe w)
  have hsp : isl_set_get_space right = isl_space_set_alloc 0 w := get_space_of_hasDim hr
  have hc := rel_add_equality hbase hn hn (-1) 1 (-1)
  have h1 := foldl_refine
    (fun rightMap i => isl_map_equate rightMap isl_dim_out i isl_dim_in i)
    (fun i x y => coord y i = coord x i) w w (List.range (u32 (n * 2)))
    (fun m i hi hm => rel_equate hm (Nat.lt_trans (List.mem_range.1 hi) hn)
      (Nat.lt_trans (List.mem_range.1 hi) hn))
    _ hc.1
  have h2 := foldl_refine
    (fun rightMap i => isl_map_equate rightMap isl_dim_out i isl_dim_in i)
    (fun i x y => coord y i = coord x i) w w (fromTo (u32 (u32 (n * 2) + 1)) w)
    (fun m i hi hm => rel_equate hm ((mem_fromTo _ _ _).1 hi).2 ((mem_fromTo _ _ _).1 hi).2)
    _ h1.1
  have hs : u32 (u32 (n * 2) + 1) = u32 (n * 2) + 1 := Nat.mod_eq_of_lt (by omega)
  unfold isplitShift
  simp only [hsp, isl_set_dim_of_hasDim hpd]
  refine ⟨h2.1, ?_⟩
  intro x y
  rw [h2.2 x y, h1.2 x y, hc.2 x y, rel_from_domain_and_range, mem_universe]
  simp only [List.mem_range, mem_fromTo, hs]
  constructor
  · rintro ⟨⟨⟨⟨hx, hy⟩, he⟩, hlow⟩, hhigh⟩
    refine ⟨hx, hy, by omega, ?_⟩
    intro i hi hne
    by_cases hlt : i < u32 (n * 2)
    · exact hlow i hlt
    · exact hhigh i ⟨by omega, hi⟩
  · rintro ⟨hx, hy, he, hrest⟩
    refine ⟨⟨⟨⟨hx, hy⟩, by omega⟩, ?_⟩, ?_⟩
    · intro i hi
      exact hrest i (by omega) (by omega)
    · intro i hi
      exact hrest i hi.2 (by omega)

/-- The unit map of the case typeISplit: the identity on the left domain, and
on the right domain the step by one at position n * 2. -/
theorem caseISplit_map (S : Scop) (is : isplitNodeType) (T : isl_map) (pd : isl_set)
    {k w a : Nat} (hT : T.HasDims k w) (hD : (S.LoopDomainMap is.l.name).HasDim k)
    (hpd : pd.HasDim w) (hP : is.pred.HasDim a) (hemb : ∀ i < a, u32 (2 * i + 1) < w)
    (hn : u32 (is.n * 2) < w) (hw : w + 1 < 4294967296) :
    (elementaryMap S (nodeType.typeISplit is) T pd).HasDims w w
      ∧ ∀ x y, (elementaryMap S (nodeType.typeISplit is) T pd).Rel x y
          ↔ ((leftDomainOf S (isl_set_apply (S.LoopDomainMap is.l.name) T)
                (isplitPred S is T pd) pd).Mem x ∧ y = x)
            ∨ ((rightDomainOf (leftDomainOf S (isl_set_apply (S.LoopDomainMap is.l.name) T)
                (isplitPred S is T pd) pd) pd).Mem x
              ∧ y.length = w
              ∧ coord y (u32 (is.n * 2)) = coord x (u32 (is.n * 2)) + 1
              ∧ ∀ i, i < w → i ≠ u32 (is.n * 2) → coord y i = coord x i) := by
  have hparts := isplit_parts S is T pd hT hD hpd hP hemb
  have hpl := hasDim_apply hD hT
  have hleft := leftDomainOf_mem S hpl hparts.1 hpd hw
  have hright := rightDomainOf_mem hleft.1 hpd
  have hshift := isplitShift_rel hright.1 hpd is.n hn (by omega)
  have hid := hasDims_identity hleft.1
  have hsome : (S.LoopDomainMap is.l.name).isNone = false := by
    obtain ⟨v, hv, _⟩ := hD
    rw [hv]
    rfl
  have hdef : elementaryMap S (nodeType.typeISplit is) T pd
      = isl_map_union
          (isl_set_identity
            (leftDomainOf S (isl_set_apply (S.LoopDomainMap is.l.name) T)
              (isplitPred S is T pd) pd))
          (isplitShift
            (rightDomainOf (leftDomainOf S (isl_set_apply (S.LoopDomainMap is.l.name) T)
              (isplitPred S is T pd) pd) pd) is.n pd) := by
    have h := caseISplit_eq S is T pd
    rw [hsome] at h
    simp only [Bool.false_eq_true, if_false] at h
    unfold elementaryMap
    simp only [unitMap]
    cases hc : caseISplit S is T pd with
    | none => rw [hc] at h; simp at h
    | some r =>
      obtain ⟨map, S'⟩ := r
      rw [hc] at h
      simp only [Option.map_some', Option.some.injEq] at h
      exact h
  rw [hdef]
  refine ⟨hasDims_union hid hshift.1, ?_⟩
  intro x y
  rw [rel_union hid hshift.1, rel_identity, hshift.2 x y]

/-! ## The example region under an index split against its dependence -/

/-- The transform after a directive that is not skipped. -/
theorem applyUnitTransform_fst {yyparse : String → Option nodeType} {S : Scop} {str : String}
    {T : isl_map} {stmt : nodeType} (hp : yyparse str = some stmt)
    (hs : (unitMap S stmt T (isl_set_apply (scheduleRange S) T)).isSome = true) :
    (applyUnitTransform yyparse S str T).1
      = isl_map_apply_range T
          (elementaryMap S stmt T (isl_set_apply (scheduleRange S) T)) := by
  obtain ⟨r, hr⟩ := Option.isSome_iff_exists.1 hs
  obtain ⟨map, S'⟩ := r
  unfold applyUnitTransform elementaryMap
  rw [hp]
  simp only [hr, isl_map_align_params, isl_map_coalesce]

theorem exDeps_rel (ctx : isl_ctx) :
    (scheduleDeps exDeps (exScop ctx).getSchedule).Rel [0, 0, 0] [0, 1, 0] := by
  simp only [scheduleDeps, exDeps, exScop, exStmt, Scop.getSchedule, unionOfSchedules,
    isl_union_map_apply_domain, isl_union_map_apply_range, isl_union_map_coalesce,
    isl_map_from_union_map, List.map, List.filterMap, List.flatten, and_self, if_true,
    List.append_nil, List.all, decide_True, isl_map.Rel, MapVal.Rel, coord]
  refine ⟨rfl, rfl, _, List.mem_singleton.2 rfl, [1], ⟨rfl, rfl, [0], ?_, ?_⟩, ?_⟩ <;> simp

theorem ex_postDomain_mem (ctx : isl_ctx) (y : Point) :
    (isl_set_apply (scheduleRange (exScop ctx))
      (isl_set_identity (scheduleRange (exScop ctx)))).Mem y
      ↔ y = [0, 0, 0] ∨ y = [0, 1, 0] := by
  rw [mem_apply]
  constructor
  · rintro ⟨x, hx, hr⟩
    rw [rel_identity] at hr
    rw [hr.2]
    exact (exScop_range_mem ctx x).1 hx
  · intro h
    have hy := (exScop_range_mem ctx y).2 h
    exact ⟨y, hy, (rel_identity _ _ _).2 ⟨hy, rfl⟩⟩

theorem ex_postLoop_mem (ctx : isl_ctx) (y : Point) :
    (isl_set_apply ((exScop ctx).LoopDomainMap "L")
      (isl_set_identity (scheduleRange (exScop ctx)))).Mem y
      ↔ y = [0, 0, 0] ∨ y = [0, 1, 0] := by
  rw [mem_apply]
  constructor
  · rintro ⟨x, hx, hr⟩
    rw [rel_identity] at hr
    rw [hr.2]
    exact (exScop_range_mem ctx x).1 hr.1
  · intro h
    have hy := (exScop_range_mem ctx y).2 h
    exact ⟨y, ⟨(exScop_range_dim ctx).mem_length hy, h⟩, (rel_identity _ _ _).2 ⟨hy, rfl⟩⟩

/-- The transform of the script with the one line isplit(L, A, B, i = 1, 0) on
the example region: the instance [0, 1, 0] stays, the instance [0, 0, 0] moves
to [1, 0, 0], behind it. -/
theorem ex_split_transform (ctx : isl_ctx) :
    (getTransform exParse (some ["isplit(L, A, B, i = 1, 0)"]) (exScop ctx)).1.Rel
        [0, 1, 0] [0, 1, 0]
      ∧ (getTransform exParse (some ["isplit(L, A, B, i = 1, 0)"]) (exScop ctx)).1.Rel
        [0, 0, 0] [1, 0, 0] := by
  have hc : isComment "isplit(L, A, B, i = 1, 0)" = false := by decide
  have hT0 := hasDims_identity (exScop_range_dim ctx)
  have hfst := @applyUnitTransform_fst exParse (exScop ctx) "isplit(L, A, B, i = 1, 0)"
    (isl_set_identity (scheduleRange (exScop ctx))) exSplit rfl rfl
  have hmap := caseISplit_map (exScop ctx)
    ⟨⟨"L"⟩, ⟨"A"⟩, ⟨"B"⟩, some ⟨1, fun p => coord p 0 = 1⟩, 0⟩
    (isl_set_identity (scheduleRange (exScop ctx)))
    (isl_set_apply (scheduleRange (exScop ctx)) (isl_set_identity (scheduleRange (exScop ctx))))
    hT0 ⟨_, rfl, rfl⟩ (hasDim_apply (exScop_range_dim ctx) hT0) ⟨_, rfl, rfl⟩
    (by
      intro i hi
      have hi0 : i = 0 := Nat.lt_one_iff.1 hi
      subst hi0
      decide)
    (by decide) (by decide)
  have hparts := isplit_parts (exScop ctx)
    ⟨⟨"L"⟩, ⟨"A"⟩, ⟨"B"⟩, some ⟨1, fun p => coord p 0 = 1⟩, 0⟩
    (isl_set_identity (scheduleRange (exScop ctx)))
    (isl_set_apply (scheduleRange (exScop ctx)) (isl_set_identity (scheduleRange (exScop ctx))))
    hT0 ⟨_, rfl, rfl⟩ (hasDim_apply (exScop_range_dim ctx) hT0) ⟨_, rfl, rfl⟩
    (by
      intro i hi
      have hi0 : i = 0 := Nat.lt_one_iff.1 hi
      subst hi0
      decide)
  have hpl := hasDim_apply (⟨_, rfl, rfl⟩ : ((exScop ctx).LoopDomainMap "L").HasDim 3) hT0
  have hleft := leftDomainOf_mem (exScop ctx) hpl hparts.1
    (hasDim_apply (exScop_range_dim ctx) hT0) (by decide)
  have hright := rightDomainOf_mem hleft.1 (hasDim_apply (exScop_range_dim ctx) hT0)
  -- the predicate holds at [0, 1, 0] and not at [0, 0, 0]
  have hpred1 : (isplitPred (exScop ctx)
      ⟨⟨"L"⟩, ⟨"A"⟩, ⟨"B"⟩, some ⟨1, fun p => coord p 0 = 1⟩, 0⟩
      (isl_set_identity (scheduleRange (exScop ctx)))
      (isl_set_apply (scheduleRange (exScop ctx))
        (isl_set_identity (scheduleRange (exScop ctx))))).Mem [0, 1, 0] := by
    rw [hparts.2.1]
    refine ⟨⟨[1], ⟨rfl, rfl⟩, rfl, ?_⟩, (ex_postLoop_mem ctx _).2 (Or.inr rfl)⟩
    intro i hi
    have hi0 : i = 0 := Nat.lt_one_iff.1 hi
    subst hi0
    rfl
  have hpred0 : ¬ (isplitPred (exScop ctx)
      ⟨⟨"L"⟩, ⟨"A"⟩, ⟨"B"⟩, some ⟨1, fun p => coord p 0 = 1⟩, 0⟩
      (isl_set_identity (scheduleRange (exScop ctx)))
      (isl_set_apply (scheduleRange (exScop ctx))
        (isl_set_identity (scheduleRange (exScop ctx))))).Mem [0, 0, 0] := by
    rw [hparts.2.1]
    rintro ⟨⟨p, hp, _, hcoord⟩, _⟩
    have h0 := hcoord 0 (by decide)
    have hp1 : coord p 0 = 1 := hp.2
    rw [← h0] at hp1
    exact absurd hp1 (by decide)
  have hl1 : (leftDomainOf (exScop ctx)
      (isl_set_apply ((exScop ctx).LoopDomainMap "L")
        (isl_set_identity (scheduleRange (exScop ctx))))
      (isplitPred (exScop ctx)
        ⟨⟨"L"⟩, ⟨"A"⟩, ⟨"B"⟩, some ⟨1, fun p => coord p 0 = 1⟩, 0⟩
        (isl_set_identity (scheduleRange (exScop ctx)))
        (isl_set_apply (scheduleRange (exScop ctx))
          (isl_set_identity (scheduleRange (exScop ctx)))))
      (isl_set_apply (scheduleRange (exScop ctx))
        (isl_set_identity (scheduleRange (exScop ctx))))).Mem [0, 1, 0] :=
    (hleft.2 _).2 ⟨(ex_postDomain_mem ctx _).2 (Or.inr rfl), Or.inl hpred1⟩
  have hl0 : ¬ (leftDomainOf (exScop ctx)
      (isl_set_apply ((exScop ctx).LoopDomainMap "L")
        (isl_set_identity (scheduleRange (exScop ctx))))
      (isplitPred (exScop ctx)
        ⟨⟨"L"⟩, ⟨"A"⟩, ⟨"B"⟩, some ⟨1, fun p => coord p 0 = 1⟩, 0⟩
        (isl_set_identity (scheduleRange (exScop ctx)))
        (isl_set_apply (scheduleRange (exScop ctx))
          (isl_set_identity (scheduleRange (exScop ctx)))))
      (isl_set_apply (scheduleRange (exScop ctx))
        (isl_set_identity (scheduleRange (exScop ctx))))).Mem [0, 0, 0] := by
    rw [hleft.2]
    rintro ⟨_, (h | ⟨z, hz, i, hi, _, h3⟩)⟩
    · exact hpred0 h
    · rw [ex_postLoop_mem] at hz
      have hi' : i = 0 ∨ i = 1 := by omega
      rcases hz with rfl | rfl <;> rcases hi' with rfl | rfl <;> simp [coord] at h3
  have hgt : (getTransform exParse (some ["isplit(L, A, B, i = 1, 0)"]) (exScop ctx)).1
      = isl_map_apply_range (isl_set_identity (scheduleRange (exScop ctx)))
          (elementaryMap (exScop ctx) exSplit (isl_set_identity (scheduleRange (exScop ctx)))
            (isl_set_apply (scheduleRange (exScop ctx))
              (isl_set_identity (scheduleRange (exScop ctx))))) := by
    rw [← hfst]
    simp only [getTransform, isl_map_align_params, List.foldl_cons, List.foldl_nil, hc,
      Bool.not_false, if_true]
  rw [hgt, rel_apply_range, rel_apply_range]
  refine ⟨⟨[0, 1, 0], ?_, ?_⟩, ⟨[0, 0, 0], ?_, ?_⟩⟩
  · rw [rel_identity, exScop_range_mem]
    exact ⟨Or.inr rfl, rfl⟩
  · exact (hmap.2 _ _).2 (Or.inl ⟨hl1, rfl⟩)
  · rw [rel_identity, exScop_range_mem]
    exact ⟨Or.inl rfl, rfl⟩
  · refine (hmap.2 _ _).2 (Or.inr ⟨(hright.2 _).2 ⟨(ex_postDomain_mem ctx _).2 (Or.inl rfl), hl0⟩,
      rfl, rfl, ?_⟩)
    intro i hi hne
    have hne' : i ≠ 0 := hne
    have : i = 1 ∨ i = 2 := by omega
    rcases this with rfl | rfl <;> rfl

/-- Witness of C1: the example region with the dependence from instance 0 to
instance 1 and the script of the one line isplit(L, A, B, i = 1, 0), which moves
instance 0 behind instance 1: the transformed dependence goes from [1, 0, 0]
to [0, 1, 0], and the pass leaves the statement as it was. -/
theorem C1_all_or_nothing_witness :
    (exDeps.hasValidDependences = true
        ∧ ∃ a b, (newDeps (scheduleDeps exDeps
            (exScop ⟨fun p => Classical.propDecidable p⟩).getSchedule)
            (getTransform exParse (some ["isplit(L, A, B, i = 1, 0)"])
              (exScop ⟨fun p => Classical.propDecidable p⟩)).1).Rel a b
          ∧ lexGe a b)
      ∧ (runOnScop exParse (some ["isplit(L, A, B, i = 1, 0)"]) exDeps
          (exScop ⟨fun p => Classical.propDecidable p⟩)).scop.stmts
          = (exScop ⟨fun p => Classical.propDecidable p⟩).stmts
      ∧ (runOnScop exParse (some ["isplit(L, A, B, i = 1, 0)"]) exDeps
          (exScop ⟨fun p => Classical.propDecidable p⟩)).scop.optimized = true
      ∧ (runOnScop exParse (some ["isplit(L, A, B, i = 1, 0)"]) exDeps
          (exScop ⟨fun p => Classical.propDecidable p⟩)).applyTransform = false := by
  have hyp : exDeps.hasValidDependences = true
      ∧ ∃ a b, (newDeps (scheduleDeps exDeps
          (exScop ⟨fun p => Classical.propDecidable p⟩).getSchedule)
          (getTransform exParse (some ["isplit(L, A, B, i = 1, 0)"])
            (exScop ⟨fun p => Classical.propDecidable p⟩)).1).Rel a b
        ∧ lexGe a b := by
    refine ⟨rfl, [1, 0, 0], [0, 1, 0], ?_, Or.inr (by simp [lexLt])⟩
    rw [newDeps_Rel]
    exact ⟨[0, 0, 0], [0, 1, 0], exDeps_rel _, (ex_split_transform _).2,
      (ex_split_transform _).1⟩
  exact ⟨hyp, C1_all_or_nothing exParse _ exDeps _ (Or.inr hyp)⟩

/-- The instance [0, 1, 0] of the example region lies in the domain recorded for
A by isplit(L, A, B, i = 1, 0), the instance [0, 0, 0] in the one recorded for B. -/
theorem ex_split_domains (ctx : isl_ctx) :
    ((applyUnitTransform exParse (exScop ctx) "isplit(L, A, B, i = 1, 0)"
        (isl_set_identity (scheduleRange (exScop ctx)))).2.LoopDomainMap "A").Mem [0, 1, 0]
      ∧ ((applyUnitTransform exParse (exScop ctx) "isplit(L, A, B, i = 1, 0)"
        (isl_set_identity (scheduleRange (exScop ctx)))).2.LoopDomainMap "B").Mem [0, 0, 0] := by
  have hT0 := hasDims_identity (exScop_range_dim ctx)
  have hne : ("A" : String) ≠ "B" := by decide
  have hisp := @applyUnitTransform_isplit exParse (exScop ctx) "isplit(L, A, B, i = 1, 0)"
    (isl_set_identity (scheduleRange (exScop ctx)))
    ⟨⟨"L"⟩, ⟨"A"⟩, ⟨"B"⟩, some ⟨1, fun p => coord p 0 = 1⟩, 0⟩ rfl rfl
  have hparts := isplit_parts (exScop ctx)
    ⟨⟨"L"⟩, ⟨"A"⟩, ⟨"B"⟩, some ⟨1, fun p => coord p 0 = 1⟩, 0⟩
    (isl_set_identity (scheduleRange (exScop ctx)))
    (isl_set_apply (scheduleRange (exScop ctx)) (isl_set_identity (scheduleRange (exScop ctx))))
    hT0 ⟨_, rfl, rfl⟩ (hasDim_apply (exScop_range_dim ctx) hT0) ⟨_, rfl, rfl⟩
    (by
      intro i hi
      have hi0 : i = 0 := Nat.lt_one_iff.1 hi
      subst hi0
      decide)
  have hinv : ∀ x, (isplitInvPred (exScop ctx)
      ⟨⟨"L"⟩, ⟨"A"⟩, ⟨"B"⟩, some ⟨1, fun p => coord p 0 = 1⟩, 0⟩
      (isl_set_identity (scheduleRange (exScop ctx)))
      (isl_set_apply (scheduleRange (exScop ctx))
        (isl_set_identity (scheduleRange (exScop ctx))))).Mem x ↔ x = [0, 1, 0] := by
    intro x
    unfold isplitInvPred
    rw [mem_apply]
    constructor
    · rintro ⟨y, hy, hr⟩
      rw [rel_reverse, rel_identity] at hr
      rw [hr.2] at hy
      obtain ⟨⟨p, hp, _, hcoord⟩, hpl⟩ := (hparts.2.1 x).1 hy
      rcases (ex_postLoop_mem ctx x).1 hpl with rfl | rfl
      · have h0 := hcoord 0 (by decide)
        have hp1 : coord p 0 = 1 := hp.2
        rw [← h0] at hp1
        exact absurd hp1 (by decide)
      · rfl
    · rintro rfl
      refine ⟨[0, 1, 0], (hparts.2.1 _).2
        ⟨⟨[1], ⟨rfl, rfl⟩, rfl, ?_⟩, (ex_postLoop_mem ctx _).2 (Or.inr rfl)⟩, ?_⟩
      · intro i hi
        have hi0 : i = 0 := Nat.lt_one_iff.1 hi
        subst hi0
        rfl
      · rw [rel_reverse, rel_identity, exScop_range_mem]
        exact ⟨Or.inr rfl, rfl⟩
  rw [hisp]
  simp only [Function.update_same, Function.update_noteq hne]
  refine ⟨?_, ?_⟩
  · rw [isplitDomain1_mem, hinv]
    exact ⟨⟨rfl, Or.inr rfl⟩, rfl⟩
  · rw [(hparts.2.2.2.2 rfl).2, hinv]
    exact ⟨(ex_postDomain_mem ctx _).2 (Or.inl rfl), ⟨rfl, Or.inl rfl⟩, by decide⟩

/-- Witness of C8: the example region, split by isplit(L, A, B, i = 1, 0) under
the identity transform: A gets the instance [0, 1, 0], B the instance
[0, 0, 0], and no point lies in both recorded domains. -/
theorem C8_isplit_disjoint_witness :
    (exParse "isplit(L, A, B, i = 1, 0)"
          = some (nodeType.typeISplit
              ⟨⟨"L"⟩, ⟨"A"⟩, ⟨"B"⟩, some ⟨1, fun p => coord p 0 = 1⟩, 0⟩)
        ∧ (exScop ⟨fun p => Classical.propDecidable p⟩).LoopDomainMap "L"
          = some ⟨3, fun p => p = [0, 0, 0] ∨ p = [0, 1, 0]⟩)
      ∧ (∀ x, ¬ (((applyUnitTransform exParse (exScop ⟨fun p => Classical.propDecidable p⟩)
              "isplit(L, A, B, i = 1, 0)"
              (isl_set_identity (scheduleRange (exScop ⟨fun p => Classical.propDecidable p⟩)))
            ).2.LoopDomainMap "A").Mem x
          ∧ ((applyUnitTransform exParse (exScop ⟨fun p => Classical.propDecidable p⟩)
              "isplit(L, A, B, i = 1, 0)"
              (isl_set_identity (scheduleRange (exScop ⟨fun p => Classical.propDecidable p⟩)))
            ).2.LoopDomainMap "B").Mem x))
      ∧ ((applyUnitTransform exParse (exScop ⟨fun p => Classical.propDecidable p⟩)
            "isplit(L, A, B, i = 1, 0)"
            (isl_set_identity (scheduleRange (exScop ⟨fun p => Classical.propDecidable p⟩)))
          ).2.LoopDomainMap "A").Mem [0, 1, 0]
      ∧ ((applyUnitTransform exParse (exScop ⟨fun p => Classical.propDecidable p⟩)
            "isplit(L, A, B, i = 1, 0)"
            (isl_set_identity (scheduleRange (exScop ⟨fun p => Classical.propDecidable p⟩)))
          ).2.LoopDomainMap "B").Mem [0, 0, 0] := by
  have h := C8_isplit_disjoint exParse (exScop ⟨fun p => Classical.propDecidable p⟩)
    "isplit(L, A, B, i = 1, 0)"
    (isl_set_identity (scheduleRange (exScop ⟨fun p => Classical.propDecidable p⟩)))
    ⟨⟨"L"⟩, ⟨"A"⟩, ⟨"B"⟩, some ⟨1, fun p => coord p 0 = 1⟩, 0⟩
    ⟨3, fun p => p = [0, 0, 0] ∨ p = [0, 1, 0]⟩ rfl rfl
  refine ⟨⟨rfl, rfl⟩, ?_, (ex_split_domains _).1, (ex_split_domains _).2⟩
  intro x
  rw [h.1, h.2.1 (by decide)]
  exact h.2.2.1 x

/-! ## The coordinate-space mapper -/

theorem u32_of_lt {n : Nat} (h : n < 4294967296) : u32 n = n := Nat.mod_eq_of_lt h

/-- The relation of iterToScheduleMap when the loop slots fit into the schedule width. -/
theorem iterToScheduleMap_fit (S : Scop) {a w : Nat} (h : 2 * a ≤ w) (hw : w < 4294967296) :
    (iterToScheduleMap S a w).HasDims a w
      ∧ ∀ x y, (iterToScheduleMap S a w).Rel x y
          ↔ x.length = a ∧ y.length = w ∧ ∀ i < a, coord y (2 * i + 1) = coord x i := by
  have hs : ∀ i < a, u32 (2 * i + 1) = 2 * i + 1 := fun i hi => u32_of_lt (by omega)
  have hr := iterToScheduleMap_rel S a w (fun i hi => by rw [hs i hi]; omega)
  refine ⟨hr.1, ?_⟩
  intro x y
  rw [hr.2 x y]
  constructor
  · rintro ⟨h1, h2, h3⟩
    exact ⟨h1, h2, fun i hi => by rw [← hs i hi]; exact h3 i hi⟩
  · rintro ⟨h1, h2, h3⟩
    exact ⟨h1, h2, fun i hi => by rw [hs i hi]; exact h3 i hi⟩

/-- C15: coordinate-space mapper.  For an iteration size a and a schedule size w
with 2 * a ≤ w (every w ≥ 2 * a + 1 is one), w a value of the type unsigned,
iterToScheduleMap returns a map from a to w dimensions that relates a vector x
of a coordinates to a vector y of w coordinates exactly when y[2 * i + 1] = x[i]
for every i < a.  The other coordinates of y are free: every vector of w
coordinates that agrees with y at the positions 2 * i + 1 is related to x too. -/
theorem C15_embed (S : Scop) (a w : Nat) (h : 2 * a ≤ w) (hw : w < 4294967296) :
    (iterToScheduleMap S a w).HasDims a w
      ∧ (∀ x y, (iterToScheduleMap S a w).Rel x y
          ↔ x.length = a ∧ y.length = w ∧ ∀ i < a, coord y (2 * i + 1) = coord x i)
      ∧ ∀ x y y', (iterToScheduleMap S a w).Rel x y → y'.length = w →
          (∀ i < a, coord y' (2 * i + 1) = coord y (2 * i + 1)) →
          (iterToScheduleMap S a w).Rel x y' := by
  have hr := iterToScheduleMap_fit S h hw
  refine ⟨hr.1, hr.2, ?_⟩
  intro x y y' hxy hl hc
  rw [hr.2] at hxy ⊢
  exact ⟨hxy.1, hl, fun i hi => by rw [hc i hi]; exact hxy.2.2 i hi⟩

/-- Witness of C15: one loop in a schedule of width 3.  The iteration vector [7]
is related to [4, 7, 9] and not to [4, 8, 9]. -/
theorem C15_embed_witness :
    (2 * 1 ≤ 3 ∧ 3 < 4294967296)
      ∧ (iterToScheduleMap (exScop ⟨fun p => Classical.propDecidable p⟩) 1 3).Rel [7] [4, 7, 9]
      ∧ ¬ (iterToScheduleMap (exScop ⟨fun p => Classical.propDecidable p⟩) 1 3).Rel [7] [4, 8, 9] :=
  ⟨⟨by decide, by decide⟩,
    ((C15_embed (exScop ⟨fun p => Classical.propDecidable p⟩) 1 3 (by decide) (by decide)).2.1
      [7] [4, 7, 9]).2 ⟨rfl, rfl, fun i hi => by
        have : i = 0 := by omega
        subst this
        rfl⟩,
    fun hrel => absurd
      ((((C15_embed (exScop ⟨fun p => Classical.propDecidable p⟩) 1 3 (by decide) (by decide)).2.1
        [7] [4, 8, 9]).1 hrel).2.2 0 (by decide)) (by decide)⟩

/-- A fold of isl_map_equate that ends in a map began at a map of the same dimensions. -/
theorem foldl_equate_dims (f g : Nat → Nat) (L : List Nat) :
    ∀ (m : isl_map) (v : MapVal),
      L.foldl (fun t i => isl_map_equate t isl_dim_out (f i) isl_dim_in (g i)) m = some v →
      ∃ u, m = some u ∧ u.nIn = v.nIn ∧ u.nOut = v.nOut := by
  induction L with
  | nil =>
    intro m v h
    exact ⟨v, h, rfl, rfl⟩
  | cons i rest ih =>
    intro m v h
    rw [List.foldl_cons] at h
    obtain ⟨u, hu, h1, h2⟩ := ih _ v h
    cases m with
    | none => exact absurd hu (by simp [isl_map_equate])
    | some m0 =>
      simp only [isl_map_equate] at hu
      split at hu
      · simp only [Option.some.injEq] at hu
        subst hu
        exact ⟨m0, rfl, h1, h2⟩
      · exact absurd hu (by simp)

/-- The map of iterToScheduleMap is NULL when the slot of the last loop lies
outside the schedule width. -/
theorem iterToScheduleMap_null (S : Scop) {a w : Nat} (h : w < 2 * a) (ha : 2 * a < 4294967296) :
    iterToScheduleMap S a w = none := by
  obtain ⟨b, rfl⟩ : ∃ b, a = b + 1 := ⟨a - 1, by omega⟩
  unfold iterToScheduleMap isl_map_align_params
  simp only []
  rw [List.range_succ, List.foldl_append, List.foldl_cons, List.foldl_nil]
  cases hm : (List.range b).foldl
      (fun trans i => isl_map_equate trans isl_dim_out (u32 (2 * i + 1)) isl_dim_in i)
      (isl_map_from_domain_and_range (isl_set_universe (isl_space_set_alloc 0 (b + 1)))
        (isl_set_universe (isl_space_set_alloc 0 w))) with
  | none => rfl
  | some v =>
    obtain ⟨u, hu, h1, h2⟩ := foldl_equate_dims _ _ _ _ _ hm
    have hw : v.nOut = w := by
      simp only [isl_map_from_domain_and_range, isl_set_universe, isl_space_set_alloc,
        Option.some.injEq] at hu
      rw [← h2, ← hu]
    simp only [isl_map_equate]
    rw [if_neg]
    rintro ⟨h3, _⟩
    rw [u32_of_lt (by omega)] at h3
    simp only [MapVal.dimOf] at h3
    omega

/-- C16, amended: for an iteration size a and a schedule size w < 2 * a + 1
iterToScheduleMap returns the universal relation only when a = 0.  For
w < 2 * a the slot 2 * a - 1 of the last loop lies outside the schedule space,
isl_map_equate fails there and the map is NULL: it relates nothing.  For
w = 2 * a the map relates x to y exactly when y[2 * i + 1] = x[i] for every
i < a. -/
theorem C16_embed_inconsistent (S : Scop) (a w : Nat) (h : w < 2 * a + 1)
    (ha : 2 * a < 4294967296) :
    (w < 2 * a → iterToScheduleMap S a w = none ∧ ∀ x y, ¬ (iterToScheduleMap S a w).Rel x y)
      ∧ (w = 2 * a → ∀ x y, (iterToScheduleMap S a w).Rel x y
          ↔ x.length = a ∧ y.length = w ∧ ∀ i < a, coord y (2 * i + 1) = coord x i)
      ∧ ((∀ x y, x.length = a → y.length = w → (iterToScheduleMap S a w).Rel x y) ↔ a = 0) := by
  refine ⟨?_, ?_, ?_⟩
  · intro hlt
    have hnull := iterToScheduleMap_null S hlt ha
    refine ⟨hnull, ?_⟩
    intro x y hr
    rw [hnull] at hr
    exact hr
  · intro he
    exact (iterToScheduleMap_fit S (Nat.le_of_eq he.symm) (by omega)).2
  · constructor
    · intro hall
      by_contra ha0
      by_cases hlt : w < 2 * a
      · have hnull := iterToScheduleMap_null S hlt ha
        have hr := hall (List.replicate a 0) (List.replicate w 0) (by simp) (by simp)
        rw [hnull] at hr
        exact hr
      · have he : 2 * a ≤ w := by omega
        have hr := hall (List.replicate a 0) (List.replicate w 1) (by simp) (by simp)
        have h0 := ((iterToScheduleMap_fit S he (by omega)).2 _ _).1 hr
        have h1 := h0.2.2 0 (by omega)
        have hc1 : coord (List.replicate w (1 : Int)) (2 * 0 + 1) = 1 := by
          unfold coord
          rw [List.getD_eq_getElem _ _ (by simp; omega)]
          simp
        have hc0 : coord (List.replicate a (0 : Int)) 0 = 0 := by
          unfold coord
          rw [List.getD_eq_getElem _ _ (by simp; omega)]
          simp
        rw [hc1, hc0] at h1
        exact absurd h1 (by decide)
    · rintro rfl
      have hw0 : w = 0 := by omega
      subst hw0
      intro x y hx hy
      exact ((iterToScheduleMap_fit S (Nat.le_refl _) (by decide)).2 x y).2
        ⟨hx, hy, fun i hi => absurd hi (by omega)⟩

/-- Witness of C16: one loop and a schedule of width 1; the map is NULL. -/
theorem C16_embed_inconsistent_witness :
    (1 < 2 * 1 + 1 ∧ 2 * 1 < 4294967296)
      ∧ iterToScheduleMap (exScop ⟨fun p => Classical.propDecidable p⟩) 1 1 = none :=
  ⟨⟨by decide, by decide⟩,
    ((C16_embed_inconsistent (exScop ⟨fun p => Classical.propDecidable p⟩) 1 1
      (by decide) (by decide)).1 (by decide)).1⟩

/-- Counterexample to C16 as stated: with one loop and a schedule of width 1 the
map is NULL and does not relate [0] to [0]; with one loop and a schedule of
width 2 the map does not relate [0] to [0, 1].  In both cases the schedule size
is below 2 * 1 + 1, and the relation is not the universal one. -/
theorem C16_embed_inconsistent_counterexample :
    (1 : Nat) < 2 * 1 + 1
      ∧ iterToScheduleMap (exScop ⟨fun p => Classical.propDecidable p⟩) 1 1 = none
      ∧ ¬ (iterToScheduleMap (exScop ⟨fun p => Classical.propDecidable p⟩) 1 1).Rel [0] [0]
      ∧ (2 : Nat) < 2 * 1 + 1
      ∧ ¬ (iterToScheduleMap (exScop ⟨fun p => Classical.propDecidable p⟩) 1 2).Rel [0] [0, 1] := by
  refine ⟨by decide, rfl, fun h => h, by decide, ?_⟩
  intro h
  have h0 := ((iterToScheduleMap_fit (exScop ⟨fun p => Classical.propDecidable p⟩)
    (by decide : 2 * 1 ≤ 2) (by decide)).2 _ _).1 h
  exact absurd (h0.2.2 0 (by decide)) (by decide)

/-! ## zeroIterDims -/

/-- C17: zeroIterDims.  On a set space of width w (w + 1 a value of the type
unsigned) zeroIterDims relates x to y exactly when both have w coordinates,
y[i] = x[i] at every even position i < w and y[i] = 0 at every odd position
i < w.  The relation is a total function on the vectors of w coordinates, and
applying it twice is applying it once. -/
theorem C17_zeroPad (S : Scop) (w : Nat) (hw : w + 1 < 4294967296) :
    (∀ x y, (zeroIterDims S (isl_space_set_alloc 0 w)).Rel x y
        ↔ x.length = w ∧ y.length = w
          ∧ (∀ i < w, i % 2 = 0 → coord y i = coord x i)
          ∧ (∀ i < w, i % 2 = 1 → coord y i = 0))
      ∧ (∀ x, x.length = w → ∃ y, (zeroIterDims S (isl_space_set_alloc 0 w)).Rel x y)
      ∧ (∀ x y y', (zeroIterDims S (isl_space_set_alloc 0 w)).Rel x y →
          (zeroIterDims S (isl_space_set_alloc 0 w)).Rel x y' → y = y')
      ∧ (∀ x y, (isl_map_apply_range (zeroIterDims S (isl_space_set_alloc 0 w))
            (zeroIterDims S (isl_space_set_alloc 0 w))).Rel x y
          ↔ (zeroIterDims S (isl_space_set_alloc 0 w)).Rel x y) := by
  have hf := zeroIterDims_fun S hw
  have hidem : ∀ x : Point, zeroOdd (zeroOdd x) = zeroOdd x := by
    intro x
    apply point_ext (by rw [zeroOdd_length])
    intro i hi
    rw [zeroOdd_length] at hi
    rw [zeroOdd_coord hi]
    by_cases he : i % 2 = 0
    · rw [if_pos he]
    · rw [if_neg he, zeroOdd_coord (by rw [zeroOdd_length] at hi; exact hi), if_neg he]
  refine ⟨?_, ?_, ?_, ?_⟩
  · intro x y
    rw [hf]
    constructor
    · rintro ⟨hx, rfl⟩
      refine ⟨hx, by rw [zeroOdd_length, hx], ?_, ?_⟩
      · intro i hi he
        rw [zeroOdd_coord (by rw [hx]; exact hi), if_pos he]
      · intro i hi he
        rw [zeroOdd_coord (by rw [hx]; exact hi), if_neg (by omega)]
    · rintro ⟨hx, hy, h0, h1⟩
      refine ⟨hx, point_ext (by rw [zeroOdd_length, hx, hy]) ?_⟩
      intro i hi
      rw [hy] at hi
      rw [zeroOdd_coord (by rw [hx]; exact hi)]
      by_cases he : i % 2 = 0
      · rw [if_pos he]
        exact h0 i hi he
      · rw [if_neg he]
        exact h1 i hi (by omega)
  · intro x hx
    exact ⟨zeroOdd x, (hf x _).2 ⟨hx, rfl⟩⟩
  · intro x y y' h1 h2
    rw [((hf x y).1 h1).2, ((hf x y').1 h2).2]
  · intro x y
    rw [rel_apply_range]
    constructor
    · rintro ⟨z, h1, h2⟩
      obtain ⟨hx, rfl⟩ := (hf x z).1 h1
      obtain ⟨_, rfl⟩ := (hf _ y).1 h2
      rw [hidem]
      exact (hf x _).2 ⟨hx, rfl⟩
    · intro h
      obtain ⟨hx, rfl⟩ := (hf x y).1 h
      refine ⟨zeroOdd x, h, (hf _ _).2 ⟨by rw [zeroOdd_length, hx], (hidem x).symm⟩⟩

/-- Witness of C17: at width 3 the vector [4, 7, 9] is related to [4, 0, 9]. -/
theorem C17_zeroPad_witness :
    (3 + 1 < 4294967296)
      ∧ (zeroIterDims (exScop ⟨fun p => Classical.propDecidable p⟩)
          (isl_space_set_alloc 0 3)).Rel [4, 7, 9] [4, 0, 9] :=
  ⟨by decide,
    ((C17_zeroPad (exScop ⟨fun p => Classical.propDecidable p⟩) 3 (by decide)).1
      [4, 7, 9] [4, 0, 9]).2
      ⟨rfl, rfl,
        fun i hi he => by
          have : i = 0 ∨ i = 2 := by omega
          rcases this with rfl | rfl <;> rfl,
        fun i hi he => by
          have : i = 1 := by omega
          subst this
          rfl⟩⟩

/-! ## The ordering relations -/

/-- The relation of scheduleLexGt when the compared slots fit into the width. -/
theorem scheduleLexGt_fit (S : Scop) {w n : Nat} (h : 2 * n - 1 ≤ w) (hw : w < 4294967296) :
    (scheduleLexGt S w n).HasDims w w
      ∧ ∀ x y, (scheduleLexGt S w n).Rel x y
          ↔ x.length = w ∧ y.length = w
            ∧ ∃ i < n, (∀ j < i, coord x (2 * j) = coord y (2 * j))
              ∧ coord y (2 * i) < coord x (2 * i) := by
  have hs : ∀ i < n, u32 (2 * i) = 2 * i := fun i hi => u32_of_lt (by omega)
  have hr := scheduleLexGt_rel S w n (fun i hi => by rw [hs i hi]; omega)
  refine ⟨hr.1, ?_⟩
  intro x y
  rw [hr.2 x y]
  constructor
  · rintro ⟨h1, h2, i, hi, h3, h4⟩
    refine ⟨h1, h2, i, hi, ?_, ?_⟩
    · intro j hj
      have := h3 j hj
      rw [hs j (by omega)] at this
      exact this.symm
    · rw [hs i hi] at h4
      exact h4
  · rintro ⟨h1, h2, i, hi, h3, h4⟩
    refine ⟨h1, h2, i, hi, ?_, ?_⟩
    · intro j hj
      rw [hs j (by omega)]
      exact (h3 j hj).symm
    · rw [hs i hi]
      exact h4

/-- C18: scheduleLexGt.  For a schedule size w (a value of the type unsigned)
and a number n of compared positions with 2 * n - 1 ≤ w, scheduleLexGt relates
x to y exactly when both have w coordinates and there is an i < n with
x[2 * j] = y[2 * j] for all j < i and x[2 * i] > y[2 * i].  The relation is
empty for n = 0, it is irreflexive and it is transitive. -/
theorem C18_lexGreater (S : Scop) (w n : Nat) (h : 2 * n - 1 ≤ w) (hw : w < 4294967296) :
    (∀ x y, (scheduleLexGt S w n).Rel x y
        ↔ x.length = w ∧ y.length = w
          ∧ ∃ i < n, (∀ j < i, coord x (2 * j) = coord y (2 * j))
            ∧ coord y (2 * i) < coord x (2 * i))
      ∧ (n = 0 → ∀ x y, ¬ (scheduleLexGt S w n).Rel x y)
      ∧ (∀ x, ¬ (scheduleLexGt S w n).Rel x x)
      ∧ (∀ x y z, (scheduleLexGt S w n).Rel x y → (scheduleLexGt S w n).Rel y z →
          (scheduleLexGt S w n).Rel x z) := by
  have hr := (scheduleLexGt_fit S h hw).2
  refine ⟨hr, ?_, ?_, ?_⟩
  · intro hn x y hxy
    obtain ⟨_, _, i, hi, _⟩ := (hr x y).1 hxy
    omega
  · intro x hxx
    obtain ⟨_, _, i, _, _, hlt⟩ := (hr x x).1 hxx
    exact absurd hlt (lt_irrefl _)
  · intro x y z hxy hyz
    obtain ⟨hx, _, i, hi, hie, hil⟩ := (hr x y).1 hxy
    obtain ⟨_, hz, k, hk, hke, hkl⟩ := (hr y z).1 hyz
    refine (hr x z).2 ⟨hx, hz, ?_⟩
    rcases Nat.lt_trichotomy i k with hik | hik | hik
    · refine ⟨i, hi, ?_, ?_⟩
      · intro j hj
        rw [hie j hj, hke j (by omega)]
      · rw [← hke i hik]
        exact hil
    · subst hik
      refine ⟨i, hi, ?_, ?_⟩
      · intro j hj
        rw [hie j hj, hke j hj]
      · exact lt_trans hkl hil
    · refine ⟨k, hk, ?_, ?_⟩
      · intro j hj
        rw [hie j (by omega), hke j hj]
      · rw [hie k hik]
        exact hkl

/-- Witness of C18: at width 3 with two compared positions [1, 5, 2] is greater
than [1, 8, 0]: position 0 is equal, position 2 is greater. -/
theorem C18_lexGreater_witness :
    (2 * 2 - 1 ≤ 3 ∧ 3 < 4294967296)
      ∧ (scheduleLexGt (exScop ⟨fun p => Classical.propDecidable p⟩) 3 2).Rel [1, 5, 2] [1, 8, 0] :=
  ⟨⟨by decide, by decide⟩,
    ((C18_lexGreater (exScop ⟨fun p => Classical.propDecidable p⟩) 3 2 (by decide) (by decide)).1
      [1, 5, 2] [1, 8, 0]).2
      ⟨rfl, rfl, 1, by decide,
        fun j hj => by
          have : j = 0 := by omega
          subst this
          rfl,
        by decide⟩⟩

/-- The relation of scheduleLexEq when the compared slots fit into the width. -/
theorem scheduleLexEq_fit (S : Scop) {w n : Nat} (h : 2 * n - 1 ≤ w) (hw : w < 4294967296) :
    (scheduleLexEq S w n).HasDims w w
      ∧ ∀ x y, (scheduleLexEq S w n).Rel x y
          ↔ x.length = w ∧ y.length = w ∧ ∀ i < n, coord x (2 * i) = coord y (2 * i) := by
  have hs : ∀ i < n, u32 (2 * i) = 2 * i := fun i hi => u32_of_lt (by omega)
  have hr := scheduleLexEq_rel S w n (fun i hi => by rw [hs i hi]; omega)
  refine ⟨hr.1, ?_⟩
  intro x y
  rw [hr.2 x y]
  constructor
  · rintro ⟨h1, h2, h3⟩
    exact ⟨h1, h2, fun i hi => by have := h3 i hi; rw [hs i hi] at this; exact this.symm⟩
  · rintro ⟨h1, h2, h3⟩
    exact ⟨h1, h2, fun i hi => by rw [hs i hi]; exact (h3 i hi).symm⟩

/-- C19: scheduleLexEq.  For a schedule size w (a value of the type unsigned) and
a number n of compared positions with 2 * n - 1 ≤ w, scheduleLexEq relates x to
y exactly when both have w coordinates and x[2 * i] = y[2 * i] for every i < n.
On the vectors of w coordinates the relation is reflexive, symmetric and
transitive, and for n = 0 it relates every such vector to every such vector. -/
theorem C19_lexEqual (S : Scop) (w n : Nat) (h : 2 * n - 1 ≤ w) (hw : w < 4294967296) :
    (∀ x y, (scheduleLexEq S w n).Rel x y
        ↔ x.length = w ∧ y.length = w ∧ ∀ i < n, coord x (2 * i) = coord y (2 * i))
      ∧ (∀ x, x.length = w → (scheduleLexEq S w n).Rel x x)
      ∧ (∀ x y, (scheduleLexEq S w n).Rel x y → (scheduleLexEq S w n).Rel y x)
      ∧ (∀ x y z, (scheduleLexEq S w n).Rel x y → (scheduleLexEq S w n).Rel y z →
          (scheduleLexEq S w n).Rel x z)
      ∧ (n = 0 → ∀ x y, x.length = w → y.length = w → (scheduleLexEq S w n).Rel x y) := by
  have hr := (scheduleLexEq_fit S h hw).2
  refine ⟨hr, ?_, ?_, ?_, ?_⟩
  · intro x hx
    exact (hr x x).2 ⟨hx, hx, fun _ _ => rfl⟩
  · intro x y hxy
    obtain ⟨hx, hy, he⟩ := (hr x y).1 hxy
    exact (hr y x).2 ⟨hy, hx, fun i hi => (he i hi).symm⟩
  · intro x y z hxy hyz
    obtain ⟨hx, _, he⟩ := (hr x y).1 hxy
    obtain ⟨_, hz, he'⟩ := (hr y z).1 hyz
    exact (hr x z).2 ⟨hx, hz, fun i hi => (he i hi).trans (he' i hi)⟩
  · intro hn x y hx hy
    exact (hr x y).2 ⟨hx, hy, fun i hi => absurd hi (by omega)⟩

/-- Witness of C19: at width 3 with two compared positions [1, 5, 2] is related to
[1, 8, 2] and not to [1, 5, 3]. -/
theorem C19_lexEqual_witness :
    (2 * 2 - 1 ≤ 3 ∧ 3 < 4294967296)
      ∧ (scheduleLexEq (exScop ⟨fun p => Classical.propDecidable p⟩) 3 2).Rel [1, 5, 2] [1, 8, 2]
      ∧ ¬ (scheduleLexEq (exScop ⟨fun p => Classical.propDecidable p⟩) 3 2).Rel
          [1, 5, 2] [1, 5, 3] :=
  ⟨⟨by decide, by decide⟩,
    ((C19_lexEqual (exScop ⟨fun p => Classical.propDecidable p⟩) 3 2 (by decide) (by decide)).1
      [1, 5, 2] [1, 8, 2]).2
      ⟨rfl, rfl, fun i hi => by
        have : i = 0 ∨ i = 1 := by omega
        rcases this with rfl | rfl <;> rfl⟩,
    fun hrel => absurd
      ((((C19_lexEqual (exScop ⟨fun p => Classical.propDecidable p⟩) 3 2 (by decide)
        (by decide)).1 [1, 5, 2] [1, 5, 3]).1 hrel).2.2 1 (by decide)) (by decide)⟩

/-! ## The case typeLift -/

/-- The case typeLift in terms of its named parts. -/
theorem caseLift_eq (S : Scop) (l : liftNodeType) (T : isl_map) (pd : isl_set) :
    caseLift S l T pd =
      if (S.LoopDomainMap l.l.name).isNone then none
      else
        some (isl_set_identity pd,
          { S with
            LoopDomainMap := Function.update S.LoopDomainMap l.r.name (liftDomain S l T pd)
            LoopDimMap := Function.update S.LoopDimMap l.r.name (S.LoopDimMap l.l.name) }) :=
  rfl

/-- The transform and the region after a lift directive on a label with metadata. -/
theorem applyUnitTransform_lift {yyparse : String → Option nodeType} {S : Scop} {str : String}
    {T : isl_map} {l : liftNodeType} (hp : yyparse str = some (nodeType.typeLift l))
    (hl : (S.LoopDomainMap l.l.name).isSome = true) :
    applyUnitTransform yyparse S str T
      = (isl_map_apply_range T (isl_set_identity (isl_set_apply (scheduleRange S) T)),
          { S with
            LoopDomainMap := Function.update S.LoopDomainMap l.r.name
              (liftDomain S l T (isl_set_apply (scheduleRange S) T))
            LoopDimMap := Function.update S.LoopDimMap l.r.name (S.LoopDimMap l.l.name) }) := by
  have hn : (S.LoopDomainMap l.l.name).isNone = false := by
    cases hL : S.LoopDomainMap l.l.name with
    | none => rw [hL] at hl; exact absurd hl (by simp)
    | some v => rfl
  unfold applyUnitTransform
  rw [hp]
  simp only [unitMap, caseLift_eq, hn, Bool.false_eq_true, if_false, isl_map_align_params,
    isl_map_coalesce]

/-- The transform after a lift directive relates a pair exactly when the ambient
transform does and the image is the image of a point of the schedule range. -/
theorem lift_transform_rel (T : isl_map) (R : isl_set) (x y : Point) :
    (isl_map_apply_range T (isl_set_identity (isl_set_apply R T))).Rel x y
      ↔ T.Rel x y ∧ ∃ x', R.Mem x' ∧ T.Rel x' y := by
  rw [rel_apply_range]
  constructor
  · rintro ⟨z, h1, h2⟩
    rw [rel_identity, mem_apply] at h2
    obtain ⟨h3, rfl⟩ := h2
    exact ⟨h1, h3⟩
  · rintro ⟨h1, h2⟩
    refine ⟨y, h1, ?_⟩
    rw [rel_identity, mem_apply]
    exact ⟨h2, rfl⟩

/-- C12: lift does not move instances.  For a transform T whose domain lies in
the schedule range of the region and a lift directive whose label l has
metadata, applyUnitTransform returns a transform that relates x to y exactly
when T does.  It is NULL when T is NULL, and it has the dimensions of T when
the input dimension of T is the dimension of the schedule range. -/
theorem C12_lift_keeps_transform (yyparse : String → Option nodeType) (S : Scop) (str : String)
    (T : isl_map) (lf : liftNodeType)
    (hp : yyparse str = some (nodeType.typeLift lf))
    (hl : (S.LoopDomainMap lf.l.name).isSome = true)
    (hdom : ∀ x y, T.Rel x y → (scheduleRange S).Mem x) :
    (∀ x y, (applyUnitTransform yyparse S str T).1.Rel x y ↔ T.Rel x y)
      ∧ (T = none → (applyUnitTransform yyparse S str T).1 = none)
      ∧ ∀ k w, T.HasDims k w → (scheduleRange S).HasDim k →
          (applyUnitTransform yyparse S str T).1.HasDims k w := by
  rw [applyUnitTransform_lift hp hl]
  refine ⟨?_, ?_, ?_⟩
  · intro x y
    rw [lift_transform_rel]
    constructor
    · exact fun h => h.1
    · exact fun h => ⟨h, x, hdom x y h, h⟩
  · rintro rfl
    rfl
  · intro k w hT hR
    exact hasDims_apply_range hT (hasDims_identity (hasDim_apply hR hT))

/-- Witness of C12: the second example region, the identity on its schedule
range and the line lift(L1, R, 1); the transform that comes back relates
[1, 0, 0] to itself. -/
theorem C12_lift_keeps_transform_witness :
    (exLiftParse "lift(L1, R, 1)" = some (nodeType.typeLift ⟨⟨"L1"⟩, ⟨"R"⟩, 1⟩)
        ∧ ((ex2Scop ⟨fun p => Classical.propDecidable p⟩).LoopDomainMap "L1").isSome = true)
      ∧ (applyUnitTransform exLiftParse (ex2Scop ⟨fun p => Classical.propDecidable p⟩)
          "lift(L1, R, 1)"
          (isl_set_identity (scheduleRange (ex2Scop ⟨fun p => Classical.propDecidable p⟩)))).1.Rel
          [1, 0, 0] [1, 0, 0] :=
  ⟨⟨rfl, rfl⟩,
    ((C12_lift_keeps_transform exLiftParse (ex2Scop ⟨fun p => Classical.propDecidable p⟩)
      "lift(L1, R, 1)"
      (isl_set_identity (scheduleRange (ex2Scop ⟨fun p => Classical.propDecidable p⟩)))
      ⟨⟨"L1"⟩, ⟨"R"⟩, 1⟩ rfl rfl
      (fun x _ h => ((rel_identity _ x _).1 h).1)).1 [1, 0, 0] [1, 0, 0]).2
      ((rel_identity _ _ _).2 ⟨(ex2Scop_range_mem _ _).2 (Or.inr rfl), rfl⟩)⟩

/-- Members of the domain that the case typeLift records. -/
theorem liftDomain_mem (S : Scop) (l : liftNodeType) (T : isl_map) (pd : isl_set) {k w : Nat}
    (hT : T.HasDims k w) (hpd : pd.HasDim w) (hn : 2 * l.n - 1 ≤ w) (hw : w < 4294967296)
    (z : Point) :
    (liftDomain S l T pd).Mem z
      ↔ ∃ x y y', (S.LoopDomainMap l.l.name).Mem x ∧ T.Rel x y ∧ T.Rel z y'
          ∧ ∀ i < l.n, coord y' (2 * i) = coord y (2 * i) := by
  unfold liftDomain
  rw [isl_set_dim_of_hasDim hpd, mem_apply]
  have hle := (scheduleLexEq_fit S hn hw).2
  constructor
  · rintro ⟨y', h1, h2⟩
    rw [rel_reverse] at h2
    rw [mem_apply] at h1
    obtain ⟨y, h3, h4⟩ := h1
    rw [mem_apply] at h3
    obtain ⟨x, h5, h6⟩ := h3
    exact ⟨x, y, y', h5, h6, h2, fun i hi => (((hle y y').1 h4).2.2 i hi).symm⟩
  · rintro ⟨x, y, y', h1, h2, h3, h4⟩
    refine ⟨y', ?_, (rel_reverse _ _ _).2 h3⟩
    rw [mem_apply]
    refine ⟨y, ?_, (hle y y').2 ⟨(hT.rel_length h2).2, (hT.rel_length h3).2,
      fun i hi => (h4 i hi).symm⟩⟩
    rw [mem_apply]
    exact ⟨x, h1, h2⟩

/-- C11, amended: what lift records.  Let T be a transform from k to w
dimensions, k the dimension of the schedule range, and let l be a label with
recorded domain D; let 2 * n - 1 ≤ w.  The directive Lift(l, r, n) records for r
the set of the points z that T maps to a point with the same coordinates
0, 2, ..., 2 * (n - 1) as the image of some point of D, whatever the recorded
depth of l is.  Every point of D in the domain of T belongs to that set.  The
set is D exactly when T is defined on all of D and no point outside D has an
image with the coordinates 0, 2, ..., 2 * (n - 1) of the image of a point of D.
The depth recorded for r is the depth of l. -/
theorem C11_lift_domain (yyparse : String → Option nodeType) (S : Scop) (str : String)
    (T : isl_map) (lf : liftNodeType) (D : SetVal) (k w : Nat)
    (hp : yyparse str = some (nodeType.typeLift lf))
    (hl : S.LoopDomainMap lf.l.name = some D)
    (hT : T.HasDims k w) (hR : (scheduleRange S).HasDim k)
    (hn : 2 * lf.n - 1 ≤ w) (hw : w < 4294967296) :
    (∀ z, ((applyUnitTransform yyparse S str T).2.LoopDomainMap lf.r.name).Mem z
        ↔ ∃ x y y', D.Mem x ∧ T.Rel x y ∧ T.Rel z y'
            ∧ ∀ i < lf.n, coord y' (2 * i) = coord y (2 * i))
      ∧ (∀ z y, D.Mem z → T.Rel z y →
          ((applyUnitTransform yyparse S str T).2.LoopDomainMap lf.r.name).Mem z)
      ∧ ((∀ z, ((applyUnitTransform yyparse S str T).2.LoopDomainMap lf.r.name).Mem z ↔ D.Mem z)
          ↔ (∀ z, D.Mem z → ∃ y, T.Rel z y)
            ∧ ∀ x y z y', D.Mem x → T.Rel x y → T.Rel z y' →
                (∀ i < lf.n, coord y' (2 * i) = coord y (2 * i)) → D.Mem z)
      ∧ (applyUnitTransform yyparse S str T).2.LoopDimMap lf.r.name
          = S.LoopDimMap lf.l.name := by
  have hsome : (S.LoopDomainMap lf.l.name).isSome = true := by rw [hl]; rfl
  rw [applyUnitTransform_lift hp hsome]
  simp only [Function.update_same]
  have hmem := liftDomain_mem S lf T _ hT (hasDim_apply hR hT) hn hw
  rw [hl] at hmem
  have hmem' : ∀ z, (liftDomain S lf T (isl_set_apply (scheduleRange S) T)).Mem z
      ↔ ∃ x y y', D.Mem x ∧ T.Rel x y ∧ T.Rel z y'
          ∧ ∀ i < lf.n, coord y' (2 * i) = coord y (2 * i) := hmem
  refine ⟨hmem', ?_, ?_, trivial⟩
  · intro z y hz hzy
    exact (hmem' z).2 ⟨z, y, y, hz, hzy, hzy, fun _ _ => rfl⟩
  · constructor
    · intro heq
      refine ⟨?_, ?_⟩
      · intro z hz
        obtain ⟨_, _, y', _, _, h3, _⟩ := (hmem' z).1 ((heq z).2 hz)
        exact ⟨y', h3⟩
      · intro x y z y' h1 h2 h3 h4
        exact (heq z).1 ((hmem' z).2 ⟨x, y, y', h1, h2, h3, h4⟩)
    · rintro ⟨hdom, hsat⟩ z
      constructor
      · intro h
        obtain ⟨x, y, y', h1, h2, h3, h4⟩ := (hmem' z).1 h
        exact hsat x y z y' h1 h2 h3 h4
      · intro hz
        obtain ⟨y, hy⟩ := hdom z hz
        exact (hmem' z).2 ⟨z, y, y, hz, hy, hy, fun _ _ => rfl⟩

/-- Witness of C11: the second example region under the identity; the line
lift(L1, R, 1) records for R the one instance [0, 0, 0] of L1. -/
theorem C11_lift_domain_witness :
    (exLiftParse "lift(L1, R, 1)" = some (nodeType.typeLift ⟨⟨"L1"⟩, ⟨"R"⟩, 1⟩)
        ∧ (ex2Scop ⟨fun p => Classical.propDecidable p⟩).LoopDomainMap "L1"
          = some ⟨3, fun p => p = [0, 0, 0]⟩
        ∧ 2 * 1 - 1 ≤ 3 ∧ 3 < 4294967296)
      ∧ ∀ z, ((applyUnitTransform exLiftParse (ex2Scop ⟨fun p => Classical.propDecidable p⟩)
          "lift(L1, R, 1)"
          (isl_set_identity (scheduleRange (ex2Scop ⟨fun p => Classical.propDecidable p⟩)))
          ).2.LoopDomainMap "R").Mem z ↔ z = [0, 0, 0] := by
  have h := C11_lift_domain exLiftParse (ex2Scop ⟨fun p => Classical.propDecidable p⟩)
    "lift(L1, R, 1)"
    (isl_set_identity (scheduleRange (ex2Scop ⟨fun p => Classical.propDecidable p⟩)))
    ⟨⟨"L1"⟩, ⟨"R"⟩, 1⟩ ⟨3, fun p => p = [0, 0, 0]⟩ 3 3 rfl rfl
    (hasDims_identity (ex2Scop_range_dim _)) (ex2Scop_range_dim _) (by decide) (by decide)
  refine ⟨⟨rfl, rfl, by decide, by decide⟩, ?_⟩
  intro z
  rw [h.1 z]
  constructor
  · rintro ⟨x, y, y', hx, hxy, hzy, hc⟩
    rw [rel_identity] at hxy hzy
    have hx0 : x = [0, 0, 0] := hx.2
    have h0 := hc 0 (by decide)
    rw [hzy.2, hxy.2, hx0] at h0
    rcases (ex2Scop_range_mem _ z).1 hzy.1 with rfl | rfl
    · rfl
    · exact absurd h0 (by decide)
  · rintro rfl
    refine ⟨[0, 0, 0], [0, 0, 0], [0, 0, 0], ⟨rfl, rfl⟩, ?_, ?_, fun _ _ => rfl⟩
    · exact (rel_identity _ _ _).2 ⟨(ex2Scop_range_mem _ _).2 (Or.inl rfl), rfl⟩
    · exact (rel_identity _ _ _).2 ⟨(ex2Scop_range_mem _ _).2 (Or.inl rfl), rfl⟩

/-- The result of applyUnitTransform depends on the parser through the parse of the line only. -/
theorem applyUnitTransform_congr {p1 p2 : String → Option nodeType} {str : String}
    (h : p1 str = p2 str) (S : Scop) (T : isl_map) :
    applyUnitTransform p1 S str T = applyUnitTransform p2 S str T := by
  unfold applyUnitTransform
  rw [h]

/-- Counterexample to C11 as stated: on the second example region the line
realign(L1, L2, 1) moves the instance [1, 0, 0] of L2 to [0, 0, 1], into the
band of L1.  The label L1 has depth 1, and the line lift(L1, R, 1) after it
records for R a domain with the point [1, 0, 0], which is not in the recorded
domain of L1. -/
theorem C11_lift_domain_counterexample :
    exLiftParse "lift(L1, R, 1)" = some (nodeType.typeLift ⟨⟨"L1"⟩, ⟨"R"⟩, 1⟩)
      ∧ (ex2Scop ⟨fun p => Classical.propDecidable p⟩).LoopDimMap "L1" = 1
      ∧ ¬ ((ex2Scop ⟨fun p => Classical.propDecidable p⟩).LoopDomainMap "L1").Mem [1, 0, 0]
      ∧ ((getTransform exLiftParse (some ["realign(L1, L2, 1)", "lift(L1, R, 1)"])
          (ex2Scop ⟨fun p => Classical.propDecidable p⟩)).2.LoopDomainMap "R").Mem [1, 0, 0] := by
  have hT := ex2_realign_transform ⟨fun p => Classical.propDecidable p⟩ "realign(L1, L2, 1)"
    "L2" rfl
  have hcongr := @applyUnitTransform_congr exLiftParse ex2Parse "realign(L1, L2, 1)" rfl
    (ex2Scop ⟨fun p => Classical.propDecidable p⟩)
    (isl_set_identity (scheduleRange (ex2Scop ⟨fun p => Classical.propDecidable p⟩)))
  have hc1 : isComment "realign(L1, L2, 1)" = false := by decide
  have hc2 : isComment "lift(L1, R, 1)" = false := by decide
  have hscript : getTransform exLiftParse (some ["realign(L1, L2, 1)", "lift(L1, R, 1)"])
      (ex2Scop ⟨fun p => Classical.propDecidable p⟩)
      = applyUnitTransform exLiftParse (ex2Scop ⟨fun p => Classical.propDecidable p⟩)
          "lift(L1, R, 1)"
          (applyUnitTransform ex2Parse (ex2Scop ⟨fun p => Classical.propDecidable p⟩)
            "realign(L1, L2, 1)"
            (isl_set_identity
              (scheduleRange (ex2Scop ⟨fun p => Classical.propDecidable p⟩)))).1 := by
    simp only [getTransform, isl_map_align_params, List.foldl_cons, List.foldl_nil, hc1, hc2,
      Bool.not_false, if_true, hcongr, hT.1]
  have hlift := @applyUnitTransform_lift exLiftParse (ex2Scop ⟨fun p => Classical.propDecidable p⟩)
    "lift(L1, R, 1)"
    (applyUnitTransform ex2Parse (ex2Scop ⟨fun p => Classical.propDecidable p⟩)
      "realign(L1, L2, 1)"
      (isl_set_identity (scheduleRange (ex2Scop ⟨fun p => Classical.propDecidable p⟩)))).1
    ⟨⟨"L1"⟩, ⟨"R"⟩, 1⟩ rfl rfl
  refine ⟨rfl, rfl, ?_, ?_⟩
  · rintro ⟨_, h⟩
    exact absurd h (by decide)
  · rw [hscript, hlift]
    simp only [Function.update_same]
    rw [liftDomain_mem _ _ _ _ hT.2.1 (hasDim_apply (ex2Scop_range_dim _) hT.2.1)
      (by decide) (by decide)]
    refine ⟨[0, 0, 0], [0, 0, 0], [0, 0, 1], ⟨rfl, rfl⟩, ?_, ?_, ?_⟩
    · exact (hT.2.2 _ _).2 (Or.inl ⟨rfl, rfl⟩)
    · exact (hT.2.2 _ _).2 (Or.inr ⟨rfl, rfl⟩)
    · intro i hi
      have hi0 : i = 0 := by
        have : i < 1 := hi
        omega
      subst hi0
      rfl

/-! ## Point arithmetic and the lexicographic order -/

theorem coord_of_ge {x : Point} {i : Nat} (h : x.length ≤ i) : coord x i = 0 := by
  unfold coord
  rw [List.getD_eq_default _ _ h]

theorem coord_nil (i : Nat) : coord [] i = 0 := rfl

theorem coord_cons_zero (a : Int) (x : Point) : coord (a :: x) 0 = a := rfl

theorem coord_cons_succ (a : Int) (x : Point) (i : Nat) : coord (a :: x) (i + 1) = coord x i := rfl

theorem coord_add : ∀ (x u : Point) (i : Nat), x.length = u.length →
    coord (Point.add x u) i = coord x i + coord u i
  | [], [], i, _ => by simp [Point.add, coord_nil]
  | [], _ :: _, _, h => by simp at h
  | _ :: _, [], _, h => by simp at h
  | a :: x, b :: u, 0, _ => by simp [Point.add, coord_cons_zero]
  | a :: x, b :: u, i + 1, h => by
    have := coord_add x u i (by simpa using h)
    simpa [Point.add, coord_cons_succ] using this

theorem length_add (x u : Point) (h : x.length = u.length) : (Point.add x u).length = x.length := by
  simp [Point.add, h]

theorem coord_neg : ∀ (x : Point) (i : Nat), coord (Point.neg x) i = - coord x i
  | [], i => by simp [Point.neg, coord_nil]
  | a :: x, 0 => by simp [Point.neg, coord_cons_zero]
  | a :: x, i + 1 => by
    have := coord_neg x i
    simpa [Point.neg, coord_cons_succ] using this

theorem length_neg (x : Point) : (Point.neg x).length = x.length := by
  simp [Point.neg]

theorem lexLt_asymm : ∀ a b : Point, lexLt a b → lexLt b a → False
  | [], _, h, _ => by simp [lexLt] at h
  | _ :: _, [], h, _ => by simp [lexLt] at h
  | a :: as, b :: bs, h1, h2 => by
    simp only [lexLt] at h1 h2
    rcases h1 with h1 | ⟨h1, h1'⟩
    · rcases h2 with h2 | ⟨h2, _⟩
      · omega
      · omega
    · rcases h2 with h2 | ⟨_, h2'⟩
      · omega
      · exact lexLt_asymm as bs h1' h2'

theorem lexGe_antisymm {a b : Point} (h1 : lexGe a b) (h2 : lexGe b a) : a = b := by
  rcases h1 with h1 | h1
  · exact h1
  · rcases h2 with h2 | h2
    · exact h2.symm
    · exact absurd (lexLt_asymm _ _ h1 h2) id

theorem lexLe_antisymm {a b : Point} (h1 : lexLe a b) (h2 : lexLe b a) : a = b := by
  rcases h1 with h1 | h1
  · exact h1
  · rcases h2 with h2 | h2
    · exact h2.symm
    · exact absurd (lexLt_asymm _ _ h1 h2) id

/-- A set of points of one length that is not empty and bounded above in every
coordinate has a lexicographically greatest point. -/
theorem exists_lexmax : ∀ (w : Nat) (P : Point → Prop) (B : Int),
    (∀ p, P p → p.length = w) → (∀ p, P p → ∀ i, i < w → coord p i ≤ B) → (∃ p, P p) →
    ∃ m, P m ∧ ∀ q, P q → lexGe m q
  | 0, P, _, hlen, _, ⟨p, hp⟩ => by
    refine ⟨p, hp, ?_⟩
    intro q hq
    have h1 : p = [] := List.length_eq_zero.1 (hlen p hp)
    have h2 : q = [] := List.length_eq_zero.1 (hlen q hq)
    exact Or.inl (by rw [h1, h2])
  | w + 1, P, B, hlen, hb, ⟨p, hp⟩ => by
    have hbdd : ∃ b, ∀ c, (∃ t, P (c :: t)) → c ≤ b :=
      ⟨B, fun c ⟨t, ht⟩ => hb (c :: t) ht 0 (by omega)⟩
    have hinh : ∃ c, ∃ t, P (c :: t) := by
      cases p with
      | nil => exact absurd (hlen _ hp) (by simp)
      | cons c t => exact ⟨c, t, hp⟩
    obtain ⟨c0, ⟨t0, ht0⟩, hmax⟩ := Int.exists_greatest_of_bdd hbdd hinh
    obtain ⟨m', hm', hge⟩ := exists_lexmax w (fun t => P (c0 :: t)) B
      (fun t ht => by have := hlen _ ht; simpa using this)
      (fun t ht i hi => hb (c0 :: t) ht (i + 1) (by omega))
      ⟨t0, ht0⟩
    refine ⟨c0 :: m', hm', ?_⟩
    intro q hq
    cases q with
    | nil => exact absurd (hlen _ hq) (by simp)
    | cons c t =>
      have hc : c ≤ c0 := hmax c ⟨t, hq⟩
      rcases lt_or_eq_of_le hc with hlt | heq
      · exact Or.inr (Or.inl hlt)
      · subst heq
        rcases hge t hq with h | h
        · exact Or.inl (by rw [h])
        · exact Or.inr (Or.inr ⟨rfl, h⟩)

/-- A set of points of one length that is not empty and bounded below in every
coordinate has a lexicographically least point. -/
theorem exists_lexmin : ∀ (w : Nat) (P : Point → Prop) (B : Int),
    (∀ p, P p → p.length = w) → (∀ p, P p → ∀ i, i < w → B ≤ coord p i) → (∃ p, P p) →
    ∃ m, P m ∧ ∀ q, P q → lexLe m q
  | 0, P, _, hlen, _, ⟨p, hp⟩ => by
    refine ⟨p, hp, ?_⟩
    intro q hq
    have h1 : p = [] := List.length_eq_zero.1 (hlen p hp)
    have h2 : q = [] := List.length_eq_zero.1 (hlen q hq)
    exact Or.inl (by rw [h1, h2])
  | w + 1, P, B, hlen, hb, ⟨p, hp⟩ => by
    have hbdd : ∃ b, ∀ c, (∃ t, P (c :: t)) → b ≤ c :=
      ⟨B, fun c ⟨t, ht⟩ => hb (c :: t) ht 0 (by omega)⟩
    have hinh : ∃ c, ∃ t, P (c :: t) := by
      cases p with
      | nil => exact absurd (hlen _ hp) (by simp)
      | cons c t => exact ⟨c, t, hp⟩
    obtain ⟨c0, ⟨t0, ht0⟩, hmin⟩ := Int.exists_least_of_bdd hbdd hinh
    obtain ⟨m', hm', hle⟩ := exists_lexmin w (fun t => P (c0 :: t)) B
      (fun t ht => by have := hlen _ ht; simpa using this)
      (fun t ht i hi => hb (c0 :: t) ht (i + 1) (by omega))
      ⟨t0, ht0⟩
    refine ⟨c0 :: m', hm', ?_⟩
    intro q hq
    cases q with
    | nil => exact absurd (hlen _ hq) (by simp)
    | cons c t =>
      have hc : c0 ≤ c := hmin c ⟨t, hq⟩
      rcases lt_or_eq_of_le hc with hlt | heq
      · exact Or.inr (Or.inl hlt)
      · subst heq
        rcases hle t hq with h | h
        · exact Or.inl (by rw [h])
        · exact Or.inr (Or.inr ⟨rfl, h⟩)

/-! ## The unit map of the case typeRealign -/

/-- The left domain in terms of the relation scheduleLexGt. -/
theorem leftDomainOf_lex (S : Scop) {pl first pd : isl_set} {w : Nat} (hpl : pl.HasDim w)
    (hf : first.HasDim w) (hpd : pd.HasDim w) (hw : w + 1 < 4294967296) (x : Point) :
    (leftDomainOf S pl first pd).Mem x
      ↔ pd.Mem x ∧ (first.Mem x
          ∨ ∃ z, pl.Mem z ∧ (scheduleLexGt S w ((w + 1) / 2)).Rel z x) := by
  have hlex := (scheduleLexGt_fit S (by omega : 2 * ((w + 1) / 2) - 1 ≤ w)
    (by omega : w < 4294967296)).1
  unfold leftDomainOf
  rw [isl_set_dim_of_hasDim hpd, u32_of_lt hw, mem_intersect,
    mem_union (hasDim_apply hpl hlex) hf, mem_apply]
  constructor
  · rintro ⟨h1 | h1, h2⟩
    · exact ⟨h2, Or.inr h1⟩
    · exact ⟨h2, Or.inl h1⟩
  · rintro ⟨h2, h1 | h1⟩
    · exact ⟨Or.inr h1, h2⟩
    · exact ⟨Or.inl h1, h2⟩

/-- Members of the sets leftMax and rightMin of the case typeRealign. -/
theorem realign_extremes (S : Scop) (m : realignNodeType) (T : isl_map) (pd : isl_set) {w : Nat}
    (hpl : (isl_set_apply (S.LoopDomainMap m.l1.name) T).HasDim w) (hpd : pd.HasDim w)
    (hw : w + 1 < 4294967296) :
    (∀ p, (realignLeftMax S m T pd).Mem p
        ↔ (∃ a, (realignLeft S m T pd).Mem a ∧ p = zeroOdd a)
          ∧ ∀ a, (realignLeft S m T pd).Mem a → lexGe p (zeroOdd a))
      ∧ ∀ p, (realignRightMin S m T pd).Mem p
        ↔ (∃ a, (realignRight S m T pd).Mem a ∧ p = zeroOdd a)
          ∧ ∀ a, (realignRight S m T pd).Mem a → lexLe p (zeroOdd a) := by
  have hleft := leftDomainOf_mem S hpl hpl hpd hw
  have hright := rightDomainOf_mem hleft.1 hpd
  have hzf := zeroIterDims_fun S hw
  have himg : ∀ (s : isl_set), s.HasDim w → ∀ p,
      (isl_set_apply s (zeroIterDims S (isl_space_set_alloc 0 w))).Mem p
        ↔ ∃ a, s.Mem a ∧ p = zeroOdd a := by
    intro s hs p
    rw [mem_apply]
    constructor
    · rintro ⟨a, ha, hr'⟩
      exact ⟨a, ha, ((hzf a p).1 hr').2⟩
    · rintro ⟨a, ha, rfl⟩
      exact ⟨a, ha, (hzf a _).2 ⟨hs.mem_length ha, rfl⟩⟩
  unfold realignLeftMax realignRightMin realignRight realignLeft
  rw [get_space_of_hasDim hleft.1]
  refine ⟨?_, ?_⟩
  · intro p
    rw [mem_lexmax, himg _ hleft.1]
    constructor
    · rintro ⟨h1, h2⟩
      exact ⟨h1, fun a ha => h2 _ ((himg _ hleft.1 _).2 ⟨a, ha, rfl⟩)⟩
    · rintro ⟨h1, h2⟩
      refine ⟨h1, ?_⟩
      intro q hq
      obtain ⟨a, ha, rfl⟩ := (himg _ hleft.1 q).1 hq
      exact h2 a ha
  · intro p
    rw [mem_lexmin, himg _ hright.1]
    constructor
    · rintro ⟨h1, h2⟩
      exact ⟨h1, fun a ha => h2 _ ((himg _ hright.1 _).2 ⟨a, ha, rfl⟩)⟩
    · rintro ⟨h1, h2⟩
      refine ⟨h1, ?_⟩
      intro q hq
      obtain ⟨a, ha, rfl⟩ := (himg _ hright.1 q).1 hq
      exact h2 a ha

/-- The unit map of the case typeRealign in terms of the sets leftMax and rightMin. -/
theorem realign_map_rel (S : Scop) (m : realignNodeType) (T : isl_map) (pd : isl_set) {w : Nat}
    (hpl : (isl_set_apply (S.LoopDomainMap m.l1.name) T).HasDim w) (hpd : pd.HasDim w)
    (hw : w + 1 < 4294967296) :
    (elementaryMap S (nodeType.typeRealign m) T pd).HasDims w w
      ∧ ∀ x y, (elementaryMap S (nodeType.typeRealign m) T pd).Rel x y
        ↔ ((realignLeft S m T pd).Mem x ∧ y = x)
          ∨ ((realignRight S m T pd).Mem x
            ∧ ∃ mx mn, (realignLeftMax S m T pd).Mem mx ∧ (realignRightMin S m T pd).Mem mn
              ∧ y = Point.add x
                  (Point.add (Point.add (Point.neg mn) mx) (unitVec w (u32 (m.n * 2))))) := by
  have h1 : (S.LoopDomainMap m.l1.name).isSome = true := by
    obtain ⟨v, hv, _⟩ := hpl
    cases hL : S.LoopDomainMap m.l1.name with
    | none => rw [hL] at hv; exact absurd hv (by simp [isl_set_apply])
    | some d => rfl
  obtain ⟨map, hmap, hdims, hrel⟩ := caseRealign_map S m T pd h1 hpl hpd hw
  have hleft := leftDomainOf_mem S hpl hpl hpd hw
  have hright := rightDomainOf_mem hleft.1 hpd
  have hgap := (realignGap_mem S hleft.1 hright.1 hw m.n).2
  have hext := realign_extremes S m T pd hpl hpd hw
  have hE : elementaryMap S (nodeType.typeRealign m) T pd = map := by
    unfold elementaryMap
    simp only [unitMap, hmap]
  rw [hE]
  refine ⟨hdims, ?_⟩
  intro x y
  rw [hrel x y]
  constructor
  · rintro (h | ⟨hx, g, hg, rfl⟩)
    · exact Or.inl h
    · obtain ⟨mn, mx, h2, h3, h4, h5, rfl⟩ := (hgap g).1 hg
      exact Or.inr ⟨hx, mx, mn, (hext.1 mx).2 ⟨h4, h5⟩, (hext.2 mn).2 ⟨h2, h3⟩, rfl⟩
  · rintro (h | ⟨hx, mx, mn, hmx, hmn, rfl⟩)
    · exact Or.inl h
    · refine Or.inr ⟨hx, _, (hgap _).2 ⟨mn, mx, ((hext.2 mn).1 hmn).1, ((hext.2 mn).1 hmn).2,
        ((hext.1 mx).1 hmx).1, ((hext.1 mx).1 hmx).2, rfl⟩, rfl⟩

/-- The points of the sets leftMax and rightMin have the width of the schedule
and 0 at the odd positions. -/
theorem realign_extremes_shape (S : Scop) (m : realignNodeType) (T : isl_map) (pd : isl_set)
    {w : Nat} (hpl : (isl_set_apply (S.LoopDomainMap m.l1.name) T).HasDim w) (hpd : pd.HasDim w)
    (hw : w + 1 < 4294967296) {p : Point}
    (hp : (realignLeftMax S m T pd).Mem p ∨ (realignRightMin S m T pd).Mem p) :
    p.length = w ∧ ∀ i, i % 2 = 1 → coord p i = 0 := by
  have hleft := leftDomainOf_mem S hpl hpl hpd hw
  have hright := rightDomainOf_mem hleft.1 hpd
  have hext := realign_extremes S m T pd hpl hpd hw
  have key : ∀ a : Point, a.length = w →
      (zeroOdd a).length = w ∧ ∀ i, i % 2 = 1 → coord (zeroOdd a) i = 0 := by
    intro a ha
    refine ⟨by rw [zeroOdd_length, ha], ?_⟩
    intro i hi
    by_cases hiw : i < a.length
    · rw [zeroOdd_coord hiw, if_neg (by omega)]
    · exact coord_of_ge (by rw [zeroOdd_length]; omega)
  rcases hp with hp | hp
  · obtain ⟨⟨a, ha, rfl⟩, _⟩ := (hext.1 p).1 hp
    exact key a (hleft.1.mem_length ha)
  · obtain ⟨⟨a, ha, rfl⟩, _⟩ := (hext.2 p).1 hp
    exact key a (hright.1.mem_length ha)

/-- C13: realign is the identity on the left and a shift on the right.  Let the
post-transform domain of l1 and the domain pd have w dimensions (w + 1 a value
of the type unsigned), let 2 * n < w, and let the left part and the right part
both be non-empty and bounded by B in every coordinate.  The left part holds
the points of pd that lie in the post-transform domain of l1 or that
scheduleLexGt puts before a point of it, the right part the other points of
pd.  Then the sets leftMax and rightMin hold one point each, mx and mn, and
the unit map of the directive relates a left point x to x alone and a right
point x to x + ((-mn + mx) + e) alone, e the unit vector at position 2 * n. -/
theorem C13_realign_left_right (S : Scop) (m : realignNodeType) (T : isl_map) (pd : isl_set)
    (w : Nat) (B : Int)
    (hpl : (isl_set_apply (S.LoopDomainMap m.l1.name) T).HasDim w) (hpd : pd.HasDim w)
    (hw : w + 1 < 4294967296) (hn : 2 * m.n < w)
    (hLne : ∃ a, (realignLeft S m T pd).Mem a)
    (hLb : ∀ a, (realignLeft S m T pd).Mem a → ∀ i, |coord a i| ≤ B)
    (hRne : ∃ a, (realignRight S m T pd).Mem a)
    (hRb : ∀ a, (realignRight S m T pd).Mem a → ∀ i, |coord a i| ≤ B) :
    (∀ x, (realignLeft S m T pd).Mem x
        ↔ pd.Mem x ∧ ((isl_set_apply (S.LoopDomainMap m.l1.name) T).Mem x
            ∨ ∃ z, (isl_set_apply (S.LoopDomainMap m.l1.name) T).Mem z
                ∧ (scheduleLexGt S w ((w + 1) / 2)).Rel z x))
      ∧ (∀ x, (realignRight S m T pd).Mem x ↔ pd.Mem x ∧ ¬ (realignLeft S m T pd).Mem x)
      ∧ ∃ mx mn, (∀ p, (realignLeftMax S m T pd).Mem p ↔ p = mx)
          ∧ (∀ p, (realignRightMin S m T pd).Mem p ↔ p = mn)
          ∧ (∀ x y, (realignLeft S m T pd).Mem x →
              ((elementaryMap S (nodeType.typeRealign m) T pd).Rel x y ↔ y = x))
          ∧ ∀ x y, (realignRight S m T pd).Mem x →
              ((elementaryMap S (nodeType.typeRealign m) T pd).Rel x y
                ↔ y = Point.add x
                    (Point.add (Point.add (Point.neg mn) mx) (unitVec w (2 * m.n)))) := by
  have hleft := leftDomainOf_mem S hpl hpl hpd hw
  have hright := rightDomainOf_mem hleft.1 hpd
  have hext := realign_extremes S m T pd hpl hpd hw
  have hmap := (realign_map_rel S m T pd hpl hpd hw).2
  have hu : u32 (m.n * 2) = 2 * m.n := by rw [Nat.mul_comm]; exact u32_of_lt (by omega)
  have hBL : ∀ a, a.length = w → (∀ i, |coord a i| ≤ B) →
      ∀ i, i < w → coord (zeroOdd a) i ≤ |B| ∧ -|B| ≤ coord (zeroOdd a) i := by
    intro a ha hb i hi
    rw [zeroOdd_coord (by rw [ha]; exact hi)]
    have h1 := abs_le.1 (hb i)
    have h2 := le_abs_self B
    have h3 := abs_nonneg B
    by_cases he : i % 2 = 0
    · rw [if_pos he]
      constructor <;> omega
    · rw [if_neg he]
      constructor <;> omega
  obtain ⟨mx, ⟨ax, hax, hmx⟩, hmxge⟩ := exists_lexmax w
    (fun p => ∃ a, (realignLeft S m T pd).Mem a ∧ p = zeroOdd a) |B|
    (by
      rintro p ⟨a, ha, rfl⟩
      rw [zeroOdd_length]
      exact hleft.1.mem_length ha)
    (by
      rintro p ⟨a, ha, rfl⟩ i hi
      exact (hBL a (hleft.1.mem_length ha) (hLb a ha) i hi).1)
    (by
      obtain ⟨a, ha⟩ := hLne
      exact ⟨_, a, ha, rfl⟩)
  obtain ⟨mn, ⟨an, han, hmn⟩, hmnle⟩ := exists_lexmin w
    (fun p => ∃ a, (realignRight S m T pd).Mem a ∧ p = zeroOdd a) (-|B|)
    (by
      rintro p ⟨a, ha, rfl⟩
      rw [zeroOdd_length]
      exact hright.1.mem_length ha)
    (by
      rintro p ⟨a, ha, rfl⟩ i hi
      exact (hBL a (hright.1.mem_length ha) (hRb a ha) i hi).2)
    (by
      obtain ⟨a, ha⟩ := hRne
      exact ⟨_, a, ha, rfl⟩)
  have hmaxu : ∀ p, (realignLeftMax S m T pd).Mem p ↔ p = mx := by
    intro p
    rw [hext.1 p]
    constructor
    · rintro ⟨⟨a, ha, rfl⟩, hge⟩
      have h1 := hge ax hax
      rw [← hmx] at h1
      exact lexGe_antisymm h1 (hmxge _ ⟨a, ha, rfl⟩)
    · rintro rfl
      exact ⟨⟨ax, hax, hmx⟩, fun a ha => hmxge _ ⟨a, ha, rfl⟩⟩
  have hminu : ∀ p, (realignRightMin S m T pd).Mem p ↔ p = mn := by
    intro p
    rw [hext.2 p]
    constructor
    · rintro ⟨⟨a, ha, rfl⟩, hle⟩
      have h1 := hle an han
      rw [← hmn] at h1
      exact lexLe_antisymm h1 (hmnle _ ⟨a, ha, rfl⟩)
    · rintro rfl
      exact ⟨⟨an, han, hmn⟩, fun a ha => hmnle _ ⟨a, ha, rfl⟩⟩
  refine ⟨fun x => leftDomainOf_lex S hpl hpl hpd hw x, hright.2, mx, mn, hmaxu, hminu, ?_, ?_⟩
  · intro x y hx
    rw [hmap x y]
    constructor
    · rintro (h | ⟨h, _⟩)
      · exact h.2
      · exact absurd hx ((hright.2 x).1 h).2
    · rintro rfl
      exact Or.inl ⟨hx, rfl⟩
  · intro x y hx
    rw [hmap x y, hu]
    constructor
    · rintro (h | ⟨_, mx', mn', h1, h2, rfl⟩)
      · exact absurd h.1 ((hright.2 x).1 hx).2
      · rw [(hmaxu mx').1 h1, (hminu mn').1 h2]
    · rintro rfl
      exact Or.inr ⟨hx, mx, mn, (hmaxu mx).2 rfl, (hminu mn).2 rfl, rfl⟩

/-- The unit map of realign(L1, l2, 1) on the second example region under the identity. -/
theorem ex2_realign_elementary (ctx : isl_ctx) (l2 : String) (x y : Point) :
    (elementaryMap (ex2Scop ctx) (nodeType.typeRealign ⟨⟨"L1"⟩, ⟨l2⟩, 1⟩)
        (isl_set_identity (scheduleRange (ex2Scop ctx)))
        (isl_set_apply (scheduleRange (ex2Scop ctx))
          (isl_set_identity (scheduleRange (ex2Scop ctx))))).Rel x y
      ↔ (x = [0, 0, 0] ∧ y = [0, 0, 0]) ∨ (x = [1, 0, 0] ∧ y = [0, 0, 1]) := by
  obtain ⟨map, hmap, _, hrel⟩ := ex2_realign_map ctx l2
  have hE : elementaryMap (ex2Scop ctx) (nodeType.typeRealign ⟨⟨"L1"⟩, ⟨l2⟩, 1⟩)
      (isl_set_identity (scheduleRange (ex2Scop ctx)))
      (isl_set_apply (scheduleRange (ex2Scop ctx))
        (isl_set_identity (scheduleRange (ex2Scop ctx)))) = map := by
    unfold elementaryMap
    simp only [unitMap, hmap]
  rw [hE]
  exact hrel x y

theorem abs_coord_zeros (i : Nat) : |coord [0, 0, 0] i| ≤ 1 := by
  rcases i with _ | _ | _ | i <;> simp [coord]

theorem abs_coord_one (i : Nat) : |coord [1, 0, 0] i| ≤ 1 := by
  rcases i with _ | _ | _ | i <;> simp [coord]

/-- Witness of C13: the second example region under the identity and the
directive realign(L1, L2, 1).  The left part is the instance [0, 0, 0], the
right part the instance [1, 0, 0], both within the bound 1; the gap is
[-1, 0, 1] and the one image of the right point is [0, 0, 1]. -/
theorem C13_realign_left_right_witness :
    ((2 * 1 < 3 ∧ 3 + 1 < 4294967296)
        ∧ (realignLeft (ex2Scop ⟨fun p => Classical.propDecidable p⟩) ⟨⟨"L1"⟩, ⟨"L2"⟩, 1⟩
            (isl_set_identity (scheduleRange (ex2Scop ⟨fun p => Classical.propDecidable p⟩)))
            (isl_set_apply (scheduleRange (ex2Scop ⟨fun p => Classical.propDecidable p⟩))
              (isl_set_identity
                (scheduleRange (ex2Scop ⟨fun p => Classical.propDecidable p⟩))))).Mem [0, 0, 0]
        ∧ (realignRight (ex2Scop ⟨fun p => Classical.propDecidable p⟩) ⟨⟨"L1"⟩, ⟨"L2"⟩, 1⟩
            (isl_set_identity (scheduleRange (ex2Scop ⟨fun p => Classical.propDecidable p⟩)))
            (isl_set_apply (scheduleRange (ex2Scop ⟨fun p => Classical.propDecidable p⟩))
              (isl_set_identity
                (scheduleRange (ex2Scop ⟨fun p => Classical.propDecidable p⟩))))).Mem [1, 0, 0])
      ∧ ∀ y, (elementaryMap (ex2Scop ⟨fun p => Classical.propDecidable p⟩)
              (nodeType.typeRealign ⟨⟨"L1"⟩, ⟨"L2"⟩, 1⟩)
              (isl_set_identity (scheduleRange (ex2Scop ⟨fun p => Classical.propDecidable p⟩)))
              (isl_set_apply (scheduleRange (ex2Scop ⟨fun p => Classical.propDecidable p⟩))
                (isl_set_identity
                  (scheduleRange (ex2Scop ⟨fun p => Classical.propDecidable p⟩))))).Rel
              [1, 0, 0] y
          ↔ y = [0, 0, 1] := by
  have hL := ex2_left_mem ⟨fun p => Classical.propDecidable p⟩
  have hR := ex2_right_mem ⟨fun p => Classical.propDecidable p⟩
  have hLm : (realignLeft (ex2Scop ⟨fun p => Classical.propDecidable p⟩) ⟨⟨"L1"⟩, ⟨"L2"⟩, 1⟩
      (isl_set_identity (scheduleRange (ex2Scop ⟨fun p => Classical.propDecidable p⟩)))
      (isl_set_apply (scheduleRange (ex2Scop ⟨fun p => Classical.propDecidable p⟩))
        (isl_set_identity
          (scheduleRange (ex2Scop ⟨fun p => Classical.propDecidable p⟩))))).Mem [0, 0, 0] :=
    (hL _).2 rfl
  have hRm : (realignRight (ex2Scop ⟨fun p => Classical.propDecidable p⟩) ⟨⟨"L1"⟩, ⟨"L2"⟩, 1⟩
      (isl_set_identity (scheduleRange (ex2Scop ⟨fun p => Classical.propDecidable p⟩)))
      (isl_set_apply (scheduleRange (ex2Scop ⟨fun p => Classical.propDecidable p⟩))
        (isl_set_identity
          (scheduleRange (ex2Scop ⟨fun p => Classical.propDecidable p⟩))))).Mem [1, 0, 0] :=
    (hR _).2 rfl
  have hext := realign_extremes (ex2Scop ⟨fun p => Classical.propDecidable p⟩)
    ⟨⟨"L1"⟩, ⟨"L2"⟩, 1⟩
    (isl_set_identity (scheduleRange (ex2Scop ⟨fun p => Classical.propDecidable p⟩)))
    (isl_set_apply (scheduleRange (ex2Scop ⟨fun p => Classical.propDecidable p⟩))
      (isl_set_identity (scheduleRange (ex2Scop ⟨fun p => Classical.propDecidable p⟩))))
    (ex2_postLoop1_dim _) (ex2_postDomain_dim _) (by decide)
  obtain ⟨_, _, mx, mn, h1, h2, _, h4⟩ := C13_realign_left_right
    (ex2Scop ⟨fun p => Classical.propDecidable p⟩) ⟨⟨"L1"⟩, ⟨"L2"⟩, 1⟩
    (isl_set_identity (scheduleRange (ex2Scop ⟨fun p => Classical.propDecidable p⟩)))
    (isl_set_apply (scheduleRange (ex2Scop ⟨fun p => Classical.propDecidable p⟩))
      (isl_set_identity (scheduleRange (ex2Scop ⟨fun p => Classical.propDecidable p⟩))))
    3 1 (ex2_postLoop1_dim _) (ex2_postDomain_dim _) (by decide) (by decide)
    ⟨[0, 0, 0], hLm⟩
    (fun a ha i => by rw [(hL a).1 ha]; exact abs_coord_zeros i)
    ⟨[1, 0, 0], hRm⟩
    (fun a ha i => by rw [(hR a).1 ha]; exact abs_coord_one i)
  have hmx : mx = [0, 0, 0] := ((h1 [0, 0, 0]).1 ((hext.1 _).2
    ⟨⟨[0, 0, 0], hLm, rfl⟩, fun a ha => by rw [(hL a).1 ha]; exact Or.inl rfl⟩)).symm
  have hmn : mn = [1, 0, 0] := ((h2 [1, 0, 0]).1 ((hext.2 _).2
    ⟨⟨[1, 0, 0], hRm, rfl⟩, fun a ha => by rw [(hR a).1 ha]; exact Or.inl rfl⟩)).symm
  subst hmx hmn
  refine ⟨⟨⟨by decide, by decide⟩, hLm, hRm⟩, ?_⟩
  intro y
  rw [h4 [1, 0, 0] y hRm]
  rfl

/-- C14, amended: what realign changes of a right point.  For a pair (x, y) of
the unit map of a realign directive with x in the right part, y has the
coordinates of x at every odd position (the loop iterators).  At an even
position i < w it has x[i] + (mx[i] - mn[i]), and 1 more at the position n * 2
(computed in the type unsigned), for a point mx of leftMax and a point mn of
rightMin: the band markers of the right part move onto those of the left part
at every even position, not at the position 2 * n alone. -/
theorem C14_realign_shift (S : Scop) (m : realignNodeType) (T : isl_map) (pd : isl_set)
    (w : Nat)
    (hpl : (isl_set_apply (S.LoopDomainMap m.l1.name) T).HasDim w) (hpd : pd.HasDim w)
    (hw : w + 1 < 4294967296) :
    ∀ x y, (elementaryMap S (nodeType.typeRealign m) T pd).Rel x y →
      (realignRight S m T pd).Mem x →
      y.length = w
        ∧ (∀ i, i % 2 = 1 → coord y i = coord x i)
        ∧ ∃ mx mn, (realignLeftMax S m T pd).Mem mx ∧ (realignRightMin S m T pd).Mem mn
            ∧ ∀ i, i < w → i % 2 = 0 →
                coord y i = coord x i + (coord mx i - coord mn i)
                  + (if i = u32 (m.n * 2) then 1 else 0) := by
  have hleft := leftDomainOf_mem S hpl hpl hpd hw
  have hright := rightDomainOf_mem hleft.1 hpd
  have hmap := (realign_map_rel S m T pd hpl hpd hw).2
  intro x y hxy hx
  have hxl : x.length = w := hright.1.mem_length hx
  rcases (hmap x y).1 hxy with h | ⟨_, mx, mn, hmx, hmn, rfl⟩
  · exact absurd h.1 ((hright.2 x).1 hx).2
  · have hsx := realign_extremes_shape S m T pd hpl hpd hw (Or.inl hmx)
    have hsn := realign_extremes_shape S m T pd hpl hpd hw (Or.inr hmn)
    have hl1 : (Point.add (Point.neg mn) mx).length = w := by
      rw [length_add _ _ (by rw [length_neg, hsn.1, hsx.1]), length_neg, hsn.1]
    have hl2 : (Point.add (Point.add (Point.neg mn) mx) (unitVec w (u32 (m.n * 2)))).length
        = w := by
      rw [length_add _ _ (by rw [hl1, unitVec_length]), hl1]
    have hc : ∀ i, coord (Point.add x
        (Point.add (Point.add (Point.neg mn) mx) (unitVec w (u32 (m.n * 2))))) i
        = coord x i + (coord mx i - coord mn i) + coord (unitVec w (u32 (m.n * 2))) i := by
      intro i
      rw [coord_add _ _ _ (by rw [hxl, hl2]), coord_add _ _ _ (by rw [hl1, unitVec_length]),
        coord_add _ _ _ (by rw [length_neg, hsn.1, hsx.1]), coord_neg]
      ring
    refine ⟨by rw [length_add _ _ (by rw [hxl, hl2]), hxl], ?_, mx, mn, hmx, hmn, ?_⟩
    · intro i hi
      rw [hc i, hsx.2 i hi, hsn.2 i hi]
      have hunit : coord (unitVec w (u32 (m.n * 2))) i = 0 := by
        by_cases hiw : i < w
        · rw [unitVec_coord hiw, if_neg]
          unfold u32
          omega
        · exact coord_of_ge (by rw [unitVec_length]; omega)
      rw [hunit]
      ring
    · intro i hiw _
      rw [hc i, unitVec_coord hiw]

/-- Witness of C14: in the second example region realign(L1, L2, 1) relates the
right point [1, 0, 0] to [0, 0, 1]; the two agree at every odd position. -/
theorem C14_realign_shift_witness :
    (3 + 1 < 4294967296)
      ∧ [0, 0, 1].length = 3 ∧ ∀ i, i % 2 = 1 → coord [0, 0, 1] i = coord [1, 0, 0] i := by
  have h := C14_realign_shift (ex2Scop ⟨fun p => Classical.propDecidable p⟩)
    ⟨⟨"L1"⟩, ⟨"L2"⟩, 1⟩
    (isl_set_identity (scheduleRange (ex2Scop ⟨fun p => Classical.propDecidable p⟩)))
    (isl_set_apply (scheduleRange (ex2Scop ⟨fun p => Classical.propDecidable p⟩))
      (isl_set_identity (scheduleRange (ex2Scop ⟨fun p => Classical.propDecidable p⟩))))
    3 (ex2_postLoop1_dim _) (ex2_postDomain_dim _) (by decide) [1, 0, 0] [0, 0, 1]
    ((ex2_realign_elementary _ _ _ _).2 (Or.inr ⟨rfl, rfl⟩))
    ((ex2_right_mem ⟨fun p => Classical.propDecidable p⟩ _).2 rfl)
  exact ⟨by decide, h.1, h.2.1⟩

/-- Counterexample to C14 as stated: in the second example region the unit map
of realign(L1, L2, 1) relates the right point [1, 0, 0] to [0, 0, 1].  The two
differ at position 0, which is not the position 2 * 1. -/
theorem C14_realign_shift_counterexample :
    (elementaryMap (ex2Scop ⟨fun p => Classical.propDecidable p⟩)
        (nodeType.typeRealign ⟨⟨"L1"⟩, ⟨"L2"⟩, 1⟩)
        (isl_set_identity (scheduleRange (ex2Scop ⟨fun p => Classical.propDecidable p⟩)))
        (isl_set_apply (scheduleRange (ex2Scop ⟨fun p => Classical.propDecidable p⟩))
          (isl_set_identity
            (scheduleRange (ex2Scop ⟨fun p => Classical.propDecidable p⟩))))).Rel
        [1, 0, 0] [0, 0, 1]
      ∧ (realignRight (ex2Scop ⟨fun p => Classical.propDecidable p⟩) ⟨⟨"L1"⟩, ⟨"L2"⟩, 1⟩
          (isl_set_identity (scheduleRange (ex2Scop ⟨fun p => Classical.propDecidable p⟩)))
          (isl_set_apply (scheduleRange (ex2Scop ⟨fun p => Classical.propDecidable p⟩))
            (isl_set_identity
              (scheduleRange (ex2Scop ⟨fun p => Classical.propDecidable p⟩))))).Mem [1, 0, 0]
      ∧ (0 : Nat) ≠ 2 * 1
      ∧ coord [0, 0, 1] 0 ≠ coord [1, 0, 0] 0 :=
  ⟨(ex2_realign_elementary _ _ _ _).2 (Or.inr ⟨rfl, rfl⟩),
    (ex2_right_mem ⟨fun p => Classical.propDecidable p⟩ _).2 rfl, by decide, by decide⟩

/-! ## The unit map of the case typeISplit, pointwise -/

/-- C20: the unit map of an index split.  Let T go from k to w dimensions, the
recorded domain of l have k dimensions, the domain pd have w dimensions (w + 1
a value of the type unsigned), the predicate have a dimensions with 2 * a ≤ w,
and let 2 * n < w.  The left part holds the points x of pd that scheduleLexGt
puts before a point of the post-transform domain of l, and those that lie in
that domain and carry at the positions 2 * i + 1 the coordinates of a point of
the predicate.  Every point x of pd is related to exactly one point y: to x
itself when x is in the left part, and otherwise to the point of w coordinates
with y[2 * n] = x[2 * n] + 1 and the coordinates of x everywhere else. -/
theorem C20_isplit_map (S : Scop) (is : isplitNodeType) (T : isl_map) (pd : isl_set)
    (k w a : Nat) (hT : T.HasDims k w) (hD : (S.LoopDomainMap is.l.name).HasDim k)
    (hpd : pd.HasDim w) (hP : is.pred.HasDim a) (ha : 2 * a ≤ w) (hn : 2 * is.n < w)
    (hw : w + 1 < 4294967296) :
    (∀ x, (isplitLeft S is T pd).Mem x
        ↔ pd.Mem x
          ∧ ((∃ z, (isl_set_apply (S.LoopDomainMap is.l.name) T).Mem z
                ∧ (scheduleLexGt S w ((w + 1) / 2)).Rel z x)
            ∨ ((isl_set_apply (S.LoopDomainMap is.l.name) T).Mem x
                ∧ ∃ p, is.pred.Mem p ∧ ∀ i < a, coord x (2 * i + 1) = coord p i)))
      ∧ ∀ x, pd.Mem x →
          ∃ y, (∀ y', (elementaryMap S (nodeType.typeISplit is) T pd).Rel x y' ↔ y' = y)
            ∧ ((isplitLeft S is T pd).Mem x → y = x)
            ∧ (¬ (isplitLeft S is T pd).Mem x →
                y.length = w ∧ coord y (2 * is.n) = coord x (2 * is.n) + 1
                  ∧ ∀ i, i ≠ 2 * is.n → coord y i = coord x i) := by
  have hemb : ∀ i < a, u32 (2 * i + 1) = 2 * i + 1 := fun i hi => u32_of_lt (by omega)
  have hemb' : ∀ i < a, u32 (2 * i + 1) < w := fun i hi => by rw [hemb i hi]; omega
  have hu : u32 (is.n * 2) = 2 * is.n := by rw [Nat.mul_comm]; exact u32_of_lt (by omega)
  have hparts := isplit_parts S is T pd hT hD hpd hP hemb'
  have hpl := hasDim_apply hD hT
  have hleft := leftDomainOf_mem S hpl hparts.1 hpd hw
  have hright := rightDomainOf_mem hleft.1 hpd
  have hmap := (caseISplit_map S is T pd hT hD hpd hP hemb' (by rw [hu]; exact hn) hw).2
  rw [hu] at hmap
  have hpdl : ∀ x, pd.Mem x → x.length = w := fun x hx => hpd.mem_length hx
  refine ⟨?_, ?_⟩
  · intro x
    unfold isplitLeft
    rw [leftDomainOf_lex S hpl hparts.1 hpd hw, hparts.2.1 x]
    constructor
    · rintro ⟨h1, ⟨⟨p, hp, _, hc⟩, h2⟩ | h2⟩
      · exact ⟨h1, Or.inr ⟨h2, p, hp, fun i hi => by rw [← hemb i hi]; exact hc i hi⟩⟩
      · exact ⟨h1, Or.inl h2⟩
    · rintro ⟨h1, h2 | ⟨h2, p, hp, hc⟩⟩
      · exact ⟨h1, Or.inr h2⟩
      · exact ⟨h1, Or.inl ⟨⟨p, hp, hpdl x h1, fun i hi => by rw [hemb i hi]; exact hc i hi⟩, h2⟩⟩
  · intro x hx
    have hxl := hpdl x hx
    by_cases hL : (isplitLeft S is T pd).Mem x
    · refine ⟨x, ?_, fun _ => rfl, fun h => absurd hL h⟩
      intro y'
      rw [hmap x y']
      constructor
      · rintro (h | ⟨h, _⟩)
        · exact h.2
        · exact absurd hL ((hright.2 x).1 h).2
      · rintro rfl
        exact Or.inl ⟨hL, rfl⟩
    · have hR : (rightDomainOf (leftDomainOf S (isl_set_apply (S.LoopDomainMap is.l.name) T)
          (isplitPred S is T pd) pd) pd).Mem x := (hright.2 x).2 ⟨hx, hL⟩
      have hyl : (Point.add x (unitVec w (2 * is.n))).length = w := by
        rw [length_add _ _ (by rw [hxl, unitVec_length]), hxl]
      have hyc : ∀ i, coord (Point.add x (unitVec w (2 * is.n))) i
          = coord x i + if i = 2 * is.n then 1 else 0 := by
        intro i
        rw [coord_add _ _ _ (by rw [hxl, unitVec_length])]
        by_cases hiw : i < w
        · rw [unitVec_coord hiw]
        · have h0 : coord (unitVec w (2 * is.n)) i = 0 :=
            coord_of_ge (by rw [unitVec_length]; omega)
          rw [h0, if_neg (by omega)]
      refine ⟨Point.add x (unitVec w (2 * is.n)), ?_, fun h => absurd h hL, fun _ => ⟨hyl, ?_, ?_⟩⟩
      · intro y'
        rw [hmap x y']
        constructor
        · rintro (h | ⟨_, h1, h2, h3⟩)
          · exact absurd h.1 hL
          · apply point_ext (by rw [h1, hyl])
            intro i hi
            rw [h1] at hi
            rw [hyc i]
            by_cases he : i = 2 * is.n
            · rw [if_pos he, he]
              exact h2
            · rw [if_neg he, add_zero]
              exact h3 i hi he
        · rintro rfl
          refine Or.inr ⟨hR, hyl, ?_, ?_⟩
          · rw [hyc, if_pos rfl]
          · intro i _ he
            rw [hyc, if_neg he, add_zero]
      · rw [hyc, if_pos rfl]
      · intro i he
        rw [hyc, if_neg he, add_zero]

/-- Witness of C20: the example region under the identity and the directive
isplit(L, A, B, i = 1, 0).  The point [0, 1, 0] is an instance of L with i = 1,
so it lies in the left part, and its one image is [0, 1, 0]. -/
theorem C20_isplit_map_witness :
    (2 * 1 ≤ 3 ∧ 2 * 0 < 3 ∧ 3 + 1 < 4294967296)
      ∧ ∀ y', (elementaryMap (exScop ⟨fun p => Classical.propDecidable p⟩) exSplit
            (isl_set_identity (scheduleRange (exScop ⟨fun p => Classical.propDecidable p⟩)))
            (isl_set_apply (scheduleRange (exScop ⟨fun p => Classical.propDecidable p⟩))
              (isl_set_identity
                (scheduleRange (exScop ⟨fun p => Classical.propDecidable p⟩))))).Rel
            [0, 1, 0] y'
          ↔ y' = [0, 1, 0] := by
  have h := C20_isplit_map (exScop ⟨fun p => Classical.propDecidable p⟩)
    ⟨⟨"L"⟩, ⟨"A"⟩, ⟨"B"⟩, some ⟨1, fun p => coord p 0 = 1⟩, 0⟩
    (isl_set_identity (scheduleRange (exScop ⟨fun p => Classical.propDecidable p⟩)))
    (isl_set_apply (scheduleRange (exScop ⟨fun p => Classical.propDecidable p⟩))
      (isl_set_identity (scheduleRange (exScop ⟨fun p => Classical.propDecidable p⟩))))
    3 3 1 (hasDims_identity (exScop_range_dim _)) ⟨_, rfl, rfl⟩
    (hasDim_apply (exScop_range_dim _) (hasDims_identity (exScop_range_dim _)))
    ⟨_, rfl, rfl⟩ (by decide) (by decide) (by decide)
  have hpd := (ex_postDomain_mem ⟨fun p => Classical.propDecidable p⟩ [0, 1, 0]).2 (Or.inr rfl)
  have hL := (h.1 [0, 1, 0]).2 ⟨hpd, Or.inr
    ⟨(ex_postLoop_mem ⟨fun p => Classical.propDecidable p⟩ [0, 1, 0]).2 (Or.inr rfl),
      [1], ⟨rfl, rfl⟩, fun i hi => by
        have hi0 : i = 0 := Nat.lt_one_iff.1 hi
        subst hi0
        rfl⟩⟩
  obtain ⟨y, hy, hyl, _⟩ := h.2 [0, 1, 0] hpd
  refine ⟨⟨by decide, by decide, by decide⟩, ?_⟩
  intro y'
  have hy' := hy y'
  rw [hyl hL] at hy'
  exact hy'

/-! ## Realign and its second label -/

/-- The region after a directive: the region of the case, or the region as it
was when the case returns early. -/
theorem applyUnitTransform_snd {yyparse : String → Option nodeType} {S : Scop} {str : String}
    {T : isl_map} {stmt : nodeType} (hp : yyparse str = some stmt) :
    (applyUnitTransform yyparse S str T).2
      = match unitMap S stmt T (isl_set_apply (scheduleRange S) T) with
        | none => S
        | some (_, S') => S' := by
  unfold applyUnitTransform
  rw [hp]
  dsimp only
  cases unitMap S stmt T (isl_set_apply (scheduleRange S) T) with
  | none => rfl
  | some r => rfl

/-- C25: realign does not depend on its second label.  For every region, every
transform T, every first label l1 and depth n, and any two second labels l2 and
l2', the directives Realign(l1, l2, n) and Realign(l1, l2', n) return the same
transform and the same region.  The transform does not depend on the domain
recorded for l2 either, when l2 is another label than l1. -/
theorem C25_realign_second_label (yyparse : String → Option nodeType) (S : Scop)
    (str1 str2 : String) (T : isl_map) (l1 l2 l2' : varNodeType) (n : Nat)
    (hp1 : yyparse str1 = some (nodeType.typeRealign ⟨l1, l2, n⟩))
    (hp2 : yyparse str2 = some (nodeType.typeRealign ⟨l1, l2', n⟩)) :
    applyUnitTransform yyparse S str1 T = applyUnitTransform yyparse S str2 T
      ∧ ∀ D' : isl_set, l2.name ≠ l1.name →
          (applyUnitTransform yyparse
            { S with LoopDomainMap := Function.update S.LoopDomainMap l2.name D' } str1 T).1
            = (applyUnitTransform yyparse S str1 T).1 := by
  refine ⟨?_, ?_⟩
  · unfold applyUnitTransform
    rw [hp1, hp2]
    simp only [unitMap, caseRealign_eq]
  · intro D' hne
    unfold applyUnitTransform
    rw [hp1]
    simp only [unitMap, caseRealign_eq, Function.update_noteq hne.symm]
    by_cases hc : ((S.LoopDomainMap l1.name).isNone || (S.LoopDomainMap l1.name).isNone) = true
    · simp only [hc, if_true]
    · simp only [hc, if_false]
      rfl

/-- Witness of C25: on the second example region the lines realign(L1, LX, 1),
whose second label has no metadata, and realign(L1, L2, 1) return the same
transform and region. -/
theorem C25_realign_second_label_witness :
    (ex2Parse "realign(L1, LX, 1)" = some (nodeType.typeRealign ⟨⟨"L1"⟩, ⟨"LX"⟩, 1⟩)
        ∧ ex2Parse "realign(L1, L2, 1)" = some (nodeType.typeRealign ⟨⟨"L1"⟩, ⟨"L2"⟩, 1⟩))
      ∧ applyUnitTransform ex2Parse (ex2Scop ⟨fun p => Classical.propDecidable p⟩)
          "realign(L1, LX, 1)"
          (isl_set_identity (scheduleRange (ex2Scop ⟨fun p => Classical.propDecidable p⟩)))
        = applyUnitTransform ex2Parse (ex2Scop ⟨fun p => Classical.propDecidable p⟩)
          "realign(L1, L2, 1)"
          (isl_set_identity (scheduleRange (ex2Scop ⟨fun p => Classical.propDecidable p⟩))) :=
  ⟨⟨rfl, rfl⟩,
    (C25_realign_second_label ex2Parse (ex2Scop ⟨fun p => Classical.propDecidable p⟩)
      "realign(L1, LX, 1)" "realign(L1, L2, 1)"
      (isl_set_identity (scheduleRange (ex2Scop ⟨fun p => Classical.propDecidable p⟩)))
      ⟨"L1"⟩ ⟨"LX"⟩ ⟨"L2"⟩ 1 rfl rfl).1⟩

/-! ## The domain of the cumulative transform -/

/-- The schedule range depends on the statements of the region only. -/
theorem scheduleRange_congr {S S' : Scop} (h : S'.stmts = S.stmts) :
    scheduleRange S' = scheduleRange S := by
  unfold scheduleRange Scop.getSchedule Scop.getDomains
  rw [h]

/-- A directive relates only points that the ambient transform relates to some point. -/
theorem applyUnitTransform_domain (yyparse : String → Option nodeType) (S : Scop) (str : String)
    (T : isl_map) (x z : Point) (h : (applyUnitTransform yyparse S str T).1.Rel x z) :
    ∃ y, T.Rel x y := by
  unfold applyUnitTransform at h
  cases hp : yyparse str with
  | none =>
    rw [hp] at h
    exact ⟨z, h⟩
  | some stmt =>
    rw [hp] at h
    cases hu : unitMap S stmt T (isl_set_apply (scheduleRange S) T) with
    | none =>
      simp only [hu] at h
      exact ⟨z, h⟩
    | some r =>
      simp only [hu, isl_map_align_params, isl_map_coalesce] at h
      rw [rel_apply_range] at h
      obtain ⟨y, hy, _⟩ := h
      exact ⟨y, hy⟩

/-- Over a script the domain of the transform stays within a set that holds it at the start. -/
theorem foldl_lines_domain (yyparse : String → Option nodeType) (P : Point → Prop)
    (lines : List String) :
    ∀ acc : isl_map × Scop, (∀ x z, acc.1.Rel x z → P x) →
      ∀ x z, (lines.foldl (fun (acc : isl_map × Scop) line =>
          if !(isComment line) then applyUnitTransform yyparse acc.2 line acc.1 else acc)
          acc).1.Rel x z → P x := by
  induction lines with
  | nil => intro acc h; exact h
  | cons l rest ih =>
    intro acc h
    rw [List.foldl_cons]
    apply ih
    intro x z hxz
    by_cases hc : isComment l = true
    · simp only [hc, Bool.not_true, Bool.false_eq_true, if_false] at hxz
      exact h x z hxz
    · simp only [hc, Bool.not_false, if_true] at hxz
      obtain ⟨y, hy⟩ := applyUnitTransform_domain yyparse acc.2 l acc.1 x z hxz
      exact h x y hy

/-- The transform of a script relates only points of the schedule range. -/
theorem getTransform_domain (yyparse : String → Option nodeType) (src : Option (List String))
    (S : Scop) (x z : Point) (h : (getTransform yyparse src S).1.Rel x z) :
    (scheduleRange S).Mem x := by
  have h0 : ∀ x z, (isl_set_identity (scheduleRange S)).Rel x z → (scheduleRange S).Mem x :=
    fun x z hxz => ((rel_identity _ _ _).1 hxz).1
  unfold getTransform at h
  cases src with
  | none => exact h0 x z h
  | some lines =>
    exact foldl_lines_domain yyparse (fun x => (scheduleRange S).Mem x) lines
      (isl_set_identity (scheduleRange S), S) h0 x z h

/-- C26: the domain of the cumulative transform never grows.  Whatever the line
is (no directive, a skipped directive or any of the four kinds), a point that
the transform returned by applyUnitTransform relates to some point is related
to some point by the ambient transform T.  Hence for every script the transform
of getTransform relates only points of the schedule range of the region; and
after every script the domain after the transform, which the next step
computes as the image of the schedule range, holds exactly the points of the
range of the transform. -/
theorem C26_domain_never_grows (yyparse : String → Option nodeType) (S : Scop) :
    (∀ str T x z, (applyUnitTransform yyparse S str T).1.Rel x z → ∃ y, T.Rel x y)
      ∧ (∀ src x z, (getTransform yyparse src S).1.Rel x z → (scheduleRange S).Mem x)
      ∧ ∀ src y,
          (isl_set_apply (scheduleRange (getTransform yyparse src S).2)
            (getTransform yyparse src S).1).Mem y
          ↔ ∃ x, (getTransform yyparse src S).1.Rel x y := by
  refine ⟨fun str T x z h => applyUnitTransform_domain yyparse S str T x z h,
    fun src x z h => getTransform_domain yyparse src S x z h, ?_⟩
  intro src y
  rw [scheduleRange_congr (getTransform_frame yyparse src S).1, mem_apply]
  constructor
  · rintro ⟨x, _, h⟩
    exact ⟨x, h⟩
  · rintro ⟨x, h⟩
    exact ⟨x, getTransform_domain yyparse src S x y h, h⟩

/-! ## The label metadata after a directive -/

/-- C24: label-metadata frame.  A realign directive leaves the recorded domains
and depths of all labels as they were.  An index split leaves the domain and
depth of every label other than r1 and r2, and, when l has metadata, records
the depth of l for r1 and for r2.  An affine remap leaves all recorded domains
and the depth of every label other than l.  A lift leaves the domain and depth
of every label other than r, and, when l has metadata, records the depth of l
for r. -/
theorem C24_metadata_frame (yyparse : String → Option nodeType) (S : Scop) (str : String)
    (T : isl_map) (stmt : nodeType) (hp : yyparse str = some stmt) :
    match stmt with
    | nodeType.typeRealign _ =>
      (applyUnitTransform yyparse S str T).2.LoopDomainMap = S.LoopDomainMap
        ∧ (applyUnitTransform yyparse S str T).2.LoopDimMap = S.LoopDimMap
    | nodeType.typeISplit is =>
      (∀ lab, lab ≠ is.r1.name → lab ≠ is.r2.name →
          (applyUnitTransform yyparse S str T).2.LoopDomainMap lab = S.LoopDomainMap lab
          ∧ (applyUnitTransform yyparse S str T).2.LoopDimMap lab = S.LoopDimMap lab)
        ∧ ((S.LoopDomainMap is.l.name).isSome = true →
          (applyUnitTransform yyparse S str T).2.LoopDimMap is.r1.name = S.LoopDimMap is.l.name
          ∧ (applyUnitTransform yyparse S str T).2.LoopDimMap is.r2.name = S.LoopDimMap is.l.name)
    | nodeType.typeAffine a =>
      (applyUnitTransform yyparse S str T).2.LoopDomainMap = S.LoopDomainMap
        ∧ ∀ lab, lab ≠ a.l.name →
          (applyUnitTransform yyparse S str T).2.LoopDimMap lab = S.LoopDimMap lab
    | nodeType.typeLift l =>
      (∀ lab, lab ≠ l.r.name →
          (applyUnitTransform yyparse S str T).2.LoopDomainMap lab = S.LoopDomainMap lab
          ∧ (applyUnitTransform yyparse S str T).2.LoopDimMap lab = S.LoopDimMap lab)
        ∧ ((S.LoopDomainMap l.l.name).isSome = true →
          (applyUnitTransform yyparse S str T).2.LoopDimMap l.r.name = S.LoopDimMap l.l.name) := by
  rw [applyUnitTransform_snd hp]
  cases stmt with
  | typeRealign m =>
    simp only [unitMap]
    cases hc : caseRealign S m T (isl_set_apply (scheduleRange S) T) with
    | none => exact ⟨rfl, rfl⟩
    | some r =>
      obtain ⟨map, S'⟩ := r
      rw [caseRealign_frame hc]
      exact ⟨rfl, rfl⟩
  | typeISplit is =>
    simp only [unitMap]
    cases hc : caseISplit S is T (isl_set_apply (scheduleRange S) T) with
    | none =>
      refine ⟨fun _ _ _ => ⟨rfl, rfl⟩, ?_⟩
      intro hl
      have hs := caseISplit_isSome S is T (isl_set_apply (scheduleRange S) T)
      rw [hc, hl] at hs
      exact absurd hs (by simp)
    | some r =>
      obtain ⟨map, S'⟩ := r
      obtain ⟨h1, h2⟩ := caseISplit_metadata hc
      simp only [h1, h2]
      refine ⟨?_, ?_⟩
      · intro lab hn1 hn2
        simp only [Function.update_noteq hn2, Function.update_noteq hn1, and_self]
      · intro _
        refine ⟨?_, ?_⟩
        · by_cases h12 : is.r1.name = is.r2.name
          · rw [h12, Function.update_same]
            by_cases hl : is.l.name = is.r2.name
            · rw [hl, Function.update_same]
            · rw [Function.update_noteq hl]
          · rw [Function.update_noteq h12, Function.update_same]
        · rw [Function.update_same]
          by_cases hl : is.l.name = is.r1.name
          · rw [hl, Function.update_same]
          · rw [Function.update_noteq hl]
  | typeAffine a =>
    simp only [unitMap, caseAffine_eq]
    by_cases hn : (S.LoopDomainMap a.l.name).isNone = true
    · rw [if_pos hn]
      exact ⟨rfl, fun _ _ => rfl⟩
    · rw [if_neg hn]
      exact ⟨rfl, fun lab hne => Function.update_noteq hne _ _⟩
  | typeLift l =>
    simp only [unitMap, caseLift_eq]
    by_cases hn : (S.LoopDomainMap l.l.name).isNone = true
    · rw [if_pos hn]
      refine ⟨fun _ _ => ⟨rfl, rfl⟩, ?_⟩
      intro hl
      rw [Option.isNone_iff_eq_none] at hn
      rw [hn] at hl
      exact absurd hl (by simp)
    · rw [if_neg hn]
      refine ⟨fun lab hne => ⟨Function.update_noteq hne _ _, Function.update_noteq hne _ _⟩, ?_⟩
      intro _
      exact Function.update_same _ _ _

/-- Witness of C24: on the example region the line isplit(L, A, B, i = 1, 0)
records the depth 1 of L for A and for B and leaves the domain of L. -/
theorem C24_metadata_frame_witness :
    exParse "isplit(L, A, B, i = 1, 0)"
        = some (nodeType.typeISplit ⟨⟨"L"⟩, ⟨"A"⟩, ⟨"B"⟩, some ⟨1, fun p => coord p 0 = 1⟩, 0⟩)
      ∧ (applyUnitTransform exParse (exScop ⟨fun p => Classical.propDecidable p⟩)
          "isplit(L, A, B, i = 1, 0)"
          (isl_set_identity (scheduleRange (exScop ⟨fun p => Classical.propDecidable p⟩)))
          ).2.LoopDimMap "A" = 1
      ∧ (applyUnitTransform exParse (exScop ⟨fun p => Classical.propDecidable p⟩)
          "isplit(L, A, B, i = 1, 0)"
          (isl_set_identity (scheduleRange (exScop ⟨fun p => Classical.propDecidable p⟩)))
          ).2.LoopDimMap "B" = 1
      ∧ (applyUnitTransform exParse (exScop ⟨fun p => Classical.propDecidable p⟩)
          "isplit(L, A, B, i = 1, 0)"
          (isl_set_identity (scheduleRange (exScop ⟨fun p => Classical.propDecidable p⟩)))
          ).2.LoopDomainMap "L"
        = (exScop ⟨fun p => Classical.propDecidable p⟩).LoopDomainMap "L" := by
  have h := C24_metadata_frame exParse (exScop ⟨fun p => Classical.propDecidable p⟩)
    "isplit(L, A, B, i = 1, 0)"
    (isl_set_identity (scheduleRange (exScop ⟨fun p => Classical.propDecidable p⟩)))
    (nodeType.typeISplit ⟨⟨"L"⟩, ⟨"A"⟩, ⟨"B"⟩, some ⟨1, fun p => coord p 0 = 1⟩, 0⟩) rfl
  exact ⟨rfl, (h.2 rfl).1, (h.2 rfl).2, (h.1 "L" (by decide) (by decide)).1⟩

/-! ## Affine remap with fewer output than input coordinates -/

/-- A map that isl_map_fix_si returns has the dimensions of its argument, and
the fixed position lies in its range. -/
theorem fix_some {m : isl_map} {p : Nat} {c : Int} {v : MapVal}
    (h : isl_map_fix_si m isl_dim_out p c = some v) :
    ∃ u, m = some u ∧ u.nIn = v.nIn ∧ u.nOut = v.nOut ∧ p < v.nOut := by
  cases m with
  | none => exact absurd h (by simp [isl_map_fix_si])
  | some m0 =>
    simp only [isl_map_fix_si] at h
    split at h
    · rename_i hp
      simp only [Option.some.injEq] at h
      subst h
      exact ⟨m0, rfl, rfl, rfl, hp⟩
    · exact absurd h (by simp)

/-- A fold of isl_map_fix_si that ends in a map began at a map of the same
dimensions, and every fixed position lies in the range of that map. -/
theorem foldl_fix_some (f : Nat → Nat) (L : List Nat) :
    ∀ (m : isl_map) (v : MapVal),
      L.foldl (fun t i => isl_map_fix_si t isl_dim_out (f i) 0) m = some v →
      (∃ u, m = some u ∧ u.nIn = v.nIn ∧ u.nOut = v.nOut) ∧ ∀ i ∈ L, f i < v.nOut := by
  induction L with
  | nil =>
    intro m v h
    exact ⟨⟨v, h, rfl, rfl⟩, fun i hi => absurd hi (List.not_mem_nil i)⟩
  | cons i rest ih =>
    intro m v h
    rw [List.foldl_cons] at h
    obtain ⟨⟨u, hu, h1, h2⟩, hb⟩ := ih _ v h
    obtain ⟨u0, hu0, h3, h4, h5⟩ := fix_some hu
    refine ⟨⟨u0, hu0, h3.trans h1, h4.trans h2⟩, ?_⟩
    intro j hj
    rcases List.mem_cons.1 hj with rfl | hj
    · rw [← h2]
      exact h5
    · exact hb j hj

theorem apply_range_some {m t : isl_map} {v : MapVal} (h : isl_map_apply_range m t = some v) :
    ∃ mv tv, m = some mv ∧ t = some tv ∧ mv.nIn = v.nIn ∧ tv.nOut = v.nOut := by
  cases m with
  | none => exact absurd h (by simp [isl_map_apply_range])
  | some mv =>
    cases t with
    | none => exact absurd h (by simp [isl_map_apply_range])
    | some tv =>
      simp only [isl_map_apply_range] at h
      split at h
      · simp only [Option.some.injEq] at h
        subst h
        exact ⟨mv, tv, rfl, rfl, rfl, rfl⟩
      · exact absurd h (by simp)

/-- A map that iterToScheduleMap returns goes to the schedule size. -/
theorem iterToScheduleMap_some {S : Scop} {a w : Nat} {v : MapVal}
    (h : iterToScheduleMap S a w = some v) : v.nIn = a ∧ v.nOut = w := by
  unfold iterToScheduleMap isl_map_align_params at h
  obtain ⟨u, hu, h1, h2⟩ := foldl_equate_dims _ _ _ _ _ h
  simp only [isl_map_from_domain_and_range, isl_set_universe, isl_space_set_alloc,
    Option.some.injEq] at hu
  subst hu
  exact ⟨h1.symm, h2.symm⟩

/-- What a map amap of the case typeAffine that is not NULL tells: its output
width is the new schedule width, the embedding of the output of the relation
exists, and the positions of the new band markers lie in the new width. -/
theorem affineMap_some {S : Scop} {a : affineNodeType} {pd : isl_set} {v : MapVal}
    (h : affineMap S a pd = some v) :
    v.nOut = affineOutDim S a pd
      ∧ (∃ tv, iterToScheduleMap S (isl_map_dim a.trans isl_dim_out) (affineOutDim S a pd)
          = some tv)
      ∧ ∀ i ∈ evenBelow (affineOffset a),
          u32 (u32 (isl_map_dim a.trans isl_dim_in * 2) + i) < affineOutDim S a pd := by
  unfold affineMap at h
  dsimp only at h
  obtain ⟨⟨u4, hu4, _, h4⟩, _⟩ := foldl_fix_some _ _ _ _ h
  obtain ⟨⟨u3, hu3, _, h3⟩, hb3⟩ := foldl_fix_some _ _ _ _ hu4
  obtain ⟨u2, hu2, _, h2⟩ := foldl_equate_dims _ _ _ _ _ hu3
  obtain ⟨u1, hu1, _, h1⟩ := foldl_equate_dims _ _ _ _ _ hu2
  obtain ⟨mv, tv, _, htv, _, h0⟩ := apply_range_some hu1
  have hw := (iterToScheduleMap_some htv).2
  have hout : v.nOut = affineOutDim S a pd := by
    rw [← h4, ← h3, ← h2, ← h1, ← h0, hw]
  refine ⟨hout, ⟨tv, htv⟩, ?_⟩
  intro i hi
  have := hb3 i hi
  rw [h4, hout] at this
  exact this

/-- General form of the depth that the case typeAffine records for a relation
with fewer output than input coordinates: the subtraction wraps around. -/
theorem affineNewDim_shrink (S : Scop) (af : affineNodeType) (a b d : Nat)
    (ha : isl_map_dim af.trans isl_dim_in = a) (hb : isl_map_dim af.trans isl_dim_out = b)
    (hd : S.LoopDimMap af.l.name = d) (hba : b < a) (ha31 : a < 2147483648) :
    affineOffset af = 4294967296 - 2 * (a - b)
      ∧ affineNewDim S af = u32 (d + (2147483648 - (a - b))) := by
  have hoff : affineOffset af = 4294967296 - 2 * (a - b) := by
    unfold affineOffset u32sub u32
    rw [ha, hb]
    omega
  refine ⟨hoff, ?_⟩
  unfold affineNewDim
  rw [hoff, hd]
  congr 1
  omega

theorem ex3Scop_range_dim (ctx : isl_ctx) : (scheduleRange (ex3Scop ctx)).HasDim 7 :=
  ⟨_, rfl, rfl⟩

/-- C21, the failing input: the third example region, whose label L3 has depth 3
in a schedule of width 7, and the directive affine(L3, [i, j] -> [i]) with two
input coordinates and one output coordinate.  The new width is 7, as the worked
example in the source says, but the depth recorded for L3 is 2147483650 and not
3 - 2 + 1 = 2: the difference 1 - 2 wraps around in the type unsigned, offset is
4294967294 and offset / 2 is 2147483647.  The transform that comes back is
NULL. -/
theorem C21_affine_depth_wraps (ctx : isl_ctx) :
    ex3Parse "affine(L3, [i, j] -> [i])"
        = some (nodeType.typeAffine ⟨⟨"L3"⟩, some ⟨2, 1, fun x y => y = [coord x 0]⟩⟩)
      ∧ (ex3Scop ctx).LoopDimMap "L3" = 3
      ∧ isl_set_dim (isl_set_apply (scheduleRange (ex3Scop ctx))
          (isl_set_identity (scheduleRange (ex3Scop ctx)))) isl_dim_set = 7
      ∧ affineOutDim (ex3Scop ctx) ⟨⟨"L3"⟩, some ⟨2, 1, fun x y => y = [coord x 0]⟩⟩
          (isl_set_apply (scheduleRange (ex3Scop ctx))
            (isl_set_identity (scheduleRange (ex3Scop ctx)))) = 7
      ∧ (applyUnitTransform ex3Parse (ex3Scop ctx) "affine(L3, [i, j] -> [i])"
          (isl_set_identity (scheduleRange (ex3Scop ctx)))).2.LoopDimMap "L3" = 2147483650
      ∧ (2147483650 : Nat) ≠ 3 - 2 + 1
      ∧ (applyUnitTransform ex3Parse (ex3Scop ctx) "affine(L3, [i, j] -> [i])"
          (isl_set_identity (scheduleRange (ex3Scop ctx)))).1 = none := by
  have hd : isl_set_dim (isl_set_apply (scheduleRange (ex3Scop ctx))
      (isl_set_identity (scheduleRange (ex3Scop ctx)))) isl_dim_set = 7 :=
    isl_set_dim_of_hasDim (hasDim_apply (ex3Scop_range_dim ctx)
      (hasDims_identity (ex3Scop_range_dim ctx)))
  have hout : affineOutDim (ex3Scop ctx) ⟨⟨"L3"⟩, some ⟨2, 1, fun x y => y = [coord x 0]⟩⟩
      (isl_set_apply (scheduleRange (ex3Scop ctx))
        (isl_set_identity (scheduleRange (ex3Scop ctx)))) = 7 := by
    have hoff := (affineNewDim_shrink (ex3Scop ctx)
      ⟨⟨"L3"⟩, some ⟨2, 1, fun x y => y = [coord x 0]⟩⟩ 2 1 3 rfl rfl rfl (by decide)
      (by decide)).1
    unfold affineOutDim
    rw [hoff, hd]
    have h3 : (ex3Scop ctx).LoopDimMap "L3" = 3 := rfl
    simp only [h3]
    decide
  have hnull : affineMap (ex3Scop ctx) ⟨⟨"L3"⟩, some ⟨2, 1, fun x y => y = [coord x 0]⟩⟩
      (isl_set_apply (scheduleRange (ex3Scop ctx))
        (isl_set_identity (scheduleRange (ex3Scop ctx)))) = none := by
    cases hm : affineMap (ex3Scop ctx) ⟨⟨"L3"⟩, some ⟨2, 1, fun x y => y = [coord x 0]⟩⟩
        (isl_set_apply (scheduleRange (ex3Scop ctx))
          (isl_set_identity (scheduleRange (ex3Scop ctx)))) with
    | none => rfl
    | some v =>
      have h4 := (affineMap_some hm).2.2 4 ((mem_evenBelow _ _).2 ⟨by decide, by decide⟩)
      rw [hout] at h4
      exact absurd h4 (by decide)
  refine ⟨rfl, rfl, hd, hout, ?_, by decide, ?_⟩
  · rw [@applyUnitTransform_affine ex3Parse (ex3Scop ctx) "affine(L3, [i, j] -> [i])" _
      ⟨⟨"L3"⟩, some ⟨2, 1, fun x y => y = [coord x 0]⟩⟩ rfl rfl]
    simp only [Function.update_same]
    rw [(affineNewDim_shrink (ex3Scop ctx)
      ⟨⟨"L3"⟩, some ⟨2, 1, fun x y => y = [coord x 0]⟩⟩ 2 1 3 rfl rfl rfl (by decide)
      (by decide)).2]
    decide
  · have hfst := @applyUnitTransform_fst ex3Parse (ex3Scop ctx) "affine(L3, [i, j] -> [i])"
      (isl_set_identity (scheduleRange (ex3Scop ctx))) exShrink rfl rfl
    rw [hfst]
    have hE : elementaryMap (ex3Scop ctx) exShrink
        (isl_set_identity (scheduleRange (ex3Scop ctx)))
        (isl_set_apply (scheduleRange (ex3Scop ctx))
          (isl_set_identity (scheduleRange (ex3Scop ctx)))) = none := by
      unfold elementaryMap exShrink
      simp only [unitMap, caseAffine_eq, hnull]
      rfl
    rw [hE]
    rfl

/-! ## The new schedule width of the affine remap -/

/-- The value offset of the case typeAffine when the relation has at least as
many output as input coordinates and nothing wraps around. -/
theorem affineOffset_grow {af : affineNodeType} {a b : Nat}
    (ha : isl_map_dim af.trans isl_dim_in = a) (hb : isl_map_dim af.trans isl_dim_out = b)
    (hab : a ≤ b) (hb32 : b < 4294967296) (hoff : 2 * (b - a) < 4294967296) :
    affineOffset af = 2 * (b - a) := by
  unfold affineOffset
  rw [ha, hb, u32sub_of_le hab hb32, Nat.mul_comm]
  exact u32_of_lt hoff

/-- What a unit map of the case typeAffine that is not NULL tells about its parts. -/
theorem elementaryMap_affine_some {S : Scop} {af : affineNodeType} {T : isl_map} {pd : isl_set}
    {m : MapVal} (h : elementaryMap S (nodeType.typeAffine af) T pd = some m) :
    (isl_set_apply (S.LoopDomainMap af.l.name) T).HasDim m.nIn
      ∧ pd.HasDim m.nIn
      ∧ m.nOut = affineOutDim S af pd
      ∧ (affineMap S af pd).HasDims m.nIn m.nOut
      ∧ ∀ x y, m.Rel x y
          ↔ ((affineMap S af pd).Rel x y
              ∧ (isl_set_apply (S.LoopDomainMap af.l.name) T).Mem x ∧ pd.Mem x)
            ∨ (affineRest S af T pd).Rel x y := by
  unfold elementaryMap at h
  simp only [unitMap, caseAffine_eq] at h
  by_cases hnone : (S.LoopDomainMap af.l.name).isNone = true
  · rw [if_pos hnone] at h
    exact absurd h (by simp)
  · rw [if_neg hnone] at h
    simp only at h
    obtain ⟨hA, hC⟩ := hasDims_of_union h
    obtain ⟨vA, hvA, hA1, hA2⟩ := hA
    obtain ⟨hA3, hpd⟩ := intersect_domain_some hvA
    obtain ⟨vB, hvB, hB1, hB2⟩ := hA3
    obtain ⟨hM, hpl⟩ := intersect_domain_some hvB
    rw [hB1, hA1] at hpl hM
    rw [hB2, hA2] at hM
    rw [hA1] at hpd
    have hrest := affineRest_rel S af T pd hpl hpd
    have hnOut : m.nOut = affineOutDim S af pd := by
      obtain ⟨vC, hvC, _, hC2⟩ := hC
      obtain ⟨vC', hvC', _, hC2'⟩ := hrest.1
      rw [hvC, Option.some.injEq] at hvC'
      rw [← hC2, hvC', hC2']
    refine ⟨hpl, hpd, hnOut, hM, ?_⟩
    intro x y
    have hu := rel_union (⟨vA, hvA, hA1, hA2⟩ : (isl_map_intersect_domain
      (isl_map_intersect_domain (affineMap S af pd)
        (isl_set_apply (S.LoopDomainMap af.l.name) T)) pd).HasDims m.nIn m.nOut) hC x y
    rw [h] at hu
    rw [show m.Rel x y ↔ isl_map.Rel (some m) x y from Iff.rfl, hu, rel_intersect_domain,
      rel_intersect_domain, and_assoc]

/-- C22: affine remap never shrinks the schedule width.  For a relation of input
arity a and output arity b, a label of recorded depth d and a domain of width
w, the new width schOutDim is at least w, whatever a, b and d are.  A unit map
that is not NULL goes from w to schOutDim dimensions.  When a ≤ b and nothing
wraps around (b and 2 * d + 1 + 2 * (b - a) are values of the type unsigned),
schOutDim is the maximum of w and 2 * d + 1 + 2 * (b - a). -/
theorem C22_affine_width (S : Scop) (af : affineNodeType) (T : isl_map) (pd : isl_set)
    (a b d w : Nat)
    (ha : isl_map_dim af.trans isl_dim_in = a) (hb : isl_map_dim af.trans isl_dim_out = b)
    (hd : S.LoopDimMap af.l.name = d) (hw : isl_set_dim pd isl_dim_set = w) :
    w ≤ affineOutDim S af pd
      ∧ (∀ m, elementaryMap S (nodeType.typeAffine af) T pd = some m →
          m.nIn = w ∧ m.nOut = affineOutDim S af pd ∧ w ≤ m.nOut)
      ∧ (a ≤ b → b < 4294967296 → 2 * d + 1 + 2 * (b - a) < 4294967296 →
          affineOutDim S af pd = max w (2 * d + 1 + 2 * (b - a))) := by
  have hge := affineOutDim_ge S af pd
  rw [hw] at hge
  refine ⟨hge, ?_, ?_⟩
  · intro m hm
    obtain ⟨_, hpd, hout, _, _⟩ := elementaryMap_affine_some hm
    have hin : m.nIn = w := by rw [← hw, isl_set_dim_of_hasDim hpd]
    exact ⟨hin, hout, by rw [hout]; exact hge⟩
  · intro hab hb32 hnw
    have hoff := affineOffset_grow ha hb hab hb32 (by omega)
    unfold affineOutDim
    rw [hoff, hd, hw, u32_of_lt (by omega)]
    by_cases h : d * 2 + 1 + 2 * (b - a) > w
    · rw [if_pos h, Nat.max_def, if_pos (by omega)]
      omega
    · rw [if_neg h, Nat.max_def]
      split <;> omega

/-- Witness of C22: depth 3, width 7 and a relation from 2 to 4 coordinates give
the new width max 7 (2 * 3 + 1 + 2 * (4 - 2)), which is 11. -/
theorem C22_affine_width_witness :
    (isl_map_dim (some ⟨2, 4, fun x y => y = [coord x 0, coord x 1, 0, 0]⟩ : isl_map) isl_dim_in = 2
        ∧ (ex3Scop ⟨fun p => Classical.propDecidable p⟩).LoopDimMap "L3" = 3
        ∧ (2 : Nat) ≤ 4 ∧ 2 * 3 + 1 + 2 * (4 - 2) < 4294967296)
      ∧ affineOutDim (ex3Scop ⟨fun p => Classical.propDecidable p⟩)
          ⟨⟨"L3"⟩, some ⟨2, 4, fun x y => y = [coord x 0, coord x 1, 0, 0]⟩⟩
          (isl_set_apply (scheduleRange (ex3Scop ⟨fun p => Classical.propDecidable p⟩))
            (isl_set_identity (scheduleRange (ex3Scop ⟨fun p => Classical.propDecidable p⟩))))
        = max 7 (2 * 3 + 1 + 2 * (4 - 2)) :=
  ⟨⟨rfl, rfl, by decide, by decide⟩,
    (C22_affine_width (ex3Scop ⟨fun p => Classical.propDecidable p⟩)
      ⟨⟨"L3"⟩, some ⟨2, 4, fun x y => y = [coord x 0, coord x 1, 0, 0]⟩⟩
      (isl_set_identity (scheduleRange (ex3Scop ⟨fun p => Classical.propDecidable p⟩)))
      (isl_set_apply (scheduleRange (ex3Scop ⟨fun p => Classical.propDecidable p⟩))
        (isl_set_identity (scheduleRange (ex3Scop ⟨fun p => Classical.propDecidable p⟩))))
      2 4 3 7 rfl rfl rfl
      (isl_set_dim_of_hasDim (hasDim_apply (ex3Scop_range_dim _)
        (hasDims_identity (ex3Scop_range_dim _))))).2.2 (by decide) (by decide) (by decide)⟩

/-! ## The map amap of the case typeAffine -/

theorem oddCoords_length (n : Nat) (x : Point) : (oddCoords n x).length = n := by
  simp [oddCoords]

theorem oddCoords_coord {n i : Nat} (x : Point) (hi : i < n) :
    coord (oddCoords n x) i = coord x (2 * i + 1) := by
  simp [oddCoords, coord, hi]

/-- Members of a loop range cut at the first index that fails a test, when below
the end of the range the test can only fail from some index on. -/
theorem mem_takeWhile_range (p : Nat → Bool) (e : Nat)
    (hp : ∀ i j, i ≤ j → j < e → p j = true → p i = true) :
    ∀ (n s i : Nat), s + n = e →
      (i ∈ (List.range' s n).takeWhile p ↔ s ≤ i ∧ i < e ∧ p i = true)
  | 0, s, i, he => by
    simp only [List.range'_zero, List.takeWhile_nil, List.not_mem_nil, false_iff]
    omega
  | n + 1, s, i, he => by
    rw [List.range'_succ, List.takeWhile_cons]
    by_cases hs : p s = true
    · rw [if_pos hs, List.mem_cons, mem_takeWhile_range p e hp n (s + 1) i (by omega)]
      constructor
      · rintro (rfl | ⟨h1, h2, h3⟩)
        · exact ⟨Nat.le_refl _, by omega, hs⟩
        · exact ⟨by omega, h2, h3⟩
      · rintro ⟨h1, h2, h3⟩
        by_cases hi : i = s
        · exact Or.inl hi
        · exact Or.inr ⟨by omega, h2, h3⟩
    · rw [if_neg hs]
      simp only [List.not_mem_nil, false_iff]
      rintro ⟨h1, h2, h3⟩
      exact hs (hp s i h1 h2 h3)

/-- What the map amap of the case typeAffine relates, before its restriction to
the loop and to the domain, when the relation has at least as many output as
input coordinates, the embeddings fit and nothing wraps around. -/
theorem affineMap_rel (S : Scop) (af : affineNodeType) (pd : isl_set) {a b w : Nat}
    (htr : af.trans.HasDims a b) (hab : a ≤ b) (hpd : pd.HasDim w) (h2a : 2 * a ≤ w)
    (h2b : 2 * b ≤ affineOutDim S af pd) (hnw : w + 2 * (b - a) < 4294967296) :
    (affineMap S af pd).HasDims w (affineOutDim S af pd)
      ∧ ∀ x y, (affineMap S af pd).Rel x y
          ↔ x.length = w ∧ y.length = affineOutDim S af pd
            ∧ af.trans.Rel (oddCoords a x) (oddCoords b y)
            ∧ (∀ k < a, coord y (2 * k) = coord x (2 * k))
            ∧ (∀ i, 2 * a ≤ i → i < w → i + 2 * (b - a) < affineOutDim S af pd →
                coord y (i + 2 * (b - a)) = coord x i)
            ∧ (∀ i, i < 2 * (b - a) → i % 2 = 0 → coord y (2 * a + i) = 0)
            ∧ ∀ i, w + 2 * (b - a) ≤ i → i < affineOutDim S af pd → coord y i = 0 := by
  obtain ⟨tv, htv, htin, htout⟩ := htr
  have ha : isl_map_dim af.trans isl_dim_in = a := by rw [htv]; exact htin
  have hb : isl_map_dim af.trans isl_dim_out = b := by rw [htv]; exact htout
  have hw : isl_set_dim pd isl_dim_set = w := isl_set_dim_of_hasDim hpd
  have hb32 : b < 4294967296 := by omega
  have hoff := affineOffset_grow ha hb hab hb32 (by omega)
  have hge := affineOutDim_ge S af pd
  rw [hw] at hge
  have hout32 : affineOutDim S af pd < 4294967296 := by
    unfold affineOutDim
    split
    · unfold u32
      omega
    · rw [hw]
      omega
  generalize hW : affineOutDim S af pd = W at h2b hge hout32 ⊢
  have hea := iterToScheduleMap_fit S h2a (by omega : w < 4294967296)
  have heb := iterToScheduleMap_fit S h2b hout32
  have hbase0 := hasDims_apply_domain (⟨tv, htv, htin, htout⟩ : af.trans.HasDims a b) hea.1
  have hbase := hasDims_apply_range hbase0 heb.1
  have h2a' : u32 (a * 2) = 2 * a := by rw [Nat.mul_comm]; exact u32_of_lt (by omega)
  have h2b' : u32 (b * 2) = 2 * b := by rw [Nat.mul_comm]; exact u32_of_lt (by omega)
  have hf1 := foldl_refine
    (fun amap i => isl_map_equate amap isl_dim_out i isl_dim_in i)
    (fun i x y => coord y i = coord x i) w W (evenBelow (2 * a))
    (fun m i hi hm => rel_equate hm (by have := (mem_evenBelow _ _).1 hi; omega)
      (by have := (mem_evenBelow _ _).1 hi; omega))
    _ hbase
  have hL2 : ∀ i, i ∈ (fromTo (2 * a) w).takeWhile
        (fun i => decide (u32 (i + 2 * (b - a)) < W))
      ↔ 2 * a ≤ i ∧ i < w ∧ i + 2 * (b - a) < W := by
    intro i
    unfold fromTo
    rw [mem_takeWhile_range _ w (by
      intro i j hij hj hp
      rw [decide_eq_true_eq] at hp ⊢
      rw [u32_of_lt (by omega)] at hp
      rw [u32_of_lt (by omega)]
      omega) _ _ _ (by omega)]
    constructor
    · rintro ⟨h1, h2, h3⟩
      rw [decide_eq_true_eq, u32_of_lt (by omega)] at h3
      exact ⟨h1, h2, h3⟩
    · rintro ⟨h1, h2, h3⟩
      refine ⟨h1, h2, ?_⟩
      rw [decide_eq_true_eq, u32_of_lt (by omega)]
      exact h3
  have hf2 := foldl_refine
    (fun amap i => isl_map_equate amap isl_dim_out (u32 (i + 2 * (b - a))) isl_dim_in i)
    (fun i x y => coord y (i + 2 * (b - a)) = coord x i) w W
    ((fromTo (2 * a) w).takeWhile (fun i => decide (u32 (i + 2 * (b - a)) < W)))
    (fun m i hi hm => by
      have hi' := (hL2 i).1 hi
      dsimp only
      rw [u32_of_lt (by omega)]
      exact rel_equate hm hi'.2.2 hi'.2.1)
    _ hf1.1
  have hf3 := foldl_refine
    (fun amap i => isl_map_fix_si amap isl_dim_out (u32 (2 * a + i)) 0)
    (fun i _ y => coord y (2 * a + i) = 0) w W (evenBelow (2 * (b - a)))
    (fun m i hi hm => by
      have hi' := (mem_evenBelow _ _).1 hi
      dsimp only
      rw [u32_of_lt (by omega)]
      exact rel_fix hm (by omega) 0)
    _ hf2.1
  have hf4 := foldl_refine
    (fun amap i => isl_map_fix_si amap isl_dim_out i 0)
    (fun i _ y => coord y i = 0) w W (fromTo (w + 2 * (b - a)) W)
    (fun m i hi hm => rel_fix hm ((mem_fromTo _ _ _).1 hi).2 0)
    _ hf3.1
  have hmin : min (2 * a) (2 * b) = 2 * a := by omega
  unfold affineMap
  simp only [ha, hb, hw, hW, hoff, h2a', h2b', hmin, u32_of_lt hnw]
  refine ⟨hf4.1, ?_⟩
  intro x y
  rw [hf4.2 x y, hf3.2 x y, hf2.2 x y, hf1.2 x y, rel_apply_range]
  simp only [rel_apply_domain, hea.2, heb.2, mem_evenBelow, hL2, mem_fromTo]
  constructor
  · rintro ⟨⟨⟨⟨⟨v, ⟨u, huv, hu1, hx1, hx2⟩, hv1, hy1, hy2⟩, h1⟩, h2⟩, h3⟩, h4⟩
    refine ⟨hx1, hy1, ?_, ?_, ?_, ?_, ?_⟩
    · have hu' : oddCoords a x = u := by
        apply point_ext (by rw [oddCoords_length, hu1])
        intro i hi
        rw [oddCoords_length] at hi
        rw [oddCoords_coord x hi, hx2 i hi]
      have hv' : oddCoords b y = v := by
        apply point_ext (by rw [oddCoords_length, hv1])
        intro i hi
        rw [oddCoords_length] at hi
        rw [oddCoords_coord y hi, hy2 i hi]
      rw [hu', hv']
      exact huv
    · intro k hk
      exact h1 (2 * k) ⟨by omega, by omega⟩
    · intro i hi1 hi2 hi3
      exact h2 i ⟨hi1, hi2, hi3⟩
    · intro i hi1 hi2
      exact h3 i ⟨hi1, hi2⟩
    · intro i hi1 hi2
      exact h4 i ⟨hi1, hi2⟩
  · rintro ⟨hx1, hy1, htrans, h1, h2, h3, h4⟩
    refine ⟨⟨⟨⟨⟨oddCoords b y, ⟨oddCoords a x, htrans, oddCoords_length _ _, hx1, ?_⟩,
      oddCoords_length _ _, hy1, ?_⟩, ?_⟩, ?_⟩, ?_⟩, ?_⟩
    · intro i hi
      exact (oddCoords_coord x hi).symm
    · intro i hi
      exact (oddCoords_coord y hi).symm
    · intro i hi
      have hk := h1 (i / 2) (by omega)
      have : 2 * (i / 2) = i := by omega
      rw [this] at hk
      exact hk
    · intro i hi
      exact h2 i hi.1 hi.2.1 hi.2.2
    · intro i hi
      exact h3 i hi.1 hi.2
    · intro i hi
      exact h4 i hi.1 hi.2

/-- The unit map of the case typeAffine when its parts have the dimensions of
the schedule: the map amap on the loop, the map cmap on the rest of the domain. -/
theorem affine_elementary_rel (S : Scop) (af : affineNodeType) (T : isl_map) (pd : isl_set)
    {w : Nat} (hpl : (isl_set_apply (S.LoopDomainMap af.l.name) T).HasDim w) (hpd : pd.HasDim w)
    (hM : (affineMap S af pd).HasDims w (affineOutDim S af pd)) :
    (elementaryMap S (nodeType.typeAffine af) T pd).HasDims w (affineOutDim S af pd)
      ∧ ∀ x y, (elementaryMap S (nodeType.typeAffine af) T pd).Rel x y
          ↔ ((affineMap S af pd).Rel x y
              ∧ (isl_set_apply (S.LoopDomainMap af.l.name) T).Mem x ∧ pd.Mem x)
            ∨ (affineRest S af T pd).Rel x y := by
  have hn : (S.LoopDomainMap af.l.name).isNone = false := by
    obtain ⟨v, hv, _⟩ := hpl
    cases hL : S.LoopDomainMap af.l.name with
    | none => rw [hL] at hv; exact absurd hv (by simp [isl_set_apply])
    | some d => rfl
  have hrest := affineRest_rel S af T pd hpl hpd
  have hA := hasDims_intersect_domain (hasDims_intersect_domain hM hpl) hpd
  have hE : elementaryMap S (nodeType.typeAffine af) T pd
      = isl_map_union
          (isl_map_intersect_domain
            (isl_map_intersect_domain (affineMap S af pd)
              (isl_set_apply (S.LoopDomainMap af.l.name) T)) pd)
          (affineRest S af T pd) := by
    unfold elementaryMap
    simp only [unitMap, caseAffine_eq, hn, Bool.false_eq_true, if_false]
  rw [hE]
  refine ⟨hasDims_union hA hrest.1, ?_⟩
  intro x y
  rw [rel_union hA hrest.1, rel_intersect_domain, rel_intersect_domain, and_assoc]

/-- C23: coordinate bookkeeping of the affine remap on the instances of l.  Let
the relation go from a to b coordinates with a ≤ b, let the domain have width
w ≥ 2 * a, and let w + offset be a value of the type unsigned, where
offset = 2 * (b - a).  Every pair (x, y) of the unit map with x in the
post-transform domain of l has x of width w and y of the new width w', and:
the relation relates (x[1], x[3], ..., x[2a - 1]) to (y[1], y[3], ..., y[2b - 1]);
y[2k] = x[2k] for every k < a; y[i + offset] = x[i] for every i with
2a ≤ i < w and i + offset < w'; y[2a + i] = 0 for every even i < offset; and
y[i] = 0 for every i with w + offset ≤ i < w'. -/
theorem C23_affine_bookkeeping (S : Scop) (af : affineNodeType) (T : isl_map) (pd : isl_set)
    (a b w : Nat) (htr : af.trans.HasDims a b) (hab : a ≤ b) (hpd : pd.HasDim w)
    (h2a : 2 * a ≤ w) (hnw : w + 2 * (b - a) < 4294967296) :
    ∀ x y, (elementaryMap S (nodeType.typeAffine af) T pd).Rel x y →
      (isl_set_apply (S.LoopDomainMap af.l.name) T).Mem x →
      x.length = w ∧ y.length = affineOutDim S af pd
        ∧ af.trans.Rel (oddCoords a x) (oddCoords b y)
        ∧ (∀ k < a, coord y (2 * k) = coord x (2 * k))
        ∧ (∀ i, 2 * a ≤ i → i < w → i + 2 * (b - a) < affineOutDim S af pd →
            coord y (i + 2 * (b - a)) = coord x i)
        ∧ (∀ i, i < 2 * (b - a) → i % 2 = 0 → coord y (2 * a + i) = 0)
        ∧ ∀ i, w + 2 * (b - a) ≤ i → i < affineOutDim S af pd → coord y i = 0 := by
  intro x y hxy hx
  cases hE : elementaryMap S (nodeType.typeAffine af) T pd with
  | none =>
    rw [hE] at hxy
    exact absurd hxy id
  | some m =>
    obtain ⟨hpl, _, _, hM, hrel⟩ := elementaryMap_affine_some hE
    rw [hE] at hxy
    have hxy' : m.Rel x y := hxy
    rcases (hrel x y).1 hxy' with ⟨h1, _, _⟩ | h2
    · obtain ⟨v, hv, _, _⟩ := hM
      obtain ⟨_, ⟨tv, htv⟩, _⟩ := affineMap_some hv
      have hb : isl_map_dim af.trans isl_dim_out = b := by
        obtain ⟨t, ht, _, ht2⟩ := htr
        rw [ht]
        exact ht2
      rw [hb] at htv
      have h2b : 2 * b ≤ affineOutDim S af pd := by
        by_contra hlt
        have hnull := iterToScheduleMap_null S (Nat.lt_of_not_le hlt) (by omega)
        rw [hnull] at htv
        exact absurd htv (by simp)
      exact ((affineMap_rel S af pd htr hab hpd h2a h2b hnw).2 x y).1 h1
    · have hpd' : pd.HasDim m.nIn := (elementaryMap_affine_some hE).2.1
      exact absurd hx ((affineRest_rel S af T pd hpl hpd').2 x y |>.1 h2).2.1

theorem ex3_postDomain_mem (ctx : isl_ctx) :
    (isl_set_apply (scheduleRange (ex3Scop ctx))
      (isl_set_identity (scheduleRange (ex3Scop ctx)))).Mem [0, 0, 0, 0, 0, 0, 0] := by
  have hr : (scheduleRange (ex3Scop ctx)).Mem [0, 0, 0, 0, 0, 0, 0] := by
    simp only [scheduleRange, ex3Scop, ex3Stmt, Scop.getSchedule, unionOfSchedules,
      Scop.getDomains, isl_union_map_intersect_domain, isl_union_map_range,
      isl_set_from_union_set, isl_set_coalesce, isl_set.Mem, SetVal.Mem, MapVal.Rel, coord,
      restrictPiece, List.map, List.filterMap, List.any, List.all, decide_True, and_self,
      Bool.or_false, if_true, List.mem_singleton, exists_eq_left]
    exact ⟨rfl, [0, 0, 0], by simp⟩
  rw [mem_apply]
  exact ⟨_, hr, (rel_identity _ _ _).2 ⟨hr, rfl⟩⟩

theorem ex3_postLoop_mem (ctx : isl_ctx) :
    (isl_set_apply ((ex3Scop ctx).LoopDomainMap "L3")
      (isl_set_identity (scheduleRange (ex3Scop ctx)))).Mem [0, 0, 0, 0, 0, 0, 0] := by
  have hp := ex3_postDomain_mem ctx
  rw [mem_apply] at hp ⊢
  obtain ⟨x, _, hx⟩ := hp
  rw [rel_identity] at hx
  obtain ⟨hx1, hx2⟩ := hx
  rw [← hx2] at hx1
  exact ⟨[0, 0, 0, 0, 0, 0, 0], ⟨rfl, rfl⟩, (rel_identity _ _ _).2 ⟨hx1, rfl⟩⟩

theorem ex3_grow (ctx : isl_ctx) :
    affineOutDim (ex3Scop ctx)
        ⟨⟨"L3"⟩, some ⟨2, 4, fun x y => y = [coord x 0, coord x 1, 0, 0]⟩⟩
        (isl_set_apply (scheduleRange (ex3Scop ctx))
          (isl_set_identity (scheduleRange (ex3Scop ctx)))) = 11
      ∧ (elementaryMap (ex3Scop ctx) exGrow
          (isl_set_identity (scheduleRange (ex3Scop ctx)))
          (isl_set_apply (scheduleRange (ex3Scop ctx))
            (isl_set_identity (scheduleRange (ex3Scop ctx))))).Rel
          [0, 0, 0, 0, 0, 0, 0] [0, 0, 0, 0, 0, 0, 0, 0, 0, 0, 0] := by
  have hpd := hasDim_apply (ex3Scop_range_dim ctx) (hasDims_identity (ex3Scop_range_dim ctx))
  have hpl : (isl_set_apply ((ex3Scop ctx).LoopDomainMap "L3")
      (isl_set_identity (scheduleRange (ex3Scop ctx)))).HasDim 7 :=
    hasDim_apply ⟨_, rfl, rfl⟩ (hasDims_identity (ex3Scop_range_dim ctx))
  have hW : affineOutDim (ex3Scop ctx)
      ⟨⟨"L3"⟩, some ⟨2, 4, fun x y => y = [coord x 0, coord x 1, 0, 0]⟩⟩
      (isl_set_apply (scheduleRange (ex3Scop ctx))
        (isl_set_identity (scheduleRange (ex3Scop ctx)))) = 11 := by
    have hoff := @affineOffset_grow
      ⟨⟨"L3"⟩, some ⟨2, 4, fun x y => y = [coord x 0, coord x 1, 0, 0]⟩⟩ 2 4 rfl rfl
      (by decide) (by decide) (by decide)
    unfold affineOutDim
    rw [hoff, isl_set_dim_of_hasDim hpd]
    have h3 : (ex3Scop ctx).LoopDimMap "L3" = 3 := rfl
    simp only [h3]
    decide
  refine ⟨hW, ?_⟩
  have hrel := affineMap_rel (ex3Scop ctx)
    ⟨⟨"L3"⟩, some ⟨2, 4, fun x y => y = [coord x 0, coord x 1, 0, 0]⟩⟩
    (isl_set_apply (scheduleRange (ex3Scop ctx))
      (isl_set_identity (scheduleRange (ex3Scop ctx))))
    (⟨_, rfl, rfl, rfl⟩ : isl_map.HasDims _ 2 4) (by decide) hpd (by decide)
    (by rw [hW]; decide) (by decide)
  have hel := affine_elementary_rel (ex3Scop ctx)
    ⟨⟨"L3"⟩, some ⟨2, 4, fun x y => y = [coord x 0, coord x 1, 0, 0]⟩⟩
    (isl_set_identity (scheduleRange (ex3Scop ctx)))
    (isl_set_apply (scheduleRange (ex3Scop ctx))
      (isl_set_identity (scheduleRange (ex3Scop ctx)))) hpl hpd hrel.1
  have hz : ∀ i, coord [0, 0, 0, 0, 0, 0, 0, 0, 0, 0, 0] i = 0 := by
    intro i
    rcases i with _ | _ | _ | _ | _ | _ | _ | _ | _ | _ | _ | i <;> rfl
  have hz7 : ∀ i, coord [0, 0, 0, 0, 0, 0, 0] i = 0 := by
    intro i
    rcases i with _ | _ | _ | _ | _ | _ | _ | i <;> rfl
  refine (hel.2 _ _).2 (Or.inl ⟨(hrel.2 _ _).2 ?_, ex3_postLoop_mem ctx, ex3_postDomain_mem ctx⟩)
  rw [hW]
  refine ⟨rfl, rfl, ⟨rfl, rfl, rfl⟩, ?_, ?_, ?_, ?_⟩
  · intro k _
    rw [hz, hz7]
  · intro i _ _ _
    rw [hz, hz7]
  · intro i _ _
    exact hz _
  · intro i _ _
    exact hz _

/-- Witness of C23: the third example region (depth 3, width 7) under the
identity and the directive affine(L3, [i, j] -> [i, j, 0, 0]) with a = 2 and
b = 4.  The new width is 11, the instance [0, 0, 0, 0, 0, 0, 0] of L3 is
related to the point of eleven zeros, and the coordinates 4, 5, 6 of the
instance stand at the positions 8, 9, 10 of its image. -/
theorem C23_affine_bookkeeping_witness :
    ((2 : Nat) ≤ 4 ∧ 2 * 2 ≤ 7 ∧ 7 + 2 * (4 - 2) < 4294967296)
      ∧ affineOutDim (ex3Scop ⟨fun p => Classical.propDecidable p⟩)
          ⟨⟨"L3"⟩, some ⟨2, 4, fun x y => y = [coord x 0, coord x 1, 0, 0]⟩⟩
          (isl_set_apply (scheduleRange (ex3Scop ⟨fun p => Classical.propDecidable p⟩))
            (isl_set_identity (scheduleRange (ex3Scop ⟨fun p => Classical.propDecidable p⟩))))
        = 11
      ∧ (elementaryMap (ex3Scop ⟨fun p => Classical.propDecidable p⟩) exGrow
          (isl_set_identity (scheduleRange (ex3Scop ⟨fun p => Classical.propDecidable p⟩)))
          (isl_set_apply (scheduleRange (ex3Scop ⟨fun p => Classical.propDecidable p⟩))
            (isl_set_identity (scheduleRange (ex3Scop ⟨fun p => Classical.propDecidable p⟩))))
          ).Rel [0, 0, 0, 0, 0, 0, 0] [0, 0, 0, 0, 0, 0, 0, 0, 0, 0, 0]
      ∧ (∀ i, 2 * 2 ≤ i → i < 7 → i + 2 * (4 - 2) < 11 →
          coord [0, 0, 0, 0, 0, 0, 0, 0, 0, 0, 0] (i + 2 * (4 - 2))
            = coord [0, 0, 0, 0, 0, 0, 0] i) := by
  have hex := ex3_grow ⟨fun p => Classical.propDecidable p⟩
  have h := C23_affine_bookkeeping (ex3Scop ⟨fun p => Classical.propDecidable p⟩)
    ⟨⟨"L3"⟩, some ⟨2, 4, fun x y => y = [coord x 0, coord x 1, 0, 0]⟩⟩
    (isl_set_identity (scheduleRange (ex3Scop ⟨fun p => Classical.propDecidable p⟩)))
    (isl_set_apply (scheduleRange (ex3Scop ⟨fun p => Classical.propDecidable p⟩))
      (isl_set_identity (scheduleRange (ex3Scop ⟨fun p => Classical.propDecidable p⟩))))
    2 4 7 ⟨_, rfl, rfl, rfl⟩ (by decide)
    (hasDim_apply (ex3Scop_range_dim _) (hasDims_identity (ex3Scop_range_dim _)))
    (by decide) (by decide) _ _ hex.2 (ex3_postLoop_mem _)
  rw [hex.1] at h
  exact ⟨⟨by decide, by decide, by decide⟩, hex.1, hex.2, h.2.2.2.2.1⟩

end Loopy
